import Mathlib

/-!
# Seed scanner of the Sia wallet (`modules/wallet/scan.go`) and erasure coder of the
renter (`modules/renter/erasure.go`)

A shallow embedding of the seed-based recovery scanner: the scanner state, key
generation, `ProcessConsensusChange` (both passes) and the `scan` loop; and of the
Reed-Solomon coder `rsCode`, a wrapper of the third-party `reedsolomon` library, whose
encoder is a parameter. Theorems about them follow the definitions.

Conventions of the embedding
* Go maps are `Finmap`s (finite, unordered, extensional); `len(m)` is `m.keys.card`.
* `uint64` values are natural numbers; every `uint64` operation of the source that can
  wrap is written with an explicit `% 2 ^ 64`. The conversion `uint64(i)` of a slice
  index or of a length is exact (a Go slice or map has fewer than `2 ^ 63` elements), so
  it is written `i`.
* Hashes, identifiers and currency values are natural numbers.
* Functions of other packages that the scanner calls (`UnlockConditions.UnlockHash`,
  `Block.MinerPayoutID`, `Transaction.SiacoinOutputID`, the package-level
  `generateKeys`) are fields of a parameter record `Deps`.
-/

namespace Sia

/-! ## Package `types` -/

namespace types

abbrev UnlockHash := Nat

abbrev SiacoinOutputID := Nat

abbrev SiafundOutputID := Nat

abbrev Currency := Nat

structure UnlockConditions where
  Timelock : Nat
  PublicKeys : List Nat
  SignaturesRequired : Nat
deriving DecidableEq, Repr

structure SiacoinOutput where
  Value : Currency
  UnlockHash : types.UnlockHash
deriving DecidableEq, Repr

structure SiacoinInput where
  ParentID : SiacoinOutputID
  UnlockConditions : types.UnlockConditions
deriving DecidableEq, Repr

structure SiafundOutput where
  Value : Currency
  UnlockHash : types.UnlockHash
  ClaimStart : Currency
deriving DecidableEq, Repr

structure SiafundInput where
  ParentID : SiafundOutputID
  UnlockConditions : types.UnlockConditions
  ClaimUnlockHash : types.UnlockHash
deriving DecidableEq, Repr

/-- A transaction. `ArbitraryData` stands for the fields the scanner never reads
(file contracts, storage proofs, miner fees, signatures). -/
structure Transaction where
  SiacoinInputs : List SiacoinInput
  SiacoinOutputs : List SiacoinOutput
  SiafundInputs : List SiafundInput
  SiafundOutputs : List SiafundOutput
  ArbitraryData : Nat
deriving DecidableEq, Repr

structure Block where
  ParentID : Nat
  Nonce : Nat
  Timestamp : Nat
  MinerPayouts : List SiacoinOutput
  Transactions : List Transaction
deriving DecidableEq, Repr

end types

/-! ## Package `modules` -/

namespace modules

abbrev Seed := Nat

structure SiacoinOutputDiff where
  Direction : Bool
  ID : types.SiacoinOutputID
  SiacoinOutput : types.SiacoinOutput
deriving DecidableEq, Repr

structure SiafundOutputDiff where
  Direction : Bool
  ID : types.SiafundOutputID
  SiafundOutput : types.SiafundOutput
deriving DecidableEq, Repr

/-- A consensus change. `RevertedBlocks` is part of the event but is never read by the
scanner. -/
structure ConsensusChange where
  RevertedBlocks : List types.Block
  AppliedBlocks : List types.Block
  SiacoinOutputDiffs : List SiacoinOutputDiff
  SiafundOutputDiffs : List SiafundOutputDiff
deriving DecidableEq, Repr

end modules

/-! ## Package `renter`: the erasure coder (`modules/renter/erasure.go`) -/

namespace renter

/-- Outcome of a Go call that returns a value and an error: the value, the error, or a
panic. -/
inductive Result (α : Type) where
  | ok (a : α)
  | err (e : Nat)
  | panic
deriving DecidableEq, Repr

/-- A piece (`[]byte`): `none` is the nil slice. -/
abbrev Piece := Option (List Nat)

/-- The interface `reedsolomon.Encoder` of the third-party library, as used by `rsCode`;
errors are numbers. `Encode` and `Reconstruct` work in place: on success they give the
contents of the slice after the call. `Join` gives the bytes written to the writer and
the error returned. -/
structure Encoder where
  Split : List Nat → Except Nat (List Piece)
  Encode : List Piece → Except Nat (List Piece)
  Reconstruct : List Piece → Except Nat (List Piece)
  Join : List Piece → Int → List Nat × Option Nat

structure rsCode where
  enc : Encoder
  numPieces : Int
  dataPieces : Int

def rsCode.NumPieces (rs : rsCode) : Int := rs.numPieces

def rsCode.MinPieces (rs : rsCode) : Int := rs.dataPieces

/-- Addition of `int` values (64 bits, wrapping). -/
def addInt (a b : Int) : Int := (a + b + 2 ^ 63) % 2 ^ 64 - 2 ^ 63

/-- Conversion `int(n)` of a `uint64`. -/
def toInt (n : Nat) : Int := if n % 2 ^ 64 < 2 ^ 63 then n % 2 ^ 64 else n % 2 ^ 64 - 2 ^ 64

/-- The sanity check of `Encode` finds `needed[i-1] >= needed[i]` for some `i`. -/
def notSorted : List Nat → Bool
  | a :: b :: rest => decide (a ≥ b) || notSorted (b :: rest)
  | _ => false

/-- The loop of `Encode` that converts the needed pieces into the unneeded ones: `i` is
the loop variable and `k` the number of passes left. -/
def unneededFrom : Nat → Nat → List Nat → List Nat
  | _, 0, _ => []
  | i, k + 1, [] => i :: unneededFrom (i + 1) k []
  | i, k + 1, n :: rest =>
    if n = i then unneededFrom (i + 1) k rest else i :: unneededFrom (i + 1) k (n :: rest)

/-- The loop of `Encode` that sets the unneeded pieces to nil; an index out of range
panics. -/
def dropPieces : List Piece → List Nat → Result (List Piece)
  | pieces, [] => Result.ok pieces
  | pieces, u :: rest =>
    if u < pieces.length then dropPieces (pieces.set u none) rest else Result.panic

/-- Method `Encode(data, needed)`; `DEBUG` is `build.DEBUG`, under which `build.Critical`
panics. -/
def rsCode.Encode (DEBUG : Bool) (rs : rsCode) (data : List Nat) (needed : List Nat) :
    Result (List Piece) :=
  if DEBUG && notSorted needed then Result.panic
  else
    let unneeded := unneededFrom 0 rs.NumPieces.toNat needed
    match rs.enc.Split data with
    | Except.error e => Result.err e
    | Except.ok pieces =>
      match rs.enc.Encode pieces with
      | Except.error e => Result.err e
      | Except.ok coded => dropPieces coded unneeded

/-- Method `Recover(pieces, n, w)`: the bytes written to `w` and the error returned. -/
def rsCode.Recover (rs : rsCode) (pieces : List Piece) (n : Nat) : List Nat × Option Nat :=
  match rs.enc.Reconstruct pieces with
  | Except.error e => ([], some e)
  | Except.ok full => rs.enc.Join full (toInt n)

/-- Function `NewRSCode(nData, nParity)`; `New` is `reedsolomon.New`. -/
def NewRSCode (New : Int → Int → Except Nat Encoder) (nData nParity : Int) :
    Except Nat rsCode :=
  match New nData nParity with
  | Except.error e => Except.error e
  | Except.ok enc =>
    Except.ok { enc := enc, numPieces := addInt nData nParity, dataPieces := nData }

/-- The contract of an encoder of the library for `nData` data shards and `nParity` parity
shards: `Split` of non-empty data gives `nData + nParity` shards; `Encode` of split data
succeeds and keeps the number of shards; `Reconstruct` gives back the
encoded shards from any pieces that agree with them where they are not nil and hold at
least `nData` of them; `Join` of the encoded shards writes the data. -/
structure ReedSolomon (enc : Encoder) (nData nParity : Nat) : Prop where
  split : ∀ data, data ≠ [] →
    ∃ shards, enc.Split data = Except.ok shards ∧ shards.length = nData + nParity
  encode : ∀ data shards, enc.Split data = Except.ok shards →
    ∃ coded, enc.Encode shards = Except.ok coded ∧ coded.length = shards.length
  reconstruct : ∀ data shards coded pieces (present : List Nat),
    enc.Split data = Except.ok shards → enc.Encode shards = Except.ok coded →
    pieces.length = coded.length →
    (∀ i, i < coded.length → pieces[i]? = coded[i]? ∨ pieces[i]? = some none) →
    present.Nodup → nData ≤ present.length →
    (∀ i ∈ present, i < coded.length ∧ pieces[i]? = coded[i]?) →
    enc.Reconstruct pieces = Except.ok coded
  join : ∀ data shards coded, enc.Split data = Except.ok shards →
    enc.Encode shards = Except.ok coded → data.length < 2 ^ 63 →
    enc.Join coded data.length = (data, none)

/-- The contract of `reedsolomon.New`: a coder is created only for positive shard counts
whose sum fits an `int`, and it satisfies `ReedSolomon`. -/
def LibraryContract (New : Int → Int → Except Nat Encoder) : Prop :=
  ∀ nData nParity enc, New nData nParity = Except.ok enc →
    0 < nData ∧ 0 < nParity ∧ nData + nParity < 2 ^ 63
      ∧ ReedSolomon enc nData.toNat nParity.toNat

/-- The replication code: one data shard and one parity shard equal to it. -/
def demoEncoder : Encoder where
  Split := fun data =>
    if data = [] then Except.error 1
    else Except.ok [some data, some (List.replicate data.length 0)]
  Encode := fun shards =>
    match shards with
    | [some a, some _] => Except.ok [some a, some a]
    | _ => Except.error 2
  Reconstruct := fun pieces =>
    match pieces with
    | [some a, _] => Except.ok [some a, some a]
    | [none, some b] => Except.ok [some b, some b]
    | _ => Except.error 3
  Join := fun shards n =>
    match shards with
    | some a :: _ => if n ≤ a.length then (a.take n.toNat, none) else ([], some 4)
    | _ => ([], some 5)

/-- A library that creates only the replication code. -/
def demoNew (nData nParity : Int) : Except Nat Encoder :=
  if nData = 1 ∧ nParity = 1 then Except.ok demoEncoder else Except.error 6

/-- The replication coder. -/
def demoCoder : rsCode := { enc := demoEncoder, numPieces := 2, dataPieces := 1 }

end renter

/-! ## Package `wallet` -/

namespace wallet

open types modules

/-- A key derived from the seed; only its unlock conditions are read by the scanner. -/
structure spendableKey where
  UnlockConditions : types.UnlockConditions
  SecretKeys : List Nat
deriving DecidableEq, Repr

/-- The functions of other packages used by the scanner, taken as parameters. -/
structure Deps where
  /-- Method `UnlockConditions.UnlockHash()`. -/
  UnlockHash : types.UnlockConditions → types.UnlockHash
  /-- Method `Block.MinerPayoutID(i)`. -/
  MinerPayoutID : types.Block → Nat → types.SiacoinOutputID
  /-- Method `Transaction.SiacoinOutputID(i)`. -/
  SiacoinOutputID : types.Transaction → Nat → types.SiacoinOutputID
  /-- Package-level `generateKeys(seed, start, n)`. -/
  generateKeys : modules.Seed → Nat → Nat → List spendableKey

def numInitialKeys : Nat := 1000000

def maxScanKeys : Nat := 100000000

structure scannedSiacoinOutput where
  id : types.SiacoinOutputID
  value : types.Currency
  seedIndex : Nat
deriving DecidableEq, Repr

/-- The map `keys`: address to seed index. -/
abbrev KeyMap := Finmap (fun _ : types.UnlockHash => Nat)

/-- The map `siacoinOutputs`. -/
abbrev OutputMap := Finmap (fun _ : types.SiacoinOutputID => scannedSiacoinOutput)

structure seedScanner where
  seed : modules.Seed
  keys : KeyMap
  siacoinOutputs : OutputMap
  largestIndexSeen : Nat
deriving DecidableEq

def seedScanner.isSeedAddress (s : seedScanner) (uh : types.UnlockHash) : Bool :=
  decide (uh ∈ s.keys)

/-- Body of the loop of `generateKeys`: `i` is the loop index of the first key of the
list. -/
def insertKeys (d : Deps) (initialProgress : Nat) : Nat → List spendableKey → KeyMap → KeyMap
  | _, [], keys => keys
  | i, k :: rest, keys =>
    insertKeys d initialProgress (i + 1) rest
      (keys.insert (d.UnlockHash k.UnlockConditions) ((initialProgress + i) % 2 ^ 64))

/-- Method `generateKeys(n)`. -/
def seedScanner.generateKeys (d : Deps) (s : seedScanner) (n : Nat) : seedScanner :=
  let initialProgress := s.keys.keys.card
  { s with keys := insertKeys d initialProgress 0 (d.generateKeys s.seed initialProgress n) s.keys }

/-- Loop over `block.MinerPayouts` (first pass); `i` is the index of the head of the
list. -/
def minerPayoutLoop (d : Deps) (keys : KeyMap) (block : types.Block) :
    Nat → List types.SiacoinOutput → OutputMap → OutputMap
  | _, [], outs => outs
  | i, mp :: rest, outs =>
    match keys.lookup mp.UnlockHash with
    | some index =>
      let id := d.MinerPayoutID block i
      minerPayoutLoop d keys block (i + 1) rest
        (outs.insert id { id := id, value := mp.Value, seedIndex := index })
    | none => minerPayoutLoop d keys block (i + 1) rest outs

/-- Loop over `txn.SiacoinOutputs` (first pass). -/
def siacoinOutputLoop (d : Deps) (keys : KeyMap) (txn : types.Transaction) :
    Nat → List types.SiacoinOutput → OutputMap → OutputMap
  | _, [], outs => outs
  | i, sco :: rest, outs =>
    match keys.lookup sco.UnlockHash with
    | some index =>
      let id := d.SiacoinOutputID txn i
      siacoinOutputLoop d keys txn (i + 1) rest
        (outs.insert id { id := id, value := sco.Value, seedIndex := index })
    | none => siacoinOutputLoop d keys txn (i + 1) rest outs

/-- Loop over `txn.SiacoinInputs` (first pass). -/
def siacoinInputLoop : List types.SiacoinInput → OutputMap → OutputMap
  | [], outs => outs
  | sci :: rest, outs =>
    if sci.ParentID ∈ outs then siacoinInputLoop rest (outs.erase sci.ParentID)
    else siacoinInputLoop rest outs

/-- Body of the loop over `block.Transactions` (first pass). -/
def updateTxn (d : Deps) (keys : KeyMap) (outs : OutputMap) (txn : types.Transaction) :
    OutputMap :=
  siacoinInputLoop txn.SiacoinInputs (siacoinOutputLoop d keys txn 0 txn.SiacoinOutputs outs)

/-- Body of the loop over `cc.AppliedBlocks` (first pass). -/
def updateBlock (d : Deps) (keys : KeyMap) (outs : OutputMap) (block : types.Block) :
    OutputMap :=
  block.Transactions.foldl (updateTxn d keys)
    (minerPayoutLoop d keys block 0 block.MinerPayouts outs)

/-- First pass of `ProcessConsensusChange`: "update outputs". -/
def updateOutputs (d : Deps) (keys : KeyMap) (outs : OutputMap) (cc : modules.ConsensusChange) :
    OutputMap :=
  cc.AppliedBlocks.foldl (updateBlock d keys) outs

/-- Addresses appended for one transaction (second pass). -/
def txnAddrs (d : Deps) (txn : types.Transaction) : List types.UnlockHash :=
  txn.SiacoinInputs.map (fun sci => d.UnlockHash sci.UnlockConditions)
    ++ txn.SiacoinOutputs.map (fun sco => sco.UnlockHash)
    ++ txn.SiafundInputs.map (fun sfi => d.UnlockHash sfi.UnlockConditions)
    ++ txn.SiafundOutputs.map (fun sfo => sfo.UnlockHash)

/-- Addresses appended for one applied block (second pass). -/
def blockAddrs (d : Deps) (block : types.Block) : List types.UnlockHash :=
  block.MinerPayouts.map (fun mp => mp.UnlockHash)
    ++ (block.Transactions.map (txnAddrs d)).flatten

/-- The slice `addrs` built by the second pass. -/
def collectAddrs (d : Deps) (cc : modules.ConsensusChange) : List types.UnlockHash :=
  cc.SiacoinOutputDiffs.map (fun diff => diff.SiacoinOutput.UnlockHash)
    ++ cc.SiafundOutputDiffs.map (fun diff => diff.SiafundOutput.UnlockHash)
    ++ (cc.AppliedBlocks.map (blockAddrs d)).flatten

/-- Body of the final loop of the second pass. -/
def bumpLargest (keys : KeyMap) (largest : Nat) (addr : types.UnlockHash) : Nat :=
  match keys.lookup addr with
  | some index => if index > largest then index else largest
  | none => largest

/-- Second pass of `ProcessConsensusChange`: "update largestIndexSeen". -/
def updateLargestIndexSeen (d : Deps) (keys : KeyMap) (largest : Nat)
    (cc : modules.ConsensusChange) : Nat :=
  (collectAddrs d cc).foldl (bumpLargest keys) largest

/-- Method `ProcessConsensusChange(cc)`. -/
def seedScanner.ProcessConsensusChange (d : Deps) (s : seedScanner)
    (cc : modules.ConsensusChange) : seedScanner :=
  { s with
    siacoinOutputs := updateOutputs d s.keys s.siacoinOutputs cc
    largestIndexSeen := updateLargestIndexSeen d s.keys s.largestIndexSeen cc }

/-- Function `newSeedScanner(seed)`. -/
def newSeedScanner (seed : modules.Seed) : seedScanner :=
  { seed := seed, keys := ∅, siacoinOutputs := ∅, largestIndexSeen := 0 }

/-- Errors returned by `scan`. `errMaxKeys` is the package variable of that name; Go
compares errors by identity, so an error returned by the consensus set is never equal to
it, and is represented by `consensus e`. -/
inductive Error where
  | errMaxKeys
  | consensus (e : Nat)
deriving DecidableEq, Repr

/-- What one call `cs.ConsensusSetSubscribe(s, modules.ConsensusChangeBeginning)` does:
it passes `events`, in order, to `s.ProcessConsensusChange` and then returns `err`. -/
structure Replay where
  events : List modules.ConsensusChange
  err : Option Nat

/-- The consensus set as seen by `scan`: the replay performed by the subscribe call
number `k` (counted from 0). -/
abbrev ConsensusSet := Nat → Replay

/-- Calls made by `scan`, recorded in order. -/
inductive Call where
  | generateKeys (n : Nat)
  | ConsensusSetSubscribe
  | Unsubscribe
deriving DecidableEq, Repr

/-- State of the loop of `scan`: the scanner, the local `numKeys`, and two ghost fields,
the number of subscribe calls made so far and the calls made so far. -/
structure ScanState where
  s : seedScanner
  numKeys : Nat
  subscribes : Nat
  trace : List Call
deriving DecidableEq

/-- Result of running the loop of `scan` once from its head. -/
inductive Step where
  | again (c : ScanState)
  | done (c : ScanState) (err : Option Error)

/-- Subtraction of `uint64` values. -/
def subUint64 (a b : Nat) : Nat := (a + (2 ^ 64 - b % 2 ^ 64)) % 2 ^ 64

/-- The scanner after `s.generateKeys(numKeys)` and the replay of the subscribe call. -/
def replayed (d : Deps) (cs : ConsensusSet) (c : ScanState) : seedScanner :=
  (cs c.subscribes).events.foldl (seedScanner.ProcessConsensusChange d)
    (c.s.generateKeys d c.numKeys)

/-- One pass through the loop of `scan`, from the test of the loop condition; `C` is
`maxScanKeys`. -/
def scanStep (d : Deps) (cs : ConsensusSet) (C : Nat) (c : ScanState) : Step :=
  if c.s.keys.keys.card < C then
    let s2 := replayed d cs c
    let tr := c.trace ++ [Call.generateKeys c.numKeys, Call.ConsensusSetSubscribe]
    match (cs c.subscribes).err with
    | some e =>
      Step.done { s := s2, numKeys := c.numKeys, subscribes := c.subscribes + 1, trace := tr }
        (some (Error.consensus e))
    | none =>
      if s2.largestIndexSeen < s2.keys.keys.card / 2 then
        Step.done { s := s2, numKeys := c.numKeys, subscribes := c.subscribes + 1,
                    trace := tr ++ [Call.Unsubscribe] } none
      else
        let numKeys := (c.numKeys * 2) % 2 ^ 64
        let room := subUint64 C s2.keys.keys.card
        Step.again { s := s2, numKeys := if numKeys > room then room else numKeys,
                     subscribes := c.subscribes + 1, trace := tr }
  else
    Step.done { c with trace := c.trace ++ [Call.Unsubscribe] } (some Error.errMaxKeys)

/-- The loop of `scan`, run for at most `fuel` passes; `none` when the loop has not
returned within `fuel` passes. -/
def scanLoop (d : Deps) (cs : ConsensusSet) (C : Nat) :
    Nat → ScanState → Option (ScanState × Option Error)
  | 0, _ => none
  | fuel + 1, c =>
    match scanStep d cs C c with
    | Step.again c1 => scanLoop d cs C fuel c1
    | Step.done c1 err => some (c1, err)

/-- State on entry to the loop of `scan`; `B0` is `numInitialKeys`. -/
def scanInit (B0 : Nat) (s : seedScanner) : ScanState :=
  { s := s, numKeys := B0, subscribes := 0, trace := [] }

/-- Method `scan(cs)` with the constants `numInitialKeys = B0`, `maxScanKeys = C`. -/
def scanWith (d : Deps) (cs : ConsensusSet) (B0 C : Nat) (fuel : Nat) (s : seedScanner) :
    Option (ScanState × Option Error) :=
  scanLoop d cs C fuel (scanInit B0 s)

/-- Method `scan(cs)`. -/
def seedScanner.scan (d : Deps) (cs : ConsensusSet) (fuel : Nat) (s : seedScanner) :
    Option (ScanState × Option Error) :=
  scanWith d cs numInitialKeys maxScanKeys fuel s

/-- State at the head of the loop of `scan` after `k` complete passes, when none of them
returned. -/
def loopHead (d : Deps) (cs : ConsensusSet) (C : Nat) : Nat → ScanState → Option ScanState
  | 0, c => some c
  | k + 1, c =>
    match scanStep d cs C c with
    | Step.again c1 => loopHead d cs C k c1
    | Step.done _ _ => none

/-! ## The first pass as a sequence of creations and spends -/

/-- One effect of the first pass on the output set, in the order the code performs them:
the creation of an output (miner payout or siacoin output) under its identifier, or the
spending of an identifier by a siacoin input. -/
inductive LedgerOp where
  | create (id : types.SiacoinOutputID) (out : types.SiacoinOutput)
  | spend (id : types.SiacoinOutputID)
deriving DecidableEq, Repr

/-- Identifier created by an operation, if any. -/
def LedgerOp.created : LedgerOp → Option types.SiacoinOutputID
  | LedgerOp.create id _ => some id
  | LedgerOp.spend _ => none

/-- Identifier spent by an operation, if any. -/
def LedgerOp.spent : LedgerOp → Option types.SiacoinOutputID
  | LedgerOp.create _ _ => none
  | LedgerOp.spend id => some id

/-- Creations of the miner payouts of a block, `MinerPayoutID(i)` for payout `i`. -/
def minerPayoutOps (d : Deps) (block : types.Block) : List LedgerOp :=
  block.MinerPayouts.enum.map (fun p => LedgerOp.create (d.MinerPayoutID block p.1) p.2)

/-- Operations of a transaction: its siacoin outputs, `SiacoinOutputID(i)` for output
`i`, then its siacoin inputs. -/
def txnOps (d : Deps) (txn : types.Transaction) : List LedgerOp :=
  txn.SiacoinOutputs.enum.map (fun p => LedgerOp.create (d.SiacoinOutputID txn p.1) p.2)
    ++ txn.SiacoinInputs.map (fun sci => LedgerOp.spend sci.ParentID)

/-- Operations of a block: its miner payouts, then its transactions in order. -/
def blockOps (d : Deps) (block : types.Block) : List LedgerOp :=
  minerPayoutOps d block ++ (block.Transactions.map (txnOps d)).flatten

/-- Operations of an event: its applied blocks in order. -/
def eventOps (d : Deps) (cc : modules.ConsensusChange) : List LedgerOp :=
  (cc.AppliedBlocks.map (blockOps d)).flatten

/-- Operations of a sequence of events. -/
def historyOps (d : Deps) (ccs : List modules.ConsensusChange) : List LedgerOp :=
  (ccs.map (eventOps d)).flatten

/-- Effect of one operation on the output set, given the map `keys`. -/
def applyOp (keys : KeyMap) (outs : OutputMap) : LedgerOp → OutputMap
  | LedgerOp.create id out =>
    match keys.lookup out.UnlockHash with
    | some index => outs.insert id { id := id, value := out.Value, seedIndex := index }
    | none => outs
  | LedgerOp.spend id => if id ∈ outs then outs.erase id else outs

/-- Effect of a list of operations on the output set. -/
def runOps (keys : KeyMap) (outs : OutputMap) (ops : List LedgerOp) : OutputMap :=
  ops.foldl (applyOp keys) outs

/-- An operation changes the entry of `id` in the output set: it spends `id`, or it
creates `id` at an address of `keys`. -/
def LedgerOp.affects (keys : KeyMap) (id : types.SiacoinOutputID) : LedgerOp → Prop
  | LedgerOp.create id1 out => id1 = id ∧ out.UnlockHash ∈ keys
  | LedgerOp.spend id1 => id1 = id

/-- Each output identifier is created at most once in the sequence. -/
def CreatedOnce (ops : List LedgerOp) : Prop :=
  (ops.filterMap LedgerOp.created).Nodup

/-- No input references an identifier at a position before a creation of that
identifier: every spend of an identifier comes after every creation of it. -/
def SpentAfterCreation (ops : List LedgerOp) : Prop :=
  ops.Pairwise (fun a b => a.spent = none ∨ a.spent ≠ b.created)

instance (ops : List LedgerOp) : Decidable (CreatedOnce ops) :=
  inferInstanceAs (Decidable (ops.filterMap LedgerOp.created).Nodup)

instance (ops : List LedgerOp) : Decidable (SpentAfterCreation ops) :=
  inferInstanceAs
    (Decidable (List.Pairwise (fun a b : LedgerOp => a.spent = none ∨ a.spent ≠ b.created) ops))

/-- The applied blocks of `cc` hold a miner payout or a siacoin output `out` whose
identifier (`MinerPayoutID(i)`, `SiacoinOutputID(i)`) is `id`. -/
def CreatedIn (d : Deps) (cc : modules.ConsensusChange) (id : types.SiacoinOutputID)
    (out : types.SiacoinOutput) : Prop :=
  ∃ block ∈ cc.AppliedBlocks,
    (∃ i, block.MinerPayouts[i]? = some out ∧ d.MinerPayoutID block i = id) ∨
    (∃ txn ∈ block.Transactions,
      ∃ i, txn.SiacoinOutputs[i]? = some out ∧ d.SiacoinOutputID txn i = id)

/-- The address `a` occurs in the event `cc`: as the `UnlockHash` of a siacoin or siafund
output diff, or, in an applied block, as the `UnlockHash` of a miner payout, of the unlock
conditions of a siacoin or siafund input, or of a siacoin or siafund output. -/
def OccursIn (d : Deps) (cc : modules.ConsensusChange) (a : types.UnlockHash) : Prop :=
  (∃ diff ∈ cc.SiacoinOutputDiffs, diff.SiacoinOutput.UnlockHash = a)
  ∨ (∃ diff ∈ cc.SiafundOutputDiffs, diff.SiafundOutput.UnlockHash = a)
  ∨ ∃ block ∈ cc.AppliedBlocks,
      (∃ mp ∈ block.MinerPayouts, mp.UnlockHash = a)
      ∨ ∃ txn ∈ block.Transactions,
          (∃ sci ∈ txn.SiacoinInputs, d.UnlockHash sci.UnlockConditions = a)
          ∨ (∃ sco ∈ txn.SiacoinOutputs, sco.UnlockHash = a)
          ∨ (∃ sfi ∈ txn.SiafundInputs, d.UnlockHash sfi.UnlockConditions = a)
          ∨ (∃ sfo ∈ txn.SiafundOutputs, sfo.UnlockHash = a)

/-- The address `a` is the hash of the unlock conditions of a siacoin or siafund input
of a transaction of an applied block of `cc`. -/
def AuthorizesInput (d : Deps) (cc : modules.ConsensusChange) (a : types.UnlockHash) : Prop :=
  ∃ block ∈ cc.AppliedBlocks, ∃ txn ∈ block.Transactions,
    (∃ sci ∈ txn.SiacoinInputs, d.UnlockHash sci.UnlockConditions = a)
    ∨ (∃ sfi ∈ txn.SiafundInputs, d.UnlockHash sfi.UnlockConditions = a)

/-- The address `a` is the destination of no output diff, miner payout, siacoin output
or siafund output of `cc`. -/
def NoDestination (cc : modules.ConsensusChange) (a : types.UnlockHash) : Prop :=
  (∀ diff ∈ cc.SiacoinOutputDiffs, diff.SiacoinOutput.UnlockHash ≠ a)
  ∧ (∀ diff ∈ cc.SiafundOutputDiffs, diff.SiafundOutput.UnlockHash ≠ a)
  ∧ ∀ block ∈ cc.AppliedBlocks,
      (∀ mp ∈ block.MinerPayouts, mp.UnlockHash ≠ a)
      ∧ ∀ txn ∈ block.Transactions,
          (∀ sco ∈ txn.SiacoinOutputs, sco.UnlockHash ≠ a)
          ∧ (∀ sfo ∈ txn.SiafundOutputs, sfo.UnlockHash ≠ a)

/-- The key derivation of `seed` is injective: key `i` has address `addr i`, distinct
indices have distinct addresses, and `generateKeys(seed, start, n)` returns the keys of
indices `start`, ..., `start + n - 1` in order. -/
def InjectiveDerivation (d : Deps) (seed : modules.Seed) (addr : Nat → types.UnlockHash) : Prop :=
  Function.Injective addr
    ∧ ∀ start n, (d.generateKeys seed start n).map (fun k => d.UnlockHash k.UnlockConditions)
        = (List.range' start n).map addr

/-- The map `keys` holds exactly the addresses of the indices below its size, each mapped
to its index. -/
def Dense (addr : Nat → types.UnlockHash) (keys : KeyMap) : Prop :=
  ∀ a i, keys.lookup a = some i ↔ (i < keys.keys.card ∧ addr i = a)

/-- The value of the local `numKeys` at the end of a pass that loops. -/
def nextNumKeys (C numKeys len : Nat) : Nat :=
  if (numKeys * 2) % 2 ^ 64 > subUint64 C len then subUint64 C len else (numKeys * 2) % 2 ^ 64

/-- The gap rule holds for the scanner: `largestIndexSeen < len(keys) / 2`. -/
def GapRule (s : seedScanner) : Prop := s.largestIndexSeen < s.keys.keys.card / 2

instance (s : seedScanner) : Decidable (GapRule s) :=
  inferInstanceAs (Decidable (s.largestIndexSeen < s.keys.keys.card / 2))

/-- The state in which `scan` returns `nil` from the pass that starts in `c`. -/
def doneState (d : Deps) (cs : ConsensusSet) (c : ScanState) : ScanState :=
  { s := replayed d cs c, numKeys := c.numKeys, subscribes := c.subscribes + 1,
    trace := c.trace ++ [Call.generateKeys c.numKeys, Call.ConsensusSetSubscribe,
                         Call.Unsubscribe] }

/-- The state carried by the result of a pass. -/
def Step.state : Step → ScanState
  | Step.again c => c
  | Step.done c _ => c

/-- Invariant of the loop of `scan` at its head after `k` passes, for a fresh scanner of
`seed` with the injective derivation `addr`: the keys are dense, their number is
`min ((2 ^ k - 1) * B0) C` and `numKeys` is `min (2 ^ k * B0) (C - len(keys))`. -/
def HeadInv (addr : Nat → types.UnlockHash) (seed : modules.Seed) (B0 C k : Nat)
    (c : ScanState) : Prop :=
  c.s.seed = seed ∧ Dense addr c.s.keys
    ∧ c.s.keys.keys.card = min ((2 ^ k - 1) * B0) C
    ∧ c.numKeys = min (2 ^ k * B0) (C - c.s.keys.keys.card)

/-- A call made on a scanner from outside: `generateKeys(n)` or
`ProcessConsensusChange(cc)`. -/
inductive ScannerCall where
  | generateKeys (n : Nat)
  | ProcessConsensusChange (cc : modules.ConsensusChange)

/-- The scanner after one call. -/
def seedScanner.call (d : Deps) (s : seedScanner) : ScannerCall → seedScanner
  | ScannerCall.generateKeys n => s.generateKeys d n
  | ScannerCall.ProcessConsensusChange cc => s.ProcessConsensusChange d cc

/-- The scanner after a sequence of calls. -/
def seedScanner.run (d : Deps) (s : seedScanner) (calls : List ScannerCall) : seedScanner :=
  calls.foldl (seedScanner.call d) s

/-- The number of keys requested by the `generateKeys` calls of a sequence. -/
def requestedKeys : List ScannerCall → Nat
  | [] => 0
  | ScannerCall.generateKeys n :: rest => n + requestedKeys rest
  | ScannerCall.ProcessConsensusChange _ :: rest => requestedKeys rest

/-- The addresses of the keys that the derivation returns to `generateKeys(n)` called in
state `s`, in order. -/
def derivedAddrs (d : Deps) (s : seedScanner) (n : Nat) : List types.UnlockHash :=
  (d.generateKeys s.seed s.keys.keys.card n).map (fun k => d.UnlockHash k.UnlockConditions)

/-- A scanner of seed `seed` holding `keys`, with an empty ledger and
`largestIndexSeen = 0`. -/
def freshScanner (seed : modules.Seed) (keys : KeyMap) : seedScanner :=
  { seed := seed, keys := keys, siacoinOutputs := ∅, largestIndexSeen := 0 }

/-- One replay: `ProcessConsensusChange` on every event of the history, in order. -/
def replay (d : Deps) (H : List modules.ConsensusChange) (s : seedScanner) : seedScanner :=
  H.foldl (seedScanner.ProcessConsensusChange d) s

/-- The history of the end-to-end scenario, for the derivation `addr`: it is well formed,
it pays `out0`, `out3`, `out9` (identifiers `id0`, `id3`, `id9`) to the addresses of the
indices 0, 3 and 900000, it spends `id3` and neither `id0` nor `id9`, no other output goes
to an address of an index below 3000000, and no address of another index below 3000000
occurs in it. -/
structure Scenario (d : Deps) (addr : Nat → types.UnlockHash)
    (H : List modules.ConsensusChange) (id0 id3 id9 : types.SiacoinOutputID)
    (out0 out3 out9 : types.SiacoinOutput) : Prop where
  createdOnce : CreatedOnce (historyOps d H)
  spentAfter : SpentAfterCreation (historyOps d H)
  pay0 : LedgerOp.create id0 out0 ∈ historyOps d H
  addr0 : out0.UnlockHash = addr 0
  pay3 : LedgerOp.create id3 out3 ∈ historyOps d H
  addr3 : out3.UnlockHash = addr 3
  pay9 : LedgerOp.create id9 out9 ∈ historyOps d H
  addr9 : out9.UnlockHash = addr 900000
  spend3 : LedgerOp.spend id3 ∈ historyOps d H
  unspent0 : LedgerOp.spend id0 ∉ historyOps d H
  unspent9 : LedgerOp.spend id9 ∉ historyOps d H
  onlyThese : ∀ id out, LedgerOp.create id out ∈ historyOps d H →
    ∀ i, i < 3000000 → out.UnlockHash = addr i →
      (id = id0 ∧ out = out0) ∨ (id = id3 ∧ out = out3) ∨ (id = id9 ∧ out = out9)
  noOther : ∀ cc ∈ H, ∀ a, OccursIn d cc a →
    ∀ i, i < 3000000 → addr i = a → i = 0 ∨ i = 3 ∨ i = 900000

/-- The ledger of the end-to-end scenario: exactly `id0` with the value of `out0` and
index 0, and `id9` with the value of `out9` and index 900000. -/
def ScenarioLedger (outs : OutputMap) (id0 id9 : types.SiacoinOutputID)
    (out0 out9 : types.SiacoinOutput) : Prop :=
  ∀ id r, outs.lookup id = some r ↔
    (id = id0 ∧ r = { id := id0, value := out0.Value, seedIndex := 0 })
    ∨ (id = id9 ∧ r = { id := id9, value := out9.Value, seedIndex := 900000 })

/-! ## Concrete data used to exercise the theorems -/

/-- A concrete choice of the external functions: the address of unlock conditions is
their timelock, identifiers of miner payouts are even, identifiers of siacoin outputs are
odd, and key `i` of seed `seed` has address `100 * seed + i`. -/
def demoDeps : Deps where
  UnlockHash := fun uc => uc.Timelock
  MinerPayoutID := fun block i => 2 * (10 * block.Nonce + i)
  SiacoinOutputID := fun txn i => 2 * (10 * txn.ArbitraryData + i) + 1
  generateKeys := fun seed start n =>
    (List.range n).map (fun i =>
      { UnlockConditions := { Timelock := 100 * seed + (start + i), PublicKeys := [],
                              SignaturesRequired := 1 },
        SecretKeys := [] })

/-- Unlock conditions whose address under `demoDeps` is `a`. -/
def demoConditions (a : Nat) : types.UnlockConditions :=
  { Timelock := a, PublicKeys := [], SignaturesRequired := 1 }

/-- A scanner of seed 0 holding the four keys of addresses 0, 1, 2, 3. -/
def demoScanner : seedScanner :=
  (newSeedScanner 0).generateKeys demoDeps 4

/-- A transaction paying 7 to address 3 and 9 to address 50; its outputs have
identifiers 21 and 23. -/
def demoTxnPay : types.Transaction :=
  { SiacoinInputs := [{ ParentID := 801, UnlockConditions := demoConditions 60 }],
    SiacoinOutputs := [{ Value := 7, UnlockHash := 3 }, { Value := 9, UnlockHash := 50 }],
    SiafundInputs := [], SiafundOutputs := [], ArbitraryData := 1 }

/-- A transaction spending output 21 (authorised by address 3) into address 51; its
output has identifier 41. -/
def demoTxnSpend : types.Transaction :=
  { SiacoinInputs := [{ ParentID := 21, UnlockConditions := demoConditions 3 }],
    SiacoinOutputs := [{ Value := 7, UnlockHash := 51 }],
    SiafundInputs := [], SiafundOutputs := [], ArbitraryData := 2 }

/-- A block whose miner payout of 50 goes to address 0 (identifier 20) and which holds
`demoTxnPay`. -/
def demoBlock1 : types.Block :=
  { ParentID := 0, Nonce := 1, Timestamp := 0,
    MinerPayouts := [{ Value := 50, UnlockHash := 0 }], Transactions := [demoTxnPay] }

/-- A block whose miner payout goes to address 70 (identifier 40) and which holds
`demoTxnSpend`. -/
def demoBlock2 : types.Block :=
  { ParentID := 1, Nonce := 2, Timestamp := 1,
    MinerPayouts := [{ Value := 50, UnlockHash := 70 }], Transactions := [demoTxnSpend] }

/-- The event applying `demoBlock1`. -/
def demoEvent1 : modules.ConsensusChange :=
  { RevertedBlocks := [], AppliedBlocks := [demoBlock1], SiacoinOutputDiffs := [],
    SiafundOutputDiffs := [] }

/-- The event applying `demoBlock1` and then `demoBlock2`. -/
def demoEvent12 : modules.ConsensusChange :=
  { RevertedBlocks := [], AppliedBlocks := [demoBlock1, demoBlock2], SiacoinOutputDiffs := [],
    SiafundOutputDiffs := [] }

/-- The event applying `demoBlock2`. -/
def demoEvent2 : modules.ConsensusChange :=
  { RevertedBlocks := [], AppliedBlocks := [demoBlock2], SiacoinOutputDiffs := [],
    SiafundOutputDiffs := [] }

/-- A transaction paying 7 to address 4. -/
def demoTxnGap : types.Transaction :=
  { SiacoinInputs := [],
    SiacoinOutputs := [{ Value := 7, UnlockHash := 4 }],
    SiafundInputs := [], SiafundOutputs := [], ArbitraryData := 3 }

/-- A block holding `demoTxnGap`. -/
def demoBlockGap : types.Block :=
  { ParentID := 0, Nonce := 3, Timestamp := 0, MinerPayouts := [], Transactions := [demoTxnGap] }

/-- The event applying `demoBlockGap`. -/
def demoEventGap : modules.ConsensusChange :=
  { RevertedBlocks := [], AppliedBlocks := [demoBlockGap], SiacoinOutputDiffs := [],
    SiafundOutputDiffs := [] }

/-- A consensus set whose history is `demoEventGap`: the highest seed index it touches
is 4. -/
def demoFeedGap : ConsensusSet := fun _ => { events := [demoEventGap], err := none }

/-- A consensus set whose subscribe call fails with error 7. -/
def demoFeedFailing : ConsensusSet := fun _ => { events := [], err := some 7 }

/-- A transaction paying to the addresses 15, 8 and 3. -/
def demoTxnBusy : types.Transaction :=
  { SiacoinInputs := [],
    SiacoinOutputs := [{ Value := 7, UnlockHash := 15 }, { Value := 1, UnlockHash := 8 },
                       { Value := 1, UnlockHash := 3 }],
    SiafundInputs := [], SiafundOutputs := [], ArbitraryData := 4 }

/-- A block holding `demoTxnBusy`. -/
def demoBlockBusy : types.Block :=
  { ParentID := 0, Nonce := 4, Timestamp := 0, MinerPayouts := [], Transactions := [demoTxnBusy] }

/-- The event applying `demoBlockBusy`. -/
def demoEventBusy : modules.ConsensusChange :=
  { RevertedBlocks := [], AppliedBlocks := [demoBlockBusy], SiacoinOutputDiffs := [],
    SiafundOutputDiffs := [] }

/-- A consensus set whose history is `demoEventBusy`: it touches the seed indices 3, 8
and 15. -/
def demoFeedBusy : ConsensusSet := fun _ => { events := [demoEventBusy], err := none }

/-- A transaction paying to the addresses 3 and 8. -/
def demoTxnFull : types.Transaction :=
  { SiacoinInputs := [],
    SiacoinOutputs := [{ Value := 1, UnlockHash := 8 }, { Value := 1, UnlockHash := 3 }],
    SiafundInputs := [], SiafundOutputs := [], ArbitraryData := 5 }

/-- A block holding `demoTxnFull`. -/
def demoBlockFull : types.Block :=
  { ParentID := 0, Nonce := 5, Timestamp := 0, MinerPayouts := [], Transactions := [demoTxnFull] }

/-- The event applying `demoBlockFull`. -/
def demoEventFull : modules.ConsensusChange :=
  { RevertedBlocks := [], AppliedBlocks := [demoBlockFull], SiacoinOutputDiffs := [],
    SiafundOutputDiffs := [] }

/-- A consensus set whose history is `demoEventFull`: it touches the seed indices 3
and 8. -/
def demoFeedFull : ConsensusSet := fun _ => { events := [demoEventFull], err := none }

/-- The loop state after the first pass of `scan` with 4 initial keys and a ceiling of
10 keys on `demoFeedFull`. -/
def demoStateClamped : ScanState :=
  { s := replayed demoDeps demoFeedFull (scanInit 4 (newSeedScanner 0)), numKeys := 6,
    subscribes := 1, trace := [Call.generateKeys 4, Call.ConsensusSetSubscribe] }

/-- A transaction paying 5 to address 0, 6 to address 3 and 7 to address 900000 (outputs
201, 203, 205). -/
def demoTxnFund : types.Transaction :=
  { SiacoinInputs := [{ ParentID := 801, UnlockConditions := demoConditions 5000000 }],
    SiacoinOutputs := [{ Value := 5, UnlockHash := 0 }, { Value := 6, UnlockHash := 3 },
                       { Value := 7, UnlockHash := 900000 }],
    SiafundInputs := [], SiafundOutputs := [], ArbitraryData := 10 }

/-- A transaction spending output 203 into address 5000001. -/
def demoTxnDrain : types.Transaction :=
  { SiacoinInputs := [{ ParentID := 203, UnlockConditions := demoConditions 3 }],
    SiacoinOutputs := [{ Value := 6, UnlockHash := 5000001 }],
    SiafundInputs := [], SiafundOutputs := [], ArbitraryData := 11 }

/-- A block holding `demoTxnFund`. -/
def demoBlockFund : types.Block :=
  { ParentID := 0, Nonce := 10, Timestamp := 0,
    MinerPayouts := [{ Value := 50, UnlockHash := 5000002 }], Transactions := [demoTxnFund] }

/-- A block holding `demoTxnDrain`. -/
def demoBlockDrain : types.Block :=
  { ParentID := 10, Nonce := 11, Timestamp := 1,
    MinerPayouts := [{ Value := 50, UnlockHash := 5000002 }], Transactions := [demoTxnDrain] }

/-- The history of the end-to-end scenario: two events of one block each. -/
def demoHistory : List modules.ConsensusChange :=
  [{ RevertedBlocks := [], AppliedBlocks := [demoBlockFund], SiacoinOutputDiffs := [],
     SiafundOutputDiffs := [] },
   { RevertedBlocks := [], AppliedBlocks := [demoBlockDrain], SiacoinOutputDiffs := [],
     SiafundOutputDiffs := [] }]

/-- A consensus set whose history is `demoHistory`. -/
def demoFeedHistory : ConsensusSet := fun _ => { events := demoHistory, err := none }

/-! ## The first pass is the run of the event's operations -/

theorem runOps_nil (keys : KeyMap) (outs : OutputMap) : runOps keys outs [] = outs := rfl

theorem runOps_cons (keys : KeyMap) (outs : OutputMap) (op : LedgerOp) (ops : List LedgerOp) :
    runOps keys outs (op :: ops) = runOps keys (applyOp keys outs op) ops := rfl

theorem runOps_append (keys : KeyMap) (outs : OutputMap) (a b : List LedgerOp) :
    runOps keys outs (a ++ b) = runOps keys (runOps keys outs a) b := by
  simp [runOps, List.foldl_append]

theorem minerPayoutLoop_eq_runOps (d : Deps) (keys : KeyMap) (block : types.Block)
    (l : List types.SiacoinOutput) :
    ∀ (i : Nat) (outs : OutputMap), minerPayoutLoop d keys block i l outs
      = runOps keys outs
          ((l.enumFrom i).map (fun p => LedgerOp.create (d.MinerPayoutID block p.1) p.2)) := by
  induction l with
  | nil => intro i outs; rfl
  | cons mp rest ih =>
    intro i outs
    simp only [List.enumFrom_cons, List.map_cons, runOps_cons, applyOp, minerPayoutLoop]
    cases h : keys.lookup mp.UnlockHash with
    | none => simp only [ih]
    | some index => simp only [ih]

theorem siacoinOutputLoop_eq_runOps (d : Deps) (keys : KeyMap) (txn : types.Transaction)
    (l : List types.SiacoinOutput) :
    ∀ (i : Nat) (outs : OutputMap), siacoinOutputLoop d keys txn i l outs
      = runOps keys outs
          ((l.enumFrom i).map (fun p => LedgerOp.create (d.SiacoinOutputID txn p.1) p.2)) := by
  induction l with
  | nil => intro i outs; rfl
  | cons sco rest ih =>
    intro i outs
    simp only [List.enumFrom_cons, List.map_cons, runOps_cons, applyOp, siacoinOutputLoop]
    cases h : keys.lookup sco.UnlockHash with
    | none => simp only [ih]
    | some index => simp only [ih]

theorem siacoinInputLoop_eq_runOps (keys : KeyMap) (l : List types.SiacoinInput) :
    ∀ outs : OutputMap, siacoinInputLoop l outs
      = runOps keys outs (l.map (fun sci => LedgerOp.spend sci.ParentID)) := by
  induction l with
  | nil => intro outs; rfl
  | cons sci rest ih =>
    intro outs
    simp only [List.map_cons, runOps_cons, applyOp, siacoinInputLoop]
    by_cases h : sci.ParentID ∈ outs
    · simp only [h, if_true, ih]
    · simp only [h, if_false, ih]

theorem updateTxn_eq_runOps (d : Deps) (keys : KeyMap) (outs : OutputMap)
    (txn : types.Transaction) :
    updateTxn d keys outs txn = runOps keys outs (txnOps d txn) := by
  simp only [updateTxn, txnOps, runOps_append, List.enum,
    siacoinInputLoop_eq_runOps keys, siacoinOutputLoop_eq_runOps]

/-- Folding a loop body that runs the operations of each element runs the operations
of the whole list. -/
theorem foldl_eq_runOps_flatten {α : Type} (keys : KeyMap) (f : α → List LedgerOp)
    (g : OutputMap → α → OutputMap) (hg : ∀ outs x, g outs x = runOps keys outs (f x))
    (l : List α) :
    ∀ outs : OutputMap, l.foldl g outs = runOps keys outs (l.map f).flatten := by
  induction l with
  | nil => intro outs; rfl
  | cons x rest ih =>
    intro outs
    simp only [List.foldl_cons, List.map_cons, List.flatten_cons, runOps_append, ih, hg]

theorem updateBlock_eq_runOps (d : Deps) (keys : KeyMap) (outs : OutputMap)
    (block : types.Block) :
    updateBlock d keys outs block = runOps keys outs (blockOps d block) := by
  simp only [updateBlock, blockOps, minerPayoutOps, runOps_append, List.enum,
    foldl_eq_runOps_flatten keys (txnOps d) (updateTxn d keys) (updateTxn_eq_runOps d keys),
    minerPayoutLoop_eq_runOps]

theorem updateOutputs_eq_runOps (d : Deps) (keys : KeyMap) (outs : OutputMap)
    (cc : modules.ConsensusChange) :
    updateOutputs d keys outs cc = runOps keys outs (eventOps d cc) := by
  simp only [updateOutputs, eventOps,
    foldl_eq_runOps_flatten keys (blockOps d) (updateBlock d keys) (updateBlock_eq_runOps d keys)]

theorem foldl_ProcessConsensusChange_keys (d : Deps) (ccs : List modules.ConsensusChange) :
    ∀ s : seedScanner, (ccs.foldl (seedScanner.ProcessConsensusChange d) s).keys = s.keys := by
  induction ccs with
  | nil => intro s; rfl
  | cons cc rest ih => intro s; simp only [List.foldl_cons, ih]; rfl

theorem foldl_ProcessConsensusChange_outputs (d : Deps) (ccs : List modules.ConsensusChange) :
    ∀ s : seedScanner, (ccs.foldl (seedScanner.ProcessConsensusChange d) s).siacoinOutputs
      = runOps s.keys s.siacoinOutputs (historyOps d ccs) := by
  induction ccs with
  | nil => intro s; rfl
  | cons cc rest ih =>
    intro s
    simp only [List.foldl_cons, ih, historyOps, List.map_cons, List.flatten_cons, runOps_append]
    simp only [seedScanner.ProcessConsensusChange, updateOutputs_eq_runOps]

/-! ## Lookups after a run of operations -/

theorem lookup_applyOp_of_not_affects (keys : KeyMap) (outs : OutputMap) (op : LedgerOp)
    (id : types.SiacoinOutputID) (h : ¬ op.affects keys id) :
    (applyOp keys outs op).lookup id = outs.lookup id := by
  cases op with
  | create id1 out =>
    simp only [applyOp]
    cases hk : keys.lookup out.UnlockHash with
    | none => rfl
    | some index =>
      have hne : id ≠ id1 := by
        intro e
        exact h ⟨e.symm, Finmap.mem_of_lookup_eq_some hk⟩
      simp only [Finmap.lookup_insert_of_ne _ hne]
  | spend id1 =>
    have hne : id ≠ id1 := fun e => h e.symm
    simp only [applyOp]
    split
    · exact Finmap.lookup_erase_ne hne
    · rfl

theorem lookup_runOps_of_not_affects (keys : KeyMap) (id : types.SiacoinOutputID)
    (ops : List LedgerOp) :
    ∀ outs : OutputMap, (∀ op ∈ ops, ¬ LedgerOp.affects keys id op) →
      (runOps keys outs ops).lookup id = outs.lookup id := by
  induction ops with
  | nil => intro outs _; rfl
  | cons op rest ih =>
    intro outs h
    rw [runOps_cons, ih _ (fun o ho => h o (List.mem_cons_of_mem _ ho)),
      lookup_applyOp_of_not_affects keys outs op id (h op (List.mem_cons_self _ _))]

theorem lookup_applyOp_spend (keys : KeyMap) (outs : OutputMap) (id : types.SiacoinOutputID) :
    (applyOp keys outs (LedgerOp.spend id)).lookup id = none := by
  simp only [applyOp]
  split
  · exact Finmap.lookup_erase id outs
  · next h => exact Finmap.lookup_eq_none.mpr h

theorem lookup_applyOp_create (keys : KeyMap) (outs : OutputMap) (id : types.SiacoinOutputID)
    (out : types.SiacoinOutput) (index : Nat) (hk : keys.lookup out.UnlockHash = some index) :
    (applyOp keys outs (LedgerOp.create id out)).lookup id
      = some { id := id, value := out.Value, seedIndex := index } := by
  simp only [applyOp, hk, Finmap.lookup_insert]

/-- An entry of the output set after one operation is an entry from before, or the
record written by that operation for an output at an address of `keys`. -/
theorem lookup_applyOp_some (keys : KeyMap) (outs : OutputMap) (op : LedgerOp)
    (id : types.SiacoinOutputID) (r : scannedSiacoinOutput)
    (h : (applyOp keys outs op).lookup id = some r) :
    outs.lookup id = some r ∨
      ∃ out index, op = LedgerOp.create id out ∧ keys.lookup out.UnlockHash = some index
        ∧ r = { id := id, value := out.Value, seedIndex := index } := by
  cases op with
  | create id1 out =>
    simp only [applyOp] at h
    cases hk : keys.lookup out.UnlockHash with
    | none => rw [hk] at h; exact Or.inl h
    | some index =>
      rw [hk] at h
      by_cases e : id = id1
      · subst e
        rw [Finmap.lookup_insert] at h
        exact Or.inr ⟨out, index, rfl, hk, (Option.some.inj h).symm⟩
      · rw [Finmap.lookup_insert_of_ne _ e] at h
        exact Or.inl h
  | spend id1 =>
    simp only [applyOp] at h
    split at h
    · by_cases e : id = id1
      · subst e
        rw [Finmap.lookup_erase] at h
        exact absurd h (by simp)
      · rw [Finmap.lookup_erase_ne e] at h
        exact Or.inl h
    · exact Or.inl h

/-- An entry of the output set after a run of operations is an entry from before, or the
record written by a creation of the run for an output at an address of `keys`. -/
theorem lookup_runOps_some (keys : KeyMap) (id : types.SiacoinOutputID)
    (r : scannedSiacoinOutput) (ops : List LedgerOp) :
    ∀ outs : OutputMap, (runOps keys outs ops).lookup id = some r →
      outs.lookup id = some r ∨
        ∃ out index, LedgerOp.create id out ∈ ops ∧ keys.lookup out.UnlockHash = some index
          ∧ r = { id := id, value := out.Value, seedIndex := index } := by
  induction ops with
  | nil => intro outs h; exact Or.inl h
  | cons op rest ih =>
    intro outs h
    rw [runOps_cons] at h
    rcases ih _ h with h1 | ⟨out, index, hm, hk, hr⟩
    · rcases lookup_applyOp_some keys outs op id r h1 with h2 | ⟨out, index, ho, hk, hr⟩
      · exact Or.inl h2
      · exact Or.inr ⟨out, index, ho ▸ List.mem_cons_self _ _, hk, hr⟩
    · exact Or.inr ⟨out, index, List.mem_cons_of_mem _ hm, hk, hr⟩

/-- An identifier absent before a run that creates it at no address of `keys` is absent
after the run. -/
theorem lookup_runOps_none (keys : KeyMap) (id : types.SiacoinOutputID) (ops : List LedgerOp)
    (outs : OutputMap) (h0 : outs.lookup id = none)
    (hc : ∀ out, LedgerOp.create id out ∈ ops → out.UnlockHash ∉ keys) :
    (runOps keys outs ops).lookup id = none := by
  cases h : (runOps keys outs ops).lookup id with
  | none => rfl
  | some r =>
    rcases lookup_runOps_some keys id r ops outs h with h1 | ⟨out, index, hm, hk, _⟩
    · rw [h0] at h1; exact absurd h1 (by simp)
    · exact absurd (Finmap.mem_of_lookup_eq_some hk) (hc out hm)

/-- After a spend of `id` followed by operations that create `id` at no address of
`keys`, `id` is absent. -/
theorem lookup_runOps_spend_then (keys : KeyMap) (id : types.SiacoinOutputID)
    (pre post : List LedgerOp) (outs : OutputMap)
    (hc : ∀ out, LedgerOp.create id out ∈ post → out.UnlockHash ∉ keys) :
    (runOps keys outs (pre ++ LedgerOp.spend id :: post)).lookup id = none := by
  rw [runOps_append, runOps_cons]
  exact lookup_runOps_none keys id post _ (lookup_applyOp_spend keys _ id) hc

/-- After a creation of `id` at an address of `keys` followed by operations that do not
touch `id`, the entry of `id` is the record of that creation. -/
theorem lookup_runOps_create_then (keys : KeyMap) (id : types.SiacoinOutputID)
    (out : types.SiacoinOutput) (index : Nat) (pre post : List LedgerOp) (outs : OutputMap)
    (hk : keys.lookup out.UnlockHash = some index)
    (hpost : ∀ op ∈ post, ¬ LedgerOp.affects keys id op) :
    (runOps keys outs (pre ++ LedgerOp.create id out :: post)).lookup id
      = some { id := id, value := out.Value, seedIndex := index } := by
  rw [runOps_append, runOps_cons, lookup_runOps_of_not_affects keys id post _ hpost]
  exact lookup_applyOp_create keys _ id out index hk

theorem mem_minerPayoutOps (d : Deps) (block : types.Block)
    (id : types.SiacoinOutputID) (out : types.SiacoinOutput) :
    LedgerOp.create id out ∈ minerPayoutOps d block ↔
      ∃ i, block.MinerPayouts[i]? = some out ∧ d.MinerPayoutID block i = id := by
  simp only [minerPayoutOps, List.mem_map, Prod.exists, List.mk_mem_enum_iff_getElem?,
    LedgerOp.create.injEq]
  constructor
  · rintro ⟨i, o, hi, h1, h2⟩
    exact ⟨i, h2 ▸ hi, h1⟩
  · rintro ⟨i, hi, h1⟩
    exact ⟨i, out, hi, h1, rfl⟩

theorem mem_txnOps_create (d : Deps) (txn : types.Transaction)
    (id : types.SiacoinOutputID) (out : types.SiacoinOutput) :
    LedgerOp.create id out ∈ txnOps d txn ↔
      ∃ i, txn.SiacoinOutputs[i]? = some out ∧ d.SiacoinOutputID txn i = id := by
  simp only [txnOps, List.mem_append, List.mem_map, Prod.exists,
    List.mk_mem_enum_iff_getElem?, LedgerOp.create.injEq]
  constructor
  · rintro (⟨i, o, hi, h1, h2⟩ | ⟨sci, _, he⟩)
    · exact ⟨i, h2 ▸ hi, h1⟩
    · exact absurd he (by simp)
  · rintro ⟨i, hi, h1⟩
    exact Or.inl ⟨i, out, hi, h1, rfl⟩

/-- The creations among the operations of an event are its miner payouts and siacoin
outputs under their identifiers. -/
theorem mem_eventOps_create (d : Deps) (cc : modules.ConsensusChange)
    (id : types.SiacoinOutputID) (out : types.SiacoinOutput) :
    LedgerOp.create id out ∈ eventOps d cc ↔ CreatedIn d cc id out := by
  unfold eventOps CreatedIn blockOps
  constructor
  · intro h
    obtain ⟨ops, hops, hmem⟩ := List.mem_flatten.mp h
    obtain ⟨block, hb, rfl⟩ := List.mem_map.mp hops
    refine ⟨block, hb, ?_⟩
    rcases List.mem_append.mp hmem with h1 | h2
    · exact Or.inl ((mem_minerPayoutOps d block id out).mp h1)
    · obtain ⟨tops, htops, hmem2⟩ := List.mem_flatten.mp h2
      obtain ⟨txn, ht, rfl⟩ := List.mem_map.mp htops
      exact Or.inr ⟨txn, ht, (mem_txnOps_create d txn id out).mp hmem2⟩
  · rintro ⟨block, hb, h⟩
    apply List.mem_flatten.mpr
    refine ⟨_, List.mem_map.mpr ⟨block, hb, rfl⟩, ?_⟩
    apply List.mem_append.mpr
    rcases h with h1 | ⟨txn, ht, h2⟩
    · exact Or.inl ((mem_minerPayoutOps d block id out).mpr h1)
    · exact Or.inr (List.mem_flatten.mpr
        ⟨_, List.mem_map.mpr ⟨txn, ht, rfl⟩, (mem_txnOps_create d txn id out).mpr h2⟩)

/-! ## The output ledger -/

/-- C1. For a fixed `keys` and a sequence of events in which each output identifier is
created at most once and is spent only after its creation, folding
`ProcessConsensusChange` over the sequence from an empty `siacoinOutputs` leaves `id`
in `siacoinOutputs` exactly when `id` is the identifier of a miner payout or siacoin
output at an address of `keys` and no siacoin input of the sequence has `ParentID = id`;
the stored record then has that output's value and `seedIndex = keys[UnlockHash]`. -/
theorem outputLedger_exactly_unspent_seed_outputs (d : Deps) (s0 : seedScanner)
    (ccs : List modules.ConsensusChange) (id : types.SiacoinOutputID)
    (h0 : s0.siacoinOutputs = ∅)
    (hOnce : CreatedOnce (historyOps d ccs))
    (hOrder : SpentAfterCreation (historyOps d ccs)) :
    (id ∈ (ccs.foldl (seedScanner.ProcessConsensusChange d) s0).siacoinOutputs ↔
      (∃ out, LedgerOp.create id out ∈ historyOps d ccs ∧ out.UnlockHash ∈ s0.keys)
        ∧ LedgerOp.spend id ∉ historyOps d ccs)
    ∧ ∀ out index, LedgerOp.create id out ∈ historyOps d ccs →
        s0.keys.lookup out.UnlockHash = some index →
        LedgerOp.spend id ∉ historyOps d ccs →
        (ccs.foldl (seedScanner.ProcessConsensusChange d) s0).siacoinOutputs.lookup id
          = some { id := id, value := out.Value, seedIndex := index } := by
  rw [foldl_ProcessConsensusChange_outputs, h0]
  -- the record of an unspent creation at a seed address survives to the end
  have hkeep : ∀ out index, LedgerOp.create id out ∈ historyOps d ccs →
      s0.keys.lookup out.UnlockHash = some index →
      LedgerOp.spend id ∉ historyOps d ccs →
      (runOps s0.keys ∅ (historyOps d ccs)).lookup id
        = some { id := id, value := out.Value, seedIndex := index } := by
    intro out index hm hk hns
    obtain ⟨pre, post, hsplit⟩ := List.append_of_mem hm
    have hnd := hOnce
    rw [CreatedOnce, hsplit, List.filterMap_append, List.filterMap_cons] at hnd
    simp only [LedgerOp.created] at hnd
    have hidpost : id ∉ post.filterMap LedgerOp.created :=
      (List.nodup_cons.mp (List.nodup_append.mp hnd).2.1).1
    rw [hsplit]
    apply lookup_runOps_create_then s0.keys id out index pre post ∅ hk
    intro op hop haff
    cases op with
    | create id1 out1 =>
      apply hidpost
      exact List.mem_filterMap.mpr ⟨_, hop, by simp only [LedgerOp.created, haff.1]⟩
    | spend id1 =>
      apply hns
      rw [hsplit]
      have e : id1 = id := haff
      exact List.mem_append_right _ (List.mem_cons_of_mem _ (e ▸ hop))
  refine ⟨⟨?_, ?_⟩, hkeep⟩
  · intro hin
    obtain ⟨r, hr⟩ := Finmap.mem_iff.mp hin
    rcases lookup_runOps_some s0.keys id r _ ∅ hr with h1 | ⟨out, index, hm, hk, _⟩
    · rw [Finmap.lookup_empty] at h1; exact absurd h1 (by simp)
    · refine ⟨⟨out, hm, Finmap.mem_of_lookup_eq_some hk⟩, ?_⟩
      intro hs
      obtain ⟨pre, post, hsplit⟩ := List.append_of_mem hs
      have hpw := hOrder
      rw [SpentAfterCreation, hsplit, List.pairwise_append, List.pairwise_cons] at hpw
      have hnone : (runOps s0.keys ∅ (historyOps d ccs)).lookup id = none := by
        rw [hsplit]
        apply lookup_runOps_spend_then
        intro out1 hm1 _
        rcases hpw.2.1.1 _ hm1 with hcase | hcase
        · simp [LedgerOp.spent] at hcase
        · simp [LedgerOp.spent, LedgerOp.created] at hcase
      rw [hnone] at hr
      exact absurd hr (by simp)
  · rintro ⟨⟨out, hm, hk⟩, hns⟩
    obtain ⟨index, hidx⟩ := Finmap.mem_iff.mp hk
    exact Finmap.mem_of_lookup_eq_some (hkeep out index hm hidx hns)

/-- C1 at `demoScanner` and the events `demoEvent1`, `demoEvent2`: the miner payout with
identifier 20 is never spent and is in the ledger with value 50 and seed index 0. -/
theorem outputLedger_exactly_unspent_seed_outputs_witness :
    ([demoEvent1, demoEvent2].foldl (seedScanner.ProcessConsensusChange demoDeps)
        demoScanner).siacoinOutputs.lookup 20
      = some { id := 20, value := 50, seedIndex := 0 } :=
  (outputLedger_exactly_unspent_seed_outputs demoDeps demoScanner [demoEvent1, demoEvent2] 20
    rfl (by decide) (by decide)).2 { Value := 50, UnlockHash := 0 } 0
    (by decide) (by decide) (by decide)

/-- C2. Let `out` be a miner payout or siacoin output of `E1` with identifier `id` at
an address of `s.keys` (`post1` is what the first pass does after creating it), no
siacoin input at or after its creation spend `id`, and `id` denote no other output later
in `E1`. Then after `ProcessConsensusChange(E1)` the ledger holds `id` with the value of
`out`. If `E2` has a siacoin input with `ParentID = id` (whatever its unlock conditions)
and creates no output `id` at a seed address after that input (`post2` is what the first
pass does after the input), then after `ProcessConsensusChange(E2)`, applied next or to
any scanner with the same keys, the ledger does not hold `id`. -/
theorem spend_create_across_two_events (d : Deps) (s : seedScanner)
    (E1 E2 : modules.ConsensusChange) (id : types.SiacoinOutputID) (out : types.SiacoinOutput)
    (index : Nat) (pre1 post1 pre2 post2 : List LedgerOp)
    (hE1 : eventOps d E1 = pre1 ++ LedgerOp.create id out :: post1)
    (hseed : s.keys.lookup out.UnlockHash = some index)
    (hunspent : LedgerOp.spend id ∉ post1)
    (hsame : ∀ out1, LedgerOp.create id out1 ∈ post1 → out1 = out)
    (hE2 : eventOps d E2 = pre2 ++ LedgerOp.spend id :: post2)
    (hnocreate : ∀ out1, LedgerOp.create id out1 ∈ post2 → out1.UnlockHash ∉ s.keys) :
    (s.ProcessConsensusChange d E1).siacoinOutputs.lookup id
        = some { id := id, value := out.Value, seedIndex := index }
    ∧ id ∉ ((s.ProcessConsensusChange d E1).ProcessConsensusChange d E2).siacoinOutputs
    ∧ ∀ s1 : seedScanner, s1.keys = s.keys →
        id ∉ (s1.ProcessConsensusChange d E2).siacoinOutputs := by
  have hgone : ∀ s1 : seedScanner, s1.keys = s.keys →
      id ∉ (s1.ProcessConsensusChange d E2).siacoinOutputs := by
    intro s1 hk
    apply Finmap.lookup_eq_none.mp
    simp only [seedScanner.ProcessConsensusChange, updateOutputs_eq_runOps, hE2, hk]
    exact lookup_runOps_spend_then s.keys id pre2 post2 _ hnocreate
  refine ⟨?_, hgone _ rfl, hgone⟩
  simp only [seedScanner.ProcessConsensusChange, updateOutputs_eq_runOps, hE1]
  rw [runOps_append, runOps_cons]
  -- after the creation the record is the one of `out`; later operations keep it
  have hstep : ∀ (ops : List LedgerOp) (outs : OutputMap),
      (∀ op ∈ ops, op ≠ LedgerOp.spend id) →
      (∀ out1, LedgerOp.create id out1 ∈ ops → out1 = out) →
      outs.lookup id = some { id := id, value := out.Value, seedIndex := index } →
      (runOps s.keys outs ops).lookup id
        = some { id := id, value := out.Value, seedIndex := index } := by
    intro ops
    induction ops with
    | nil => intro outs _ _ h; exact h
    | cons op rest ih =>
      intro outs hs hc h
      rw [runOps_cons]
      apply ih _ (fun o ho => hs o (List.mem_cons_of_mem _ ho))
        (fun o ho => hc o (List.mem_cons_of_mem _ ho))
      by_cases haff : op.affects s.keys id
      · cases op with
        | create id1 out1 =>
          obtain ⟨e, _⟩ := haff
          subst e
          have := hc out1 (List.mem_cons_self _ _)
          subst this
          exact lookup_applyOp_create s.keys outs id1 out1 index hseed
        | spend id1 =>
          have e : id1 = id := haff
          exact absurd (by rw [e]) (hs _ (List.mem_cons_self _ _))
      · rw [lookup_applyOp_of_not_affects s.keys outs op id haff]
        exact h
  exact hstep post1 _ (fun op hop e => hunspent (e ▸ hop)) hsame
    (lookup_applyOp_create s.keys _ id out index hseed)

/-- C2 at `demoScanner`: output 21 (value 7, seed index 3) is created by `demoEvent1` and
spent by `demoEvent2`. -/
theorem spend_create_across_two_events_witness :
    (demoScanner.ProcessConsensusChange demoDeps demoEvent1).siacoinOutputs.lookup 21
        = some { id := 21, value := 7, seedIndex := 3 }
    ∧ 21 ∉ ((demoScanner.ProcessConsensusChange demoDeps demoEvent1).ProcessConsensusChange
              demoDeps demoEvent2).siacoinOutputs :=
  have h := spend_create_across_two_events demoDeps demoScanner demoEvent1 demoEvent2 21
    { Value := 7, UnlockHash := 3 } 3
    [LedgerOp.create 20 { Value := 50, UnlockHash := 0 }]
    [LedgerOp.create 23 { Value := 9, UnlockHash := 50 }, LedgerOp.spend 801]
    [LedgerOp.create 40 { Value := 50, UnlockHash := 70 },
     LedgerOp.create 41 { Value := 7, UnlockHash := 51 }]
    []
    (by decide) (by decide) (by decide) (by simp) (by decide) (by simp)
  ⟨h.1, h.2.1⟩

/-- C3. Inside one event the first pass follows the order of the event. If an output
`id` at a seed address is created (by a miner payout or a transaction) and a siacoin
input with `ParentID = id` comes later in the event (in the same transaction, a later
transaction or a later block) and `id` is not created again after that input, the ledger
does not hold `id` after `ProcessConsensusChange`. If no input with `ParentID = id`
comes at or after the creation (all of them are strictly earlier), the ledger holds
`id` after the event. -/
theorem create_and_spend_inside_one_event (d : Deps) (s : seedScanner)
    (cc : modules.ConsensusChange) (id : types.SiacoinOutputID) (out : types.SiacoinOutput)
    (hseed : out.UnlockHash ∈ s.keys) :
    (∀ pre mid post : List LedgerOp,
        eventOps d cc = pre ++ LedgerOp.create id out :: (mid ++ LedgerOp.spend id :: post) →
        (∀ out1, LedgerOp.create id out1 ∉ post) →
        id ∉ (s.ProcessConsensusChange d cc).siacoinOutputs)
    ∧ (∀ pre post : List LedgerOp,
        eventOps d cc = pre ++ LedgerOp.create id out :: post →
        LedgerOp.spend id ∉ post →
        id ∈ (s.ProcessConsensusChange d cc).siacoinOutputs) := by
  constructor
  · intro pre mid post hsplit hno
    apply Finmap.lookup_eq_none.mp
    simp only [seedScanner.ProcessConsensusChange, updateOutputs_eq_runOps, hsplit]
    have e : pre ++ LedgerOp.create id out :: (mid ++ LedgerOp.spend id :: post)
        = (pre ++ LedgerOp.create id out :: mid) ++ LedgerOp.spend id :: post := by simp
    rw [e]
    exact lookup_runOps_spend_then s.keys id _ post _ (fun out1 hm _ => hno out1 hm)
  · intro pre post hsplit hno
    obtain ⟨index, hidx⟩ := Finmap.mem_iff.mp hseed
    simp only [seedScanner.ProcessConsensusChange, updateOutputs_eq_runOps, hsplit]
    rw [runOps_append, runOps_cons]
    -- once present, `id` stays present as long as it is not spent
    have hstay : ∀ (ops : List LedgerOp) (outs : OutputMap),
        LedgerOp.spend id ∉ ops → id ∈ outs → id ∈ runOps s.keys outs ops := by
      intro ops
      induction ops with
      | nil => intro outs _ h; exact h
      | cons op rest ih =>
        intro outs hs h
        rw [runOps_cons]
        apply ih _ (fun hm => hs (List.mem_cons_of_mem _ hm))
        cases op with
        | create id1 out1 =>
          simp only [applyOp]
          cases keys_lookup : s.keys.lookup out1.UnlockHash with
          | none => exact h
          | some i => exact Finmap.mem_insert.mpr (Or.inr h)
        | spend id1 =>
          have hne : id ≠ id1 := fun e => hs (e ▸ List.mem_cons_self _ _)
          simp only [applyOp]
          split
          · exact Finmap.mem_erase.mpr ⟨hne, h⟩
          · exact h
    exact hstay post _ hno
      (Finmap.mem_of_lookup_eq_some (lookup_applyOp_create s.keys _ id out index hidx))

/-- C3 at `demoScanner` and the single event `demoEvent12`, in which output 21 is created
by a transaction of the first block and spent by a transaction of the second. -/
theorem create_and_spend_inside_one_event_witness :
    21 ∉ (demoScanner.ProcessConsensusChange demoDeps demoEvent12).siacoinOutputs :=
  (create_and_spend_inside_one_event demoDeps demoScanner demoEvent12 21
      { Value := 7, UnlockHash := 3 } (by decide)).1
    [LedgerOp.create 20 { Value := 50, UnlockHash := 0 }]
    [LedgerOp.create 23 { Value := 9, UnlockHash := 50 }, LedgerOp.spend 801,
     LedgerOp.create 40 { Value := 50, UnlockHash := 70 },
     LedgerOp.create 41 { Value := 7, UnlockHash := 51 }]
    []
    (by decide) (by simp)

/-- C4. Every identifier in `siacoinOutputs` after `ProcessConsensusChange` was there
before the call or is the identifier of a miner payout or siacoin output of the applied
blocks whose `UnlockHash` is in `s.keys`; nothing else (a siafund output, an output at
another address) creates an entry. An event with no miner payout and no siacoin output
at an address of `s.keys` leaves a ledger whose entries are entries of the previous
one. -/
theorem only_seed_outputs_inserted (d : Deps) (s : seedScanner) (cc : modules.ConsensusChange) :
    (∀ id, id ∈ (s.ProcessConsensusChange d cc).siacoinOutputs →
        id ∈ s.siacoinOutputs ∨ ∃ out, CreatedIn d cc id out ∧ out.UnlockHash ∈ s.keys)
    ∧ ((∀ block ∈ cc.AppliedBlocks,
          (∀ mp ∈ block.MinerPayouts, mp.UnlockHash ∉ s.keys)
            ∧ ∀ txn ∈ block.Transactions, ∀ sco ∈ txn.SiacoinOutputs, sco.UnlockHash ∉ s.keys) →
        ∀ id r, (s.ProcessConsensusChange d cc).siacoinOutputs.lookup id = some r →
          s.siacoinOutputs.lookup id = some r) := by
  have hprov : ∀ id r, (s.ProcessConsensusChange d cc).siacoinOutputs.lookup id = some r →
      s.siacoinOutputs.lookup id = some r ∨
        ∃ out, CreatedIn d cc id out ∧ out.UnlockHash ∈ s.keys := by
    intro id r h
    simp only [seedScanner.ProcessConsensusChange, updateOutputs_eq_runOps] at h
    rcases lookup_runOps_some s.keys id r _ _ h with h1 | ⟨out, index, hm, hk, _⟩
    · exact Or.inl h1
    · exact Or.inr ⟨out, (mem_eventOps_create d cc id out).mp hm,
        Finmap.mem_of_lookup_eq_some hk⟩
  constructor
  · intro id hin
    obtain ⟨r, hr⟩ := Finmap.mem_iff.mp hin
    rcases hprov id r hr with h1 | h2
    · exact Or.inl (Finmap.mem_of_lookup_eq_some h1)
    · exact Or.inr h2
  · intro hnone id r hr
    rcases hprov id r hr with h1 | ⟨out, ⟨block, hb, hcase⟩, hk⟩
    · exact h1
    · exfalso
      rcases hcase with ⟨i, hi, _⟩ | ⟨txn, ht, i, hi, _⟩
      · exact (hnone block hb).1 out (List.getElem?_mem hi) hk
      · exact (hnone block hb).2 txn ht out (List.getElem?_mem hi) hk

/-- C4 at `demoScanner` and `demoEvent1`: identifier 21 enters the ledger, and it is the
identifier of a siacoin output of the event at the seed address 3. -/
theorem only_seed_outputs_inserted_witness :
    21 ∈ (demoScanner.ProcessConsensusChange demoDeps demoEvent1).siacoinOutputs
    ∧ (21 ∈ demoScanner.siacoinOutputs
        ∨ ∃ out, CreatedIn demoDeps demoEvent1 21 out ∧ out.UnlockHash ∈ demoScanner.keys) :=
  ⟨by decide, (only_seed_outputs_inserted demoDeps demoScanner demoEvent1).1 21 (by decide)⟩

/-! ## The index horizon -/

theorem mem_txnAddrs (d : Deps) (txn : types.Transaction) (a : types.UnlockHash) :
    a ∈ txnAddrs d txn ↔
      (∃ sci ∈ txn.SiacoinInputs, d.UnlockHash sci.UnlockConditions = a)
      ∨ (∃ sco ∈ txn.SiacoinOutputs, sco.UnlockHash = a)
      ∨ (∃ sfi ∈ txn.SiafundInputs, d.UnlockHash sfi.UnlockConditions = a)
      ∨ (∃ sfo ∈ txn.SiafundOutputs, sfo.UnlockHash = a) := by
  simp only [txnAddrs, List.mem_append, List.mem_map, or_assoc]

theorem mem_blockAddrs (d : Deps) (block : types.Block) (a : types.UnlockHash) :
    a ∈ blockAddrs d block ↔
      (∃ mp ∈ block.MinerPayouts, mp.UnlockHash = a)
      ∨ ∃ txn ∈ block.Transactions, a ∈ txnAddrs d txn := by
  simp only [blockAddrs, List.mem_append, List.mem_map, List.mem_flatten]
  constructor
  · rintro (h | ⟨l, ⟨txn, ht, rfl⟩, ha⟩)
    · exact Or.inl h
    · exact Or.inr ⟨txn, ht, ha⟩
  · rintro (h | ⟨txn, ht, ha⟩)
    · exact Or.inl h
    · exact Or.inr ⟨_, ⟨txn, ht, rfl⟩, ha⟩

/-- The slice `addrs` of the second pass holds exactly the addresses occurring in the
event. -/
theorem mem_collectAddrs (d : Deps) (cc : modules.ConsensusChange) (a : types.UnlockHash) :
    a ∈ collectAddrs d cc ↔ OccursIn d cc a := by
  simp only [collectAddrs, OccursIn, List.mem_append, List.mem_map, List.mem_flatten, or_assoc]
  constructor
  · rintro (h | h | ⟨l, ⟨block, hb, rfl⟩, ha⟩)
    · exact Or.inl h
    · exact Or.inr (Or.inl h)
    · refine Or.inr (Or.inr ⟨block, hb, ?_⟩)
      rcases (mem_blockAddrs d block a).mp ha with h1 | ⟨txn, ht, h2⟩
      · exact Or.inl h1
      · exact Or.inr ⟨txn, ht, (mem_txnAddrs d txn a).mp h2⟩
  · rintro (h | h | ⟨block, hb, h⟩)
    · exact Or.inl h
    · exact Or.inr (Or.inl h)
    · refine Or.inr (Or.inr ⟨_, ⟨block, hb, rfl⟩, (mem_blockAddrs d block a).mpr ?_⟩)
      rcases h with h1 | ⟨txn, ht, h2⟩
      · exact Or.inl h1
      · exact Or.inr ⟨txn, ht, (mem_txnAddrs d txn a).mpr h2⟩

theorem le_bumpLargest (keys : KeyMap) (largest : Nat) (addr : types.UnlockHash) :
    largest ≤ bumpLargest keys largest addr := by
  unfold bumpLargest
  cases keys.lookup addr with
  | none => exact le_refl _
  | some index =>
    show largest ≤ if index > largest then index else largest
    split
    · omega
    · exact le_refl _

theorem le_foldl_bumpLargest (keys : KeyMap) (addrs : List types.UnlockHash) :
    ∀ largest : Nat, largest ≤ addrs.foldl (bumpLargest keys) largest := by
  induction addrs with
  | nil => intro largest; exact le_refl _
  | cons a rest ih =>
    intro largest
    exact le_trans (le_bumpLargest keys largest a) (ih _)

theorem index_le_foldl_bumpLargest (keys : KeyMap) (a : types.UnlockHash) (index : Nat)
    (hk : keys.lookup a = some index) (addrs : List types.UnlockHash) :
    ∀ largest : Nat, a ∈ addrs → index ≤ addrs.foldl (bumpLargest keys) largest := by
  induction addrs with
  | nil => intro largest h; exact absurd h (List.not_mem_nil _)
  | cons b rest ih =>
    intro largest h
    rcases List.mem_cons.mp h with e | hm
    · subst e
      refine le_trans ?_ (le_foldl_bumpLargest keys rest _)
      unfold bumpLargest
      rw [hk]
      show index ≤ if index > largest then index else largest
      split
      · exact le_refl _
      · omega
    · exact ih _ hm

theorem foldl_bumpLargest_attained (keys : KeyMap) (addrs : List types.UnlockHash) :
    ∀ largest : Nat, addrs.foldl (bumpLargest keys) largest = largest
      ∨ ∃ a ∈ addrs, keys.lookup a = some (addrs.foldl (bumpLargest keys) largest) := by
  induction addrs with
  | nil => intro largest; exact Or.inl rfl
  | cons b rest ih =>
    intro largest
    rcases ih (bumpLargest keys largest b) with h | ⟨a, ha, hk⟩
    · simp only [List.foldl_cons, h]
      unfold bumpLargest
      cases hb : keys.lookup b with
      | none => exact Or.inl rfl
      | some index =>
        show (if index > largest then index else largest) = largest ∨ _
        split
        · refine Or.inr ⟨b, List.mem_cons_self _ _, ?_⟩
          show keys.lookup b = some (if index > largest then index else largest)
          rw [if_pos (by assumption), hb]
        · exact Or.inl rfl
    · exact Or.inr ⟨a, List.mem_cons_of_mem _ ha, hk⟩

theorem index_le_updateLargestIndexSeen (d : Deps) (keys : KeyMap) (largest : Nat)
    (cc : modules.ConsensusChange) (a : types.UnlockHash) (index : Nat)
    (ha : OccursIn d cc a) (hk : keys.lookup a = some index) :
    index ≤ updateLargestIndexSeen d keys largest cc :=
  index_le_foldl_bumpLargest keys a index hk _ _ ((mem_collectAddrs d cc a).mpr ha)

theorem updateLargestIndexSeen_attained (d : Deps) (keys : KeyMap) (largest : Nat)
    (cc : modules.ConsensusChange) :
    updateLargestIndexSeen d keys largest cc = largest
      ∨ ∃ a, OccursIn d cc a
          ∧ keys.lookup a = some (updateLargestIndexSeen d keys largest cc) := by
  rcases foldl_bumpLargest_attained keys (collectAddrs d cc) largest with h | ⟨a, ha, hk⟩
  · exact Or.inl h
  · exact Or.inr ⟨a, (mem_collectAddrs d cc a).mp ha, hk⟩

/-- C5. After `ProcessConsensusChange(cc)`, `largestIndexSeen` is the maximum of its
previous value and of `s.keys[a]` over the addresses `a` of `s.keys` occurring in `cc`
(output diffs, miner payouts, unlock conditions of inputs, outputs, for siacoins and
siafunds): it is at least the previous value, at least every such index, and it is the
previous value or one of these indices; when no such address is in `s.keys` it is
unchanged. -/
theorem largestIndexSeen_is_maximum (d : Deps) (s : seedScanner) (cc : modules.ConsensusChange) :
    s.largestIndexSeen ≤ (s.ProcessConsensusChange d cc).largestIndexSeen
    ∧ (∀ a index, OccursIn d cc a → s.keys.lookup a = some index →
        index ≤ (s.ProcessConsensusChange d cc).largestIndexSeen)
    ∧ ((s.ProcessConsensusChange d cc).largestIndexSeen = s.largestIndexSeen
        ∨ ∃ a, OccursIn d cc a
            ∧ s.keys.lookup a = some (s.ProcessConsensusChange d cc).largestIndexSeen)
    ∧ ((∀ a, OccursIn d cc a → a ∉ s.keys) →
        (s.ProcessConsensusChange d cc).largestIndexSeen = s.largestIndexSeen) := by
  have hatt := updateLargestIndexSeen_attained d s.keys s.largestIndexSeen cc
  refine ⟨le_foldl_bumpLargest s.keys _ _, ?_, hatt, ?_⟩
  · intro a index ha hk
    exact index_le_updateLargestIndexSeen d s.keys s.largestIndexSeen cc a index ha hk
  · intro hnone
    rcases hatt with h | ⟨a, ha, hk⟩
    · exact h
    · exact absurd (Finmap.mem_of_lookup_eq_some hk) (hnone a ha)

/-- C5 at `demoScanner` and `demoEvent1`, in which the seed address 3 (index 3) receives
an output. -/
theorem largestIndexSeen_is_maximum_witness :
    3 ≤ (demoScanner.ProcessConsensusChange demoDeps demoEvent1).largestIndexSeen :=
  (largestIndexSeen_is_maximum demoDeps demoScanner demoEvent1).2.1 3 3
    (Or.inr (Or.inr ⟨demoBlock1, by decide, Or.inr ⟨demoTxnPay, by decide,
      Or.inr (Or.inl ⟨{ Value := 7, UnlockHash := 3 }, by decide, rfl⟩)⟩⟩))
    (by decide)

/-- C6. If a seed address `a` occurs in an event only as the hash of the unlock
conditions of a siacoin or siafund input (it is the destination of no output, miner payout
or diff), `ProcessConsensusChange` leaves `largestIndexSeen` at least `s.keys[a]`, and
equal to it when `s.keys[a]` exceeds the previous `largestIndexSeen` and the index of every
other seed address of the event; and every entry of `siacoinOutputs` after the call is an
entry from before or was written for an output at an address other than `a`. -/
theorem horizon_breadth_input_only (d : Deps) (s : seedScanner) (cc : modules.ConsensusChange)
    (a : types.UnlockHash) (index : Nat)
    (hkey : s.keys.lookup a = some index)
    (hinput : AuthorizesInput d cc a)
    (hnodest : NoDestination cc a) :
    index ≤ (s.ProcessConsensusChange d cc).largestIndexSeen
    ∧ (s.largestIndexSeen < index →
        (∀ a1 index1, a1 ≠ a → OccursIn d cc a1 → s.keys.lookup a1 = some index1 →
          index1 < index) →
        (s.ProcessConsensusChange d cc).largestIndexSeen = index)
    ∧ (∀ id r, (s.ProcessConsensusChange d cc).siacoinOutputs.lookup id = some r →
        s.siacoinOutputs.lookup id = some r
        ∨ ∃ out, CreatedIn d cc id out ∧ out.UnlockHash ≠ a
            ∧ s.keys.lookup out.UnlockHash = some r.seedIndex) := by
  have hocc : OccursIn d cc a := by
    obtain ⟨block, hb, txn, ht, h⟩ := hinput
    refine Or.inr (Or.inr ⟨block, hb, Or.inr ⟨txn, ht, ?_⟩⟩)
    rcases h with h1 | h2
    · exact Or.inl h1
    · exact Or.inr (Or.inr (Or.inl h2))
  have hge : index ≤ (s.ProcessConsensusChange d cc).largestIndexSeen :=
    index_le_updateLargestIndexSeen d s.keys s.largestIndexSeen cc a index hocc hkey
  refine ⟨hge, ?_, ?_⟩
  · intro hprev hothers
    rcases updateLargestIndexSeen_attained d s.keys s.largestIndexSeen cc with h | ⟨a1, ha1, hk1⟩
    · have h1 : (s.ProcessConsensusChange d cc).largestIndexSeen = s.largestIndexSeen := h
      omega
    · by_cases e : a1 = a
      · subst e
        rw [hkey] at hk1
        exact (Option.some.inj hk1).symm
      · have h1 := hothers a1 _ e ha1 hk1
        have h2 : updateLargestIndexSeen d s.keys s.largestIndexSeen cc < index := h1
        have h3 : index ≤ updateLargestIndexSeen d s.keys s.largestIndexSeen cc := hge
        omega
  · intro id r hr
    simp only [seedScanner.ProcessConsensusChange, updateOutputs_eq_runOps] at hr
    rcases lookup_runOps_some s.keys id r _ _ hr with h1 | ⟨out, i, hm, hk, hrec⟩
    · exact Or.inl h1
    · have hc := (mem_eventOps_create d cc id out).mp hm
      refine Or.inr ⟨out, hc, ?_, by rw [hrec]; exact hk⟩
      obtain ⟨block, hb, hcase⟩ := hc
      rcases hcase with ⟨j, hj, _⟩ | ⟨txn, ht, j, hj, _⟩
      · exact (hnodest.2.2 block hb).1 out (List.getElem?_mem hj)
      · exact ((hnodest.2.2 block hb).2 txn ht).1 out (List.getElem?_mem hj)

/-- C6 at `demoScanner` and `demoEvent2`, in which the seed address 3 only authorises the
input that spends output 21. -/
theorem horizon_breadth_input_only_witness :
    3 ≤ (demoScanner.ProcessConsensusChange demoDeps demoEvent2).largestIndexSeen :=
  (horizon_breadth_input_only demoDeps demoScanner demoEvent2 3 3 (by decide)
    ⟨demoBlock2, by decide, demoTxnSpend, by decide,
      Or.inl ⟨{ ParentID := 21, UnlockConditions := demoConditions 3 }, by decide, rfl⟩⟩
    (by simp [NoDestination, demoEvent2, demoBlock2, demoTxnSpend])).1

/-! ## Key generation under an injective derivation -/

theorem keys_insert (keys : KeyMap) (a : types.UnlockHash) (i : Nat) :
    (keys.insert a i).keys = insert a keys.keys := by
  ext x
  simp only [Finmap.mem_keys, Finmap.mem_insert, Finset.mem_insert]

theorem dense_not_mem (addr : Nat → types.UnlockHash) (hinj : Function.Injective addr)
    (keys : KeyMap) (hd : Dense addr keys) (j : Nat) (hj : keys.keys.card ≤ j) :
    addr j ∉ keys := by
  intro hm
  obtain ⟨i, hi⟩ := Finmap.mem_iff.mp hm
  obtain ⟨hlt, he⟩ := (hd (addr j) i).mp hi
  have := hinj he
  omega

theorem dense_insert (addr : Nat → types.UnlockHash) (hinj : Function.Injective addr)
    (keys : KeyMap) (hd : Dense addr keys) :
    Dense addr (keys.insert (addr keys.keys.card) keys.keys.card)
      ∧ (keys.insert (addr keys.keys.card) keys.keys.card).keys.card = keys.keys.card + 1 := by
  have hnm := dense_not_mem addr hinj keys hd keys.keys.card (le_refl _)
  have hcard : (keys.insert (addr keys.keys.card) keys.keys.card).keys.card
      = keys.keys.card + 1 := by
    rw [keys_insert, Finset.card_insert_of_not_mem (fun h => hnm (Finmap.mem_keys.mp h))]
  refine ⟨?_, hcard⟩
  intro a i
  rw [hcard]
  by_cases e : a = addr keys.keys.card
  · subst e
    rw [Finmap.lookup_insert]
    constructor
    · intro h
      have := Option.some.inj h
      exact ⟨by omega, by rw [← this]⟩
    · rintro ⟨_, h⟩
      rw [hinj h]
  · rw [Finmap.lookup_insert_of_ne _ e, hd a i]
    constructor
    · rintro ⟨h1, h2⟩
      exact ⟨by omega, h2⟩
    · rintro ⟨h1, h2⟩
      refine ⟨?_, h2⟩
      rcases Nat.lt_succ_iff_lt_or_eq.mp h1 with h | h
      · exact h
      · exact absurd (h ▸ h2.symm) e

theorem insertKeys_dense (d : Deps) (addr : Nat → types.UnlockHash)
    (hinj : Function.Injective addr) (p : Nat) (ks : List spendableKey) :
    ∀ (i : Nat) (keys : KeyMap), Dense addr keys → keys.keys.card = p + i →
      ks.map (fun k => d.UnlockHash k.UnlockConditions) = (List.range' (p + i) ks.length).map addr →
      p + i + ks.length ≤ 2 ^ 64 →
      Dense addr (insertKeys d p i ks keys)
        ∧ (insertKeys d p i ks keys).keys.card = p + i + ks.length := by
  induction ks with
  | nil => intro i keys hd hc _ _; exact ⟨hd, by simpa using hc⟩
  | cons k rest ih =>
    intro i keys hd hc hl hb
    simp only [List.length_cons, List.range'_succ, List.map_cons, List.cons.injEq] at hl hb
    have hmod : (p + i) % 2 ^ 64 = p + i := Nat.mod_eq_of_lt (by omega)
    have hins := dense_insert addr hinj keys hd
    rw [hc] at hins
    simp only [insertKeys, hmod, hl.1]
    have := ih (i + 1) _ hins.1 (by rw [hins.2]; omega) (by rw [hl.2]; congr 2) (by omega)
    refine ⟨this.1, ?_⟩
    rw [this.2, List.length_cons]
    omega

theorem generateKeys_dense (d : Deps) (addr : Nat → types.UnlockHash) (s : seedScanner)
    (n : Nat) (hder : InjectiveDerivation d s.seed addr) (hd : Dense addr s.keys)
    (hb : s.keys.keys.card + n ≤ 2 ^ 64) :
    Dense addr (s.generateKeys d n).keys
      ∧ (s.generateKeys d n).keys.keys.card = s.keys.keys.card + n := by
  have hlen : (d.generateKeys s.seed s.keys.keys.card n).length = n := by
    have := congrArg List.length (hder.2 s.keys.keys.card n)
    simpa using this
  have := insertKeys_dense d addr hder.1 s.keys.keys.card
    (d.generateKeys s.seed s.keys.keys.card n) 0 s.keys hd rfl
    (by rw [hlen]; exact hder.2 _ _) (by rw [hlen]; omega)
  rw [hlen] at this
  exact this

theorem dense_empty (addr : Nat → types.UnlockHash) : Dense addr (∅ : KeyMap) := by
  intro a i
  simp [Finmap.lookup_empty]

/-! ## The loop of `scan` -/

theorem foldl_ProcessConsensusChange_seed (d : Deps) (ccs : List modules.ConsensusChange) :
    ∀ s : seedScanner, (ccs.foldl (seedScanner.ProcessConsensusChange d) s).seed = s.seed := by
  induction ccs with
  | nil => intro s; rfl
  | cons cc rest ih => intro s; simp only [List.foldl_cons, ih]; rfl

theorem replayed_keys (d : Deps) (cs : ConsensusSet) (c : ScanState) :
    (replayed d cs c).keys = (c.s.generateKeys d c.numKeys).keys :=
  foldl_ProcessConsensusChange_keys d _ _

theorem replayed_seed (d : Deps) (cs : ConsensusSet) (c : ScanState) :
    (replayed d cs c).seed = c.s.seed :=
  foldl_ProcessConsensusChange_seed d _ _

theorem scanStep_again (d : Deps) (cs : ConsensusSet) (C : Nat) (c c1 : ScanState)
    (h : scanStep d cs C c = Step.again c1) :
    c.s.keys.keys.card < C ∧ (cs c.subscribes).err = none
      ∧ ¬ (replayed d cs c).largestIndexSeen < (replayed d cs c).keys.keys.card / 2
      ∧ c1 = { s := replayed d cs c,
               numKeys := nextNumKeys C c.numKeys (replayed d cs c).keys.keys.card,
               subscribes := c.subscribes + 1,
               trace := c.trace ++ [Call.generateKeys c.numKeys, Call.ConsensusSetSubscribe] } := by
  unfold scanStep at h
  split at h
  · next hlt =>
    refine ⟨hlt, ?_⟩
    simp only at h
    split at h
    · exact absurd h (by simp)
    · next herr =>
      refine ⟨herr, ?_⟩
      split at h
      · exact absurd h (by simp)
      · next hgap =>
        refine ⟨hgap, ?_⟩
        injection h with h
        exact h.symm
  · exact absurd h (by simp)

theorem scanStep_done (d : Deps) (cs : ConsensusSet) (C : Nat) (c c1 : ScanState)
    (err : Option Error) (h : scanStep d cs C c = Step.done c1 err) :
    (¬ c.s.keys.keys.card < C ∧ err = some Error.errMaxKeys
        ∧ c1 = { c with trace := c.trace ++ [Call.Unsubscribe] })
    ∨ (c.s.keys.keys.card < C ∧ ∃ e, (cs c.subscribes).err = some e
        ∧ err = some (Error.consensus e)
        ∧ c1 = { s := replayed d cs c, numKeys := c.numKeys, subscribes := c.subscribes + 1,
                 trace := c.trace ++ [Call.generateKeys c.numKeys, Call.ConsensusSetSubscribe] })
    ∨ (c.s.keys.keys.card < C ∧ (cs c.subscribes).err = none
        ∧ (replayed d cs c).largestIndexSeen < (replayed d cs c).keys.keys.card / 2
        ∧ err = none
        ∧ c1 = { s := replayed d cs c, numKeys := c.numKeys, subscribes := c.subscribes + 1,
                 trace := c.trace ++ [Call.generateKeys c.numKeys, Call.ConsensusSetSubscribe,
                                      Call.Unsubscribe] }) := by
  unfold scanStep at h
  split at h
  · next hlt =>
    simp only at h
    split at h
    · next e herr =>
      injection h with h1 h2
      exact Or.inr (Or.inl ⟨hlt, e, herr, h2.symm, h1.symm⟩)
    · next herr =>
      split at h
      · next hgap =>
        injection h with h1 h2
        refine Or.inr (Or.inr ⟨hlt, herr, hgap, h2.symm, ?_⟩)
        rw [← h1]
        simp
      · exact absurd h (by simp)
  · next hge =>
    injection h with h1 h2
    exact Or.inl ⟨hge, h2.symm, h1.symm⟩

theorem scanStep_of_gap (d : Deps) (cs : ConsensusSet) (C : Nat) (c : ScanState)
    (hlt : c.s.keys.keys.card < C) (herr : (cs c.subscribes).err = none)
    (hgap : (replayed d cs c).largestIndexSeen < (replayed d cs c).keys.keys.card / 2) :
    scanStep d cs C c
      = Step.done { s := replayed d cs c, numKeys := c.numKeys, subscribes := c.subscribes + 1,
                    trace := c.trace ++ [Call.generateKeys c.numKeys, Call.ConsensusSetSubscribe,
                                         Call.Unsubscribe] } none := by
  unfold scanStep
  simp [hlt, herr, hgap]

theorem scanStep_of_error (d : Deps) (cs : ConsensusSet) (C : Nat) (c : ScanState) (e : Nat)
    (hlt : c.s.keys.keys.card < C) (herr : (cs c.subscribes).err = some e) :
    scanStep d cs C c
      = Step.done { s := replayed d cs c, numKeys := c.numKeys, subscribes := c.subscribes + 1,
                    trace := c.trace ++ [Call.generateKeys c.numKeys, Call.ConsensusSetSubscribe] }
          (some (Error.consensus e)) := by
  unfold scanStep
  simp [hlt, herr]

theorem loopHead_succ (d : Deps) (cs : ConsensusSet) (C : Nat) (k : Nat) :
    ∀ c c1 : ScanState, loopHead d cs C (k + 1) c = some c1 ↔
      ∃ c0, loopHead d cs C k c = some c0 ∧ scanStep d cs C c0 = Step.again c1 := by
  induction k with
  | zero =>
    intro c c1
    simp only [loopHead]
    constructor
    · intro h
      refine ⟨c, rfl, ?_⟩
      split at h
      · next c2 hs => rw [hs]; injection h with h; rw [h]
      · exact absurd h (by simp)
    · rintro ⟨c0, h0, hs⟩
      injection h0 with h0
      subst h0
      rw [hs]
  | succ k ih =>
    intro c c1
    rw [loopHead]
    cases hs : scanStep d cs C c with
    | again c2 =>
      simp only
      rw [ih c2 c1]
      constructor
      · rintro ⟨c0, h0, hs0⟩
        exact ⟨c0, by rw [loopHead, hs]; exact h0, hs0⟩
      · rintro ⟨c0, h0, hs0⟩
        rw [loopHead, hs] at h0
        exact ⟨c0, h0, hs0⟩
    | done c2 err =>
      simp only
      constructor
      · intro h; exact absurd h (by simp)
      · rintro ⟨c0, h0, _⟩
        rw [loopHead, hs] at h0
        exact absurd h0 (by simp)

theorem loopHead_of_le (d : Deps) (cs : ConsensusSet) (C : Nat) (c : ScanState) (k : Nat) :
    ∀ ck, loopHead d cs C k c = some ck → ∀ j, j ≤ k → ∃ cj, loopHead d cs C j c = some cj := by
  induction k with
  | zero =>
    intro ck h j hj
    have : j = 0 := by omega
    subst this
    exact ⟨ck, h⟩
  | succ k ih =>
    intro ck h j hj
    rcases Nat.lt_or_ge j (k + 1) with hlt | hge
    · obtain ⟨c0, h0, _⟩ := (loopHead_succ d cs C k c ck).mp h
      exact ih c0 h0 j (by omega)
    · have : j = k + 1 := by omega
      subst this
      exact ⟨ck, h⟩

theorem scanLoop_eq_some_iff (d : Deps) (cs : ConsensusSet) (C : Nat) (fuel : Nat) :
    ∀ (c cf : ScanState) (err : Option Error),
      scanLoop d cs C fuel c = some (cf, err) ↔
        ∃ k, k < fuel ∧ ∃ c1, loopHead d cs C k c = some c1
          ∧ scanStep d cs C c1 = Step.done cf err := by
  induction fuel with
  | zero =>
    intro c cf err
    simp [scanLoop]
  | succ fuel ih =>
    intro c cf err
    rw [scanLoop]
    cases hs : scanStep d cs C c with
    | again c2 =>
      simp only
      rw [ih c2 cf err]
      constructor
      · rintro ⟨k, hk, c1, h1, hd⟩
        exact ⟨k + 1, by omega, c1, by rw [loopHead, hs]; exact h1, hd⟩
      · rintro ⟨k, hk, c1, h1, hd⟩
        cases k with
        | zero =>
          simp only [loopHead] at h1
          injection h1 with h1
          subst h1
          rw [hs] at hd
          exact absurd hd (by simp)
        | succ k =>
          rw [loopHead, hs] at h1
          exact ⟨k, by omega, c1, h1, hd⟩
    | done c2 err2 =>
      simp only
      constructor
      · intro h
        injection h with h
        injection h with h1 h2
        subst h1 h2
        exact ⟨0, by omega, c, rfl, hs⟩
      · rintro ⟨k, hk, c1, h1, hd⟩
        cases k with
        | zero =>
          simp only [loopHead] at h1
          injection h1 with h1
          subst h1
          rw [hs] at hd
          injection hd with h1 h2
          rw [h1, h2]
        | succ k =>
          rw [loopHead, hs] at h1
          exact absurd h1 (by simp)

/-- Every pass before a loop head that is reached made a successful replay that ended
with the gap rule failing, and led to the next loop head. -/
theorem loopHead_earlier (d : Deps) (cs : ConsensusSet) (C : Nat) (c0 : ScanState) (k : Nat)
    (ck : ScanState) (h : loopHead d cs C k c0 = some ck) (j : Nat) (hj : j < k) :
    ∃ cj, loopHead d cs C j c0 = some cj ∧ cj.s.keys.keys.card < C
      ∧ (cs cj.subscribes).err = none ∧ ¬ GapRule (replayed d cs cj)
      ∧ ∃ cj1, loopHead d cs C (j + 1) c0 = some cj1 ∧ cj1.s = replayed d cs cj := by
  obtain ⟨cj1, h1⟩ := loopHead_of_le d cs C c0 k ck h (j + 1) (by omega)
  obtain ⟨cj, h0, hs⟩ := (loopHead_succ d cs C j c0 cj1).mp h1
  obtain ⟨hlt, herr, hgap, he⟩ := scanStep_again d cs C cj cj1 hs
  exact ⟨cj, h0, hlt, herr, hgap, cj1, h1, by rw [he]⟩

theorem loopHead_subscribes (d : Deps) (cs : ConsensusSet) (C : Nat) (c0 : ScanState) (k : Nat) :
    ∀ ck, loopHead d cs C k c0 = some ck → ck.subscribes = c0.subscribes + k := by
  induction k with
  | zero => intro ck h; injection h with h; rw [← h]; rfl
  | succ k ih =>
    intro ck h
    obtain ⟨c1, h1, hs⟩ := (loopHead_succ d cs C k c0 ck).mp h
    obtain ⟨_, _, _, he⟩ := scanStep_again d cs C c1 ck hs
    rw [he]
    show c1.subscribes + 1 = _
    rw [ih c1 h1]
    omega

theorem loopHead_no_unsubscribe (d : Deps) (cs : ConsensusSet) (C : Nat) (c0 : ScanState)
    (h0 : Call.Unsubscribe ∉ c0.trace) (k : Nat) :
    ∀ ck, loopHead d cs C k c0 = some ck → Call.Unsubscribe ∉ ck.trace := by
  induction k with
  | zero => intro ck h; injection h with h; rw [← h]; exact h0
  | succ k ih =>
    intro ck h
    obtain ⟨c1, h1, hs⟩ := (loopHead_succ d cs C k c0 ck).mp h
    obtain ⟨_, _, _, he⟩ := scanStep_again d cs C c1 ck hs
    rw [he]
    have := ih c1 h1
    simp [this]

/-- C7. The gap rule decides success. `scan` returns `nil` exactly when some pass of its
loop is reached (all earlier replays succeeded and failed the gap rule), its replay
succeeds and ends with `largestIndexSeen < len(s.keys) / 2`; it then returns in the state
left by that replay, its last calls being that `generateKeys`, that subscribe and
`Unsubscribe`. So a `nil` result comes with the gap rule holding in the final state. In
particular, if the first replay succeeds and ends with the gap rule holding, `scan`
returns `nil` after exactly one replay, and with an injective derivation on a fresh
scanner the number of keys is then the initial batch size. -/
theorem gap_rule_decides_success (d : Deps) (cs : ConsensusSet) (B0 C : Nat) (s : seedScanner) :
    (∀ fuel cf, scanWith d cs B0 C fuel s = some (cf, none) ↔
        ∃ k, k < fuel ∧ ∃ c, loopHead d cs C k (scanInit B0 s) = some c
          ∧ c.subscribes = k ∧ c.s.keys.keys.card < C ∧ (cs k).err = none
          ∧ GapRule (replayed d cs c) ∧ cf = doneState d cs c)
    ∧ (∀ k c, loopHead d cs C k (scanInit B0 s) = some c → ∀ j, j < k →
        ∃ cj, loopHead d cs C j (scanInit B0 s) = some cj ∧ (cs j).err = none
          ∧ ¬ GapRule (replayed d cs cj))
    ∧ (∀ fuel cf, scanWith d cs B0 C fuel s = some (cf, none) → GapRule cf.s)
    ∧ (s.keys.keys.card < C → (cs 0).err = none → GapRule (replayed d cs (scanInit B0 s)) →
        ∀ fuel, scanWith d cs B0 C (fuel + 1) s
          = some ({ s := replayed d cs (scanInit B0 s), numKeys := B0, subscribes := 1,
                    trace := [Call.generateKeys B0, Call.ConsensusSetSubscribe,
                              Call.Unsubscribe] }, none))
    ∧ (∀ addr, InjectiveDerivation d s.seed addr → s.keys = ∅ → B0 ≤ 2 ^ 64 →
        (replayed d cs (scanInit B0 s)).keys.keys.card = B0) := by
  have hiff : ∀ fuel cf, scanWith d cs B0 C fuel s = some (cf, none) ↔
      ∃ k, k < fuel ∧ ∃ c, loopHead d cs C k (scanInit B0 s) = some c
        ∧ c.subscribes = k ∧ c.s.keys.keys.card < C ∧ (cs k).err = none
        ∧ GapRule (replayed d cs c) ∧ cf = doneState d cs c := by
    intro fuel cf
    unfold scanWith
    rw [scanLoop_eq_some_iff]
    constructor
    · rintro ⟨k, hk, c, hc, hdone⟩
      have hsub : c.subscribes = k := by
        rw [loopHead_subscribes d cs C _ k c hc]
        simp [scanInit]
      rcases scanStep_done d cs C c cf none hdone with ⟨_, he, _⟩ | ⟨_, e, _, he, _⟩
          | ⟨hlt, herr, hgap, _, hcf⟩
      · exact absurd he (by simp)
      · exact absurd he (by simp)
      · exact ⟨k, hk, c, hc, hsub, hlt, hsub ▸ herr, hgap, hcf⟩
    · rintro ⟨k, hk, c, hc, hsub, hlt, herr, hgap, hcf⟩
      refine ⟨k, hk, c, hc, ?_⟩
      rw [hcf]
      exact scanStep_of_gap d cs C c hlt (hsub ▸ herr) hgap
  refine ⟨hiff, ?_, ?_, ?_, ?_⟩
  · intro k c hc j hj
    obtain ⟨cj, h0, _, herr, hgap, _⟩ := loopHead_earlier d cs C _ k c hc j hj
    have hsub : cj.subscribes = j := by
      rw [loopHead_subscribes d cs C _ j cj h0]
      simp [scanInit]
    exact ⟨cj, h0, hsub ▸ herr, hgap⟩
  · intro fuel cf h
    obtain ⟨k, _, c, _, _, _, _, hgap, hcf⟩ := (hiff fuel cf).mp h
    rw [hcf]
    exact hgap
  · intro hlt herr hgap fuel
    exact (hiff (fuel + 1) _).mpr ⟨0, by omega, scanInit B0 s, rfl, rfl, hlt, herr, hgap, rfl⟩
  · intro addr hder hempty hB0
    rw [replayed_keys]
    have hd : Dense addr s.keys := by rw [hempty]; exact dense_empty addr
    have := (generateKeys_dense d addr s B0 hder hd (by rw [hempty]; simpa using hB0)).2
    rw [hempty] at this
    simpa [scanInit, hempty] using this

set_option maxRecDepth 100000 in
/-- C7 with 20 initial keys and a replay whose highest touched seed index is 4: `scan`
returns `nil` after one replay. -/
theorem gap_rule_decides_success_witness :
    scanWith demoDeps demoFeedGap 20 100 1 (newSeedScanner 0)
      = some ({ s := replayed demoDeps demoFeedGap (scanInit 20 (newSeedScanner 0)),
                numKeys := 20, subscribes := 1,
                trace := [Call.generateKeys 20, Call.ConsensusSetSubscribe,
                          Call.Unsubscribe] }, none) :=
  (gap_rule_decides_success demoDeps demoFeedGap 20 100 (newSeedScanner 0)).2.2.2.1
    (by decide) rfl (by decide) 0

/-- C10. Subscription lifecycle of `scan`, on the trace of its calls. If the subscribe
call made by a pass of the loop returns an error `e`, `scan` returns exactly `e`, the
trace ends with that subscribe call, it holds no `Unsubscribe`, and the keys are those
generated before the call. If `scan` returns `nil` or `errMaxKeys`, the trace holds
exactly one `Unsubscribe`, and it is its last call. -/
theorem subscription_lifecycle (d : Deps) (cs : ConsensusSet) (B0 C : Nat) (s : seedScanner) :
    (∀ k c e, loopHead d cs C k (scanInit B0 s) = some c → c.s.keys.keys.card < C →
        (cs c.subscribes).err = some e → ∀ fuel, k < fuel →
        ∃ cf, scanWith d cs B0 C fuel s = some (cf, some (Error.consensus e))
          ∧ cf.trace = c.trace ++ [Call.generateKeys c.numKeys, Call.ConsensusSetSubscribe]
          ∧ Call.Unsubscribe ∉ cf.trace
          ∧ cf.s.keys = (c.s.generateKeys d c.numKeys).keys)
    ∧ (∀ fuel cf e, scanWith d cs B0 C fuel s = some (cf, some (Error.consensus e)) →
        Call.Unsubscribe ∉ cf.trace
          ∧ cf.trace.getLast? = some Call.ConsensusSetSubscribe)
    ∧ (∀ fuel cf err, scanWith d cs B0 C fuel s = some (cf, err) →
        err = none ∨ err = some Error.errMaxKeys →
        cf.trace.count Call.Unsubscribe = 1 ∧ cf.trace.getLast? = some Call.Unsubscribe) := by
  have hinit : Call.Unsubscribe ∉ (scanInit B0 s).trace := by simp [scanInit]
  refine ⟨?_, ?_, ?_⟩
  · intro k c e hc hlt herr fuel hk
    have hno := loopHead_no_unsubscribe d cs C _ hinit k c hc
    refine ⟨_, (scanLoop_eq_some_iff d cs C fuel _ _ _).mpr
      ⟨k, hk, c, hc, scanStep_of_error d cs C c e hlt herr⟩, rfl, ?_, replayed_keys d cs c⟩
    simp [hno]
  · intro fuel cf e h
    obtain ⟨k, _, c, hc, hdone⟩ := (scanLoop_eq_some_iff d cs C fuel _ _ _).mp h
    have hno := loopHead_no_unsubscribe d cs C _ hinit k c hc
    rcases scanStep_done d cs C c cf _ hdone with ⟨_, he, _⟩ | ⟨_, e1, _, _, hcf⟩
        | ⟨_, _, _, he, _⟩
    · exact absurd he (by simp)
    · rw [hcf]
      refine ⟨by simp [hno], ?_⟩
      simp [List.getLast?_append]
    · exact absurd he (by simp)
  · intro fuel cf err h herr
    obtain ⟨k, _, c, hc, hdone⟩ := (scanLoop_eq_some_iff d cs C fuel _ _ _).mp h
    have hno := loopHead_no_unsubscribe d cs C _ hinit k c hc
    have hcount : c.trace.count Call.Unsubscribe = 0 := List.count_eq_zero.mpr hno
    rcases scanStep_done d cs C c cf _ hdone with ⟨_, _, hcf⟩ | ⟨_, e1, _, he, _⟩
        | ⟨_, _, _, _, hcf⟩
    · rw [hcf]
      refine ⟨by simp [List.count_append, hcount], ?_⟩
      simp [List.getLast?_append]
    · rcases herr with h1 | h1
      · rw [h1] at he; exact absurd he (by simp)
      · rw [h1] at he; exact absurd he (by simp)
    · rw [hcf]
      refine ⟨by simp [List.count_append, hcount], ?_⟩
      simp [List.getLast?_append]

/-- C10 at a consensus set whose first subscribe call fails with error 7. -/
theorem subscription_lifecycle_witness :
    ∃ cf, scanWith demoDeps demoFeedFailing 2 10 1 (newSeedScanner 0)
        = some (cf, some (Error.consensus 7))
      ∧ cf.trace = [] ++ [Call.generateKeys 2, Call.ConsensusSetSubscribe]
      ∧ Call.Unsubscribe ∉ cf.trace
      ∧ cf.s.keys = ((newSeedScanner 0).generateKeys demoDeps 2).keys :=
  (subscription_lifecycle demoDeps demoFeedFailing 2 10 (newSeedScanner 0)).1
    0 (scanInit 2 (newSeedScanner 0)) 7 rfl (by decide) rfl 1 (by decide)

theorem subUint64_eq (a b : Nat) (hb : b ≤ a) (ha : a < 2 ^ 64) : subUint64 a b = a - b := by
  unfold subUint64
  omega

theorem nextNumKeys_eq (C numKeys len : Nat) (hC : C < 2 ^ 63) (hn : numKeys ≤ C)
    (hl : len ≤ C) : nextNumKeys C numKeys len = min (2 * numKeys) (C - len) := by
  unfold nextNumKeys
  rw [subUint64_eq C len hl (by omega)]
  have hmod : numKeys * 2 % 2 ^ 64 = numKeys * 2 := Nat.mod_eq_of_lt (by omega)
  rw [hmod]
  split <;> omega

theorem scanStep_of_no_gap (d : Deps) (cs : ConsensusSet) (C : Nat) (c : ScanState)
    (hlt : c.s.keys.keys.card < C) (herr : (cs c.subscribes).err = none)
    (hgap : ¬ GapRule (replayed d cs c)) :
    scanStep d cs C c
      = Step.again { s := replayed d cs c,
                     numKeys := nextNumKeys C c.numKeys (replayed d cs c).keys.keys.card,
                     subscribes := c.subscribes + 1,
                     trace := c.trace ++ [Call.generateKeys c.numKeys,
                                          Call.ConsensusSetSubscribe] } := by
  unfold GapRule at hgap
  unfold scanStep nextNumKeys
  simp [hlt, herr, hgap]

/-- A pass that passes the loop condition calls `generateKeys(numKeys)`, then subscribes,
and leaves the scanner as replayed. -/
theorem scanStep_state_of_lt (d : Deps) (cs : ConsensusSet) (C : Nat) (c : ScanState)
    (hlt : c.s.keys.keys.card < C) :
    (scanStep d cs C c).state.s = replayed d cs c
      ∧ ∃ rest, (scanStep d cs C c).state.trace
          = c.trace ++ Call.generateKeys c.numKeys :: Call.ConsensusSetSubscribe :: rest := by
  cases hs : scanStep d cs C c with
  | again c1 =>
    obtain ⟨_, _, _, he⟩ := scanStep_again d cs C c c1 hs
    rw [he]
    exact ⟨rfl, [], rfl⟩
  | done c1 err =>
    rcases scanStep_done d cs C c c1 err hs with ⟨hge, _, _⟩ | ⟨_, e, _, _, he⟩
        | ⟨_, _, _, _, he⟩
    · exact absurd hlt hge
    · rw [he]; exact ⟨rfl, [], rfl⟩
    · rw [he]; exact ⟨rfl, [Call.Unsubscribe], rfl⟩

theorem two_pow_mul_facts (k B0 : Nat) :
    B0 ≤ 2 ^ k * B0 ∧ (2 ^ k - 1) * B0 = 2 ^ k * B0 - B0
      ∧ 2 ^ (k + 1) * B0 = 2 * (2 ^ k * B0)
      ∧ (2 ^ (k + 1) - 1) * B0 = 2 * (2 ^ k * B0) - B0 := by
  have h1 : 1 ≤ 2 ^ k := Nat.one_le_two_pow
  refine ⟨?_, ?_, ?_, ?_⟩
  · calc B0 = 1 * B0 := (Nat.one_mul _).symm
      _ ≤ 2 ^ k * B0 := Nat.mul_le_mul_right _ h1
  · rw [Nat.sub_mul, Nat.one_mul]
  · rw [pow_succ]; ring
  · rw [Nat.sub_mul, Nat.one_mul, pow_succ]; ring_nf

/-- Under the invariant, a pass that passes the loop condition generates exactly
`numKeys` new keys and stays within `C`. -/
theorem headInv_replayed (d : Deps) (cs : ConsensusSet) (addr : Nat → types.UnlockHash)
    (seed : modules.Seed) (B0 C k : Nat) (c : ScanState)
    (hder : InjectiveDerivation d seed addr) (hC : C < 2 ^ 63)
    (hinv : HeadInv addr seed B0 C k c) :
    c.s.keys.keys.card ≤ C ∧ c.s.keys.keys.card + c.numKeys ≤ C
      ∧ Dense addr (replayed d cs c).keys
      ∧ (replayed d cs c).keys.keys.card = c.s.keys.keys.card + c.numKeys := by
  obtain ⟨hseed, hd, hcard, hnum⟩ := hinv
  have hle : c.s.keys.keys.card ≤ C := by omega
  have hsum : c.s.keys.keys.card + c.numKeys ≤ C := by omega
  have hg := generateKeys_dense d addr c.s c.numKeys (hseed ▸ hder) hd (by omega)
  rw [replayed_keys]
  exact ⟨hle, hsum, hg.1, hg.2⟩

theorem headInv_step (d : Deps) (cs : ConsensusSet) (addr : Nat → types.UnlockHash)
    (seed : modules.Seed) (B0 C k : Nat) (c c1 : ScanState)
    (hder : InjectiveDerivation d seed addr) (hC : C < 2 ^ 63)
    (hinv : HeadInv addr seed B0 C k c) (hs : scanStep d cs C c = Step.again c1) :
    HeadInv addr seed B0 C (k + 1) c1
      ∧ c1.numKeys = min (2 * c.numKeys) (C - c1.s.keys.keys.card) := by
  obtain ⟨hle, hsum, hd1, hcard1⟩ := headInv_replayed d cs addr seed B0 C k c hder hC hinv
  obtain ⟨hlt, _, _, he⟩ := scanStep_again d cs C c c1 hs
  obtain ⟨hseed, _, hcard, hnum⟩ := hinv
  obtain ⟨f1, f2, f3, f4⟩ := two_pow_mul_facts k B0
  have hn1 : c1.numKeys = min (2 * c.numKeys) (C - c1.s.keys.keys.card) := by
    rw [he]
    exact nextNumKeys_eq C c.numKeys _ hC (by omega) (by omega)
  have hs1 : c1.s = replayed d cs c := by rw [he]
  refine ⟨⟨?_, ?_, ?_, ?_⟩, hn1⟩
  · rw [hs1, replayed_seed, hseed]
  · rw [hs1]; exact hd1
  · rw [hs1, hcard1, f4]
    rw [f2] at hcard
    omega
  · rw [hn1, hs1, hcard1, f3]
    rw [f2] at hcard
    omega

theorem headInv_init (addr : Nat → types.UnlockHash) (seed : modules.Seed) (B0 C : Nat)
    (hB0 : B0 ≤ C) : HeadInv addr seed B0 C 0 (scanInit B0 (newSeedScanner seed)) := by
  refine ⟨rfl, dense_empty addr, ?_, ?_⟩
  · simp [scanInit, newSeedScanner]
  · simp [scanInit, newSeedScanner, hB0]

theorem loopHead_headInv (d : Deps) (cs : ConsensusSet) (addr : Nat → types.UnlockHash)
    (seed : modules.Seed) (B0 C : Nat) (hder : InjectiveDerivation d seed addr)
    (hB0 : B0 ≤ C) (hC : C < 2 ^ 63) (k : Nat) :
    ∀ c, loopHead d cs C k (scanInit B0 (newSeedScanner seed)) = some c →
      HeadInv addr seed B0 C k c := by
  induction k with
  | zero =>
    intro c h
    injection h with h
    rw [← h]
    exact headInv_init addr seed B0 C hB0
  | succ k ih =>
    intro c h
    obtain ⟨c0, h0, hs⟩ := (loopHead_succ d cs C k _ c).mp h
    exact (headInv_step d cs addr seed B0 C k c0 c hder hC (ih c0 h0) hs).1

/-- C8. Gap continuation and batch doubling, for a fresh scanner with an injective
derivation. After `k` passes of the loop the number of keys is `min ((2 ^ k - 1) * B0) C`
(so `B0`, `3 * B0`, `7 * B0`, ... after successive replays). Whenever a replay succeeds
and ends with the gap rule failing, the loop goes on with
`numKeys = min (2 * b) (C - len(s.keys))`, `b` being the batch just generated, and when
`len(s.keys) < C` its next calls are `generateKeys` of that batch and a subscribe for
another replay. For the shipped constants the counts are 1e6, 3e6, 7e6, 15e6, 31e6, 63e6
and 100e6. -/
theorem gap_continuation_batch_doubling (d : Deps) (cs : ConsensusSet) (B0 C : Nat)
    (seed : modules.Seed) (addr : Nat → types.UnlockHash)
    (hder : InjectiveDerivation d seed addr) (hB0 : B0 ≤ C) (hC : C < 2 ^ 63) :
    (∀ k c, loopHead d cs C k (scanInit B0 (newSeedScanner seed)) = some c →
        c.subscribes = k ∧ c.s.keys.keys.card = min ((2 ^ k - 1) * B0) C)
    ∧ (∀ k c, loopHead d cs C k (scanInit B0 (newSeedScanner seed)) = some c →
        c.s.keys.keys.card < C → (cs k).err = none → ¬ GapRule (replayed d cs c) →
        (replayed d cs c).keys.keys.card = c.s.keys.keys.card + c.numKeys
        ∧ loopHead d cs C (k + 1) (scanInit B0 (newSeedScanner seed))
            = some { s := replayed d cs c,
                     numKeys := min (2 * c.numKeys) (C - (replayed d cs c).keys.keys.card),
                     subscribes := k + 1,
                     trace := c.trace ++ [Call.generateKeys c.numKeys,
                                          Call.ConsensusSetSubscribe] }
        ∧ ((replayed d cs c).keys.keys.card < C →
            ∃ rest, (scanStep d cs C
                { s := replayed d cs c,
                  numKeys := min (2 * c.numKeys) (C - (replayed d cs c).keys.keys.card),
                  subscribes := k + 1,
                  trace := c.trace ++ [Call.generateKeys c.numKeys,
                                       Call.ConsensusSetSubscribe] }).state.trace
              = c.trace ++ [Call.generateKeys c.numKeys, Call.ConsensusSetSubscribe]
                  ++ Call.generateKeys
                      (min (2 * c.numKeys) (C - (replayed d cs c).keys.keys.card))
                    :: Call.ConsensusSetSubscribe :: rest))
    ∧ (List.range 8).map (fun k => min ((2 ^ k - 1) * numInitialKeys) maxScanKeys)
        = [0, 1000000, 3000000, 7000000, 15000000, 31000000, 63000000, 100000000] := by
  refine ⟨?_, ?_, ?_⟩
  · intro k c hc
    refine ⟨?_, (loopHead_headInv d cs addr seed B0 C hder hB0 hC k c hc).2.2.1⟩
    rw [loopHead_subscribes d cs C _ k c hc]
    simp [scanInit]
  · intro k c hc hlt herr hgap
    have hsub : c.subscribes = k := by
      rw [loopHead_subscribes d cs C _ k c hc]
      simp [scanInit]
    have hinv := loopHead_headInv d cs addr seed B0 C hder hB0 hC k c hc
    obtain ⟨_, hsum, _, hcard1⟩ := headInv_replayed d cs addr seed B0 C k c hder hC hinv
    have hstep := scanStep_of_no_gap d cs C c hlt (hsub ▸ herr) hgap
    rw [nextNumKeys_eq C c.numKeys _ hC (by omega) (by omega), hsub] at hstep
    refine ⟨hcard1, (loopHead_succ d cs C k _ _).mpr ⟨c, hc, hstep⟩, ?_⟩
    intro hlt1
    exact (scanStep_state_of_lt d cs C _ hlt1).2
  · decide

set_option maxRecDepth 100000 in
/-- C8 with 20 initial keys and a replay whose highest touched seed index is 15: the
batch doubles to 40 and the number of keys goes from 20 to 60. -/
theorem gap_continuation_batch_doubling_witness :
    (replayed demoDeps demoFeedBusy (scanInit 20 (newSeedScanner 0))).keys.keys.card = 0 + 20
    ∧ loopHead demoDeps demoFeedBusy 100 (0 + 1) (scanInit 20 (newSeedScanner 0))
        = some { s := replayed demoDeps demoFeedBusy (scanInit 20 (newSeedScanner 0)),
                 numKeys := min (2 * 20) (100 -
                   (replayed demoDeps demoFeedBusy
                     (scanInit 20 (newSeedScanner 0))).keys.keys.card),
                 subscribes := 0 + 1,
                 trace := [] ++ [Call.generateKeys 20, Call.ConsensusSetSubscribe] } :=
  have hder : InjectiveDerivation demoDeps 0 (fun i => i) :=
    ⟨fun _ _ h => h, fun start n => by
      simp [demoDeps, List.map_map, Function.comp_def, List.range'_eq_map_range]⟩
  have h := (gap_continuation_batch_doubling demoDeps demoFeedBusy 20 100 0 (fun i => i) hder
    (by decide) (by decide)).2.1 0 (scanInit 20 (newSeedScanner 0)) rfl (by decide) rfl
    (by decide)
  ⟨h.1, h.2.1⟩

/-- C9. Ceiling, for a fresh scanner with an injective derivation and
`numInitialKeys ≤ maxScanKeys`. At every loop head `len(s.keys) ≤ C`; every call
`generateKeys(n)` has `len(s.keys) + n ≤ C` and adds exactly `n` keys, and the
subtraction `C - len(s.keys)` made after the replay does not wrap. When doubling would
overshoot, the next batch is exactly `C - len(s.keys)`. And `scan` returns `errMaxKeys`
only with `len(s.keys) = C`, after replays that all succeeded and ended with the gap
rule failing, the last one included. -/
theorem key_ceiling (d : Deps) (cs : ConsensusSet) (B0 C : Nat)
    (seed : modules.Seed) (addr : Nat → types.UnlockHash)
    (hder : InjectiveDerivation d seed addr) (hB0 : B0 ≤ C) (hC : C < 2 ^ 63) :
    (∀ k c, loopHead d cs C k (scanInit B0 (newSeedScanner seed)) = some c →
        c.s.keys.keys.card ≤ C
        ∧ (c.s.keys.keys.card < C →
            c.s.keys.keys.card + c.numKeys ≤ C
            ∧ (replayed d cs c).keys.keys.card = c.s.keys.keys.card + c.numKeys
            ∧ (replayed d cs c).keys.keys.card ≤ C
            ∧ subUint64 C (replayed d cs c).keys.keys.card
                = C - (replayed d cs c).keys.keys.card))
    ∧ (∀ k c c1, loopHead d cs C k (scanInit B0 (newSeedScanner seed)) = some c →
        loopHead d cs C (k + 1) (scanInit B0 (newSeedScanner seed)) = some c1 →
        C - c1.s.keys.keys.card < 2 * c.numKeys →
        c1.numKeys = C - c1.s.keys.keys.card)
    ∧ (∀ fuel cf, scanWith d cs B0 C fuel (newSeedScanner seed)
          = some (cf, some Error.errMaxKeys) →
        cf.s.keys.keys.card = C
        ∧ ∃ k c, loopHead d cs C k (scanInit B0 (newSeedScanner seed)) = some c
            ∧ cf.s = c.s
            ∧ (∀ j, j < k → ∃ cj, loopHead d cs C j (scanInit B0 (newSeedScanner seed)) = some cj
                ∧ (cs j).err = none ∧ ¬ GapRule (replayed d cs cj))
            ∧ (0 < C → 0 < k ∧ ¬ GapRule cf.s)) := by
  refine ⟨?_, ?_, ?_⟩
  · intro k c hc
    have hinv := loopHead_headInv d cs addr seed B0 C hder hB0 hC k c hc
    obtain ⟨hle, hsum, _, hcard1⟩ := headInv_replayed d cs addr seed B0 C k c hder hC hinv
    refine ⟨hle, fun _ => ⟨hsum, hcard1, by omega, ?_⟩⟩
    exact subUint64_eq C _ (by omega) (by omega)
  · intro k c c1 hc hc1 hover
    obtain ⟨c0, h0, hs⟩ := (loopHead_succ d cs C k _ c1).mp hc1
    rw [hc] at h0
    injection h0 with h0
    subst h0
    have hinv := loopHead_headInv d cs addr seed B0 C hder hB0 hC k c hc
    have hn := (headInv_step d cs addr seed B0 C k c c1 hder hC hinv hs).2
    omega
  · intro fuel cf h
    obtain ⟨k, _, c, hc, hdone⟩ := (scanLoop_eq_some_iff d cs C fuel _ _ _).mp h
    have hinv := loopHead_headInv d cs addr seed B0 C hder hB0 hC k c hc
    have hle := (headInv_replayed d cs addr seed B0 C k c hder hC hinv).1
    rcases scanStep_done d cs C c cf _ hdone with ⟨hge, _, hcf⟩ | ⟨_, e, _, he, _⟩
        | ⟨_, _, _, he, _⟩
    · have hs : cf.s = c.s := by rw [hcf]
      refine ⟨by rw [hs]; omega, k, c, hc, hs, ?_, ?_⟩
      · intro j hj
        obtain ⟨cj, hj0, _, herr, hgap, _⟩ := loopHead_earlier d cs C _ k c hc j hj
        have hsub : cj.subscribes = j := by
          rw [loopHead_subscribes d cs C _ j cj hj0]
          simp [scanInit]
        exact ⟨cj, hj0, hsub ▸ herr, hgap⟩
      · intro hpos
        have hk : 0 < k := by
          rcases Nat.eq_zero_or_pos k with h0 | h0
          · subst h0
            injection hc with hc
            rw [← hc] at hge
            simp [scanInit, newSeedScanner] at hge
            omega
          · exact h0
        refine ⟨hk, ?_⟩
        obtain ⟨cj, _, _, _, hgap, cj1, hj1, hsj⟩ :=
          loopHead_earlier d cs C _ k c hc (k - 1) (by omega)
        have hk1 : k - 1 + 1 = k := by omega
        rw [hk1, hc] at hj1
        injection hj1 with hj1
        rw [hs, hj1, hsj]
        exact hgap
    · exact absurd he (by simp)
    · exact absurd he (by simp)

/-- C9 with 4 initial keys, a ceiling of 10 keys and a replay touching the seed indices
3 and 8: doubling the batch to 8 would overshoot, so the second batch is `10 - 4`. -/
theorem key_ceiling_witness :
    demoStateClamped.numKeys = 10 - demoStateClamped.s.keys.keys.card :=
  have hder : InjectiveDerivation demoDeps 0 (fun i => i) :=
    ⟨fun _ _ h => h, fun start n => by
      simp [demoDeps, List.map_map, Function.comp_def, List.range'_eq_map_range]⟩
  (key_ceiling demoDeps demoFeedFull 4 10 0 (fun i => i) hder (by decide) (by decide)).2.1
    0 (scanInit 4 (newSeedScanner 0)) demoStateClamped rfl (by decide) (by decide)

theorem insertKeys_keys_subset (d : Deps) (p : Nat) (ks : List spendableKey) :
    ∀ (i : Nat) (keys : KeyMap), keys.keys ⊆ (insertKeys d p i ks keys).keys := by
  induction ks with
  | nil => intro i keys; exact Finset.Subset.refl _
  | cons k rest ih =>
    intro i keys
    simp only [insertKeys]
    refine Finset.Subset.trans ?_ (ih (i + 1) _)
    rw [keys_insert]
    exact Finset.subset_insert _ _

theorem call_monotone (d : Deps) (s : seedScanner) (c : ScannerCall) :
    s.largestIndexSeen ≤ (s.call d c).largestIndexSeen
      ∧ s.keys.keys ⊆ (s.call d c).keys.keys := by
  cases c with
  | generateKeys n =>
    exact ⟨le_refl _, insertKeys_keys_subset d _ _ 0 s.keys⟩
  | ProcessConsensusChange cc =>
    exact ⟨le_foldl_bumpLargest s.keys _ _, Finset.Subset.refl _⟩

theorem run_monotone (d : Deps) (calls : List ScannerCall) :
    ∀ s : seedScanner, s.largestIndexSeen ≤ (s.run d calls).largestIndexSeen
      ∧ s.keys.keys ⊆ (s.run d calls).keys.keys := by
  induction calls with
  | nil => intro s; exact ⟨le_refl _, Finset.Subset.refl _⟩
  | cons c rest ih =>
    intro s
    have h1 := call_monotone d s c
    have h2 := ih (s.call d c)
    exact ⟨le_trans h1.1 h2.1, Finset.Subset.trans h1.2 h2.2⟩

theorem run_append (d : Deps) (s : seedScanner) (pre post : List ScannerCall) :
    s.run d (pre ++ post) = (s.run d pre).run d post := by
  simp [seedScanner.run, List.foldl_append]

/-- C12. Monotonicity. Along every finite sequence of `generateKeys` and
`ProcessConsensusChange` calls from any scanner state, from any point of the sequence to
any later point `largestIndexSeen` does not decrease, `len(s.keys)` does not decrease, and
every address of `s.keys` is still in `s.keys`. -/
theorem monotone_across_calls (d : Deps) (s : seedScanner) (pre post : List ScannerCall) :
    (s.run d pre).largestIndexSeen ≤ (s.run d (pre ++ post)).largestIndexSeen
    ∧ (s.run d pre).keys.keys.card ≤ (s.run d (pre ++ post)).keys.keys.card
    ∧ ∀ a, a ∈ (s.run d pre).keys → a ∈ (s.run d (pre ++ post)).keys := by
  rw [run_append]
  have h := run_monotone d post (s.run d pre)
  refine ⟨h.1, Finset.card_le_card h.2, ?_⟩
  intro a ha
  exact Finmap.mem_keys.mp (h.2 (Finmap.mem_keys.mpr ha))

/-- C12 on `demoScanner`: address 3 is still a key after an event and two more keys. -/
theorem monotone_across_calls_witness :
    3 ∈ (demoScanner.run demoDeps
          ([] ++ [ScannerCall.ProcessConsensusChange demoEvent1,
                  ScannerCall.generateKeys 2])).keys :=
  (monotone_across_calls demoDeps demoScanner []
    [ScannerCall.ProcessConsensusChange demoEvent1, ScannerCall.generateKeys 2]).2.2 3
    (by decide)

/-- C15. Frame. `generateKeys(n)` leaves `siacoinOutputs`, `largestIndexSeen` and `seed`
unchanged; `ProcessConsensusChange(cc)` leaves `keys` and `seed` unchanged; the
`siacoinOutputs` it produces depends only on the keys, the previous `siacoinOutputs` and
the applied blocks (not on the previous `largestIndexSeen`, nor on the output diffs), and
the `largestIndexSeen` it produces does not depend on `siacoinOutputs`. -/
theorem frame_conditions (d : Deps) (s : seedScanner) :
    (∀ n, (s.generateKeys d n).siacoinOutputs = s.siacoinOutputs
        ∧ (s.generateKeys d n).largestIndexSeen = s.largestIndexSeen
        ∧ (s.generateKeys d n).seed = s.seed)
    ∧ (∀ cc, (s.ProcessConsensusChange d cc).keys = s.keys
        ∧ (s.ProcessConsensusChange d cc).seed = s.seed)
    ∧ (∀ (s1 : seedScanner) (cc cc1 : modules.ConsensusChange),
        s1.keys = s.keys → s1.siacoinOutputs = s.siacoinOutputs →
        cc1.AppliedBlocks = cc.AppliedBlocks →
        (s1.ProcessConsensusChange d cc1).siacoinOutputs
          = (s.ProcessConsensusChange d cc).siacoinOutputs)
    ∧ (∀ (s1 : seedScanner) (cc : modules.ConsensusChange),
        s1.keys = s.keys → s1.largestIndexSeen = s.largestIndexSeen →
        (s1.ProcessConsensusChange d cc).largestIndexSeen
          = (s.ProcessConsensusChange d cc).largestIndexSeen) := by
  refine ⟨fun n => ⟨rfl, rfl, rfl⟩, fun cc => ⟨rfl, rfl⟩, ?_, ?_⟩
  · intro s1 cc cc1 hk ho hb
    simp only [seedScanner.ProcessConsensusChange, updateOutputs, hk, ho, hb]
  · intro s1 cc hk hl
    simp only [seedScanner.ProcessConsensusChange, hk, hl]

/-- C15 on `demoScanner`: the ledger after `demoEvent1` is the same from a scanner that
differs only in `largestIndexSeen`, for an event that differs only in its diffs. -/
theorem frame_conditions_witness :
    ({ demoScanner with largestIndexSeen := 9 }.ProcessConsensusChange demoDeps
        { demoEvent1 with SiacoinOutputDiffs :=
            [{ Direction := true, ID := 21,
               SiacoinOutput := { Value := 7, UnlockHash := 3 } }] }).siacoinOutputs
      = (demoScanner.ProcessConsensusChange demoDeps demoEvent1).siacoinOutputs :=
  (frame_conditions demoDeps demoScanner).2.2.1 _ _ _ rfl rfl rfl

theorem lookup_insertKeys_of_not_mem (d : Deps) (p : Nat) (a : types.UnlockHash)
    (ks : List spendableKey) :
    ∀ (i : Nat) (keys : KeyMap), a ∉ ks.map (fun k => d.UnlockHash k.UnlockConditions) →
      (insertKeys d p i ks keys).lookup a = keys.lookup a := by
  induction ks with
  | nil => intro i keys _; rfl
  | cons k rest ih =>
    intro i keys h
    simp only [List.map_cons, List.mem_cons, not_or] at h
    simp only [insertKeys]
    rw [ih (i + 1) _ h.2, Finmap.lookup_insert_of_ne _ h.1]

theorem lookup_insertKeys_of_nodup (d : Deps) (p : Nat) (ks : List spendableKey) :
    ∀ (i : Nat) (keys : KeyMap) (j : Nat) (a : types.UnlockHash),
      (ks.map (fun k => d.UnlockHash k.UnlockConditions)).Nodup →
      (ks.map (fun k => d.UnlockHash k.UnlockConditions))[j]? = some a →
      (insertKeys d p i ks keys).lookup a = some ((p + (i + j)) % 2 ^ 64) := by
  induction ks with
  | nil => intro i keys j a _ h; simp at h
  | cons k rest ih =>
    intro i keys j a hnd h
    simp only [List.map_cons, List.nodup_cons] at hnd
    simp only [insertKeys]
    cases j with
    | zero =>
      simp only [List.map_cons, List.getElem?_cons_zero, Option.some.injEq] at h
      subst h
      rw [lookup_insertKeys_of_not_mem d p _ rest (i + 1) _ hnd.1, Finmap.lookup_insert]
      rfl
    | succ j =>
      simp only [List.map_cons, List.getElem?_cons_succ] at h
      rw [ih (i + 1) _ j a hnd.2 h]
      congr 2
      omega

theorem lookup_insertKeys_some (d : Deps) (p : Nat) (a : types.UnlockHash) (v : Nat)
    (ks : List spendableKey) :
    ∀ (i : Nat) (keys : KeyMap), (insertKeys d p i ks keys).lookup a = some v →
      keys.lookup a = some v
        ∨ ∃ j, (ks.map (fun k => d.UnlockHash k.UnlockConditions))[j]? = some a
            ∧ v = (p + (i + j)) % 2 ^ 64 := by
  induction ks with
  | nil => intro i keys h; exact Or.inl h
  | cons k rest ih =>
    intro i keys h
    simp only [insertKeys] at h
    rcases ih (i + 1) _ h with h1 | ⟨j, hj, hv⟩
    · by_cases e : a = d.UnlockHash k.UnlockConditions
      · subst e
        rw [Finmap.lookup_insert] at h1
        exact Or.inr ⟨0, by simp, by rw [← Option.some.inj h1]; rfl⟩
      · rw [Finmap.lookup_insert_of_ne _ e] at h1
        exact Or.inl h1
    · exact Or.inr ⟨j + 1, by simpa using hj, by rw [hv]; congr 2; omega⟩

theorem insertKeys_keys (d : Deps) (p : Nat) (ks : List spendableKey) :
    ∀ (i : Nat) (keys : KeyMap), (insertKeys d p i ks keys).keys
      = keys.keys ∪ (ks.map (fun k => d.UnlockHash k.UnlockConditions)).toFinset := by
  induction ks with
  | nil => intro i keys; simp [insertKeys]
  | cons k rest ih =>
    intro i keys
    simp only [insertKeys, ih, keys_insert, List.map_cons, List.toFinset_cons]
    ext x
    simp only [Finset.mem_union, Finset.mem_insert]
    tauto

/-- C13. Postcondition of `generateKeys(n)` called with `p = len(s.keys)`: if the
derivation returns `n` keys with pairwise distinct addresses, none already in `s.keys`,
then afterwards `s.keys` has exactly `p + n` entries, every previous entry is unchanged,
the `i`-th derived address is mapped to `p + i`, every new entry has its index in
`[p, p + n)`, and every index of that range belongs to exactly one new entry. (The number
of keys stays within `uint64`, as it does for any Go map.) -/
theorem generateKeys_postcondition (d : Deps) (s : seedScanner) (n : Nat)
    (hlen : (derivedAddrs d s n).length = n)
    (hnodup : (derivedAddrs d s n).Nodup)
    (hfresh : ∀ a ∈ derivedAddrs d s n, a ∉ s.keys)
    (hbound : s.keys.keys.card + n ≤ 2 ^ 64) :
    (s.generateKeys d n).keys.keys.card = s.keys.keys.card + n
    ∧ (∀ a i, s.keys.lookup a = some i → (s.generateKeys d n).keys.lookup a = some i)
    ∧ (∀ i a, (derivedAddrs d s n)[i]? = some a →
        (s.generateKeys d n).keys.lookup a = some (s.keys.keys.card + i))
    ∧ (∀ a j, a ∉ s.keys → (s.generateKeys d n).keys.lookup a = some j →
        s.keys.keys.card ≤ j ∧ j < s.keys.keys.card + n)
    ∧ (∀ j, s.keys.keys.card ≤ j → j < s.keys.keys.card + n →
        ∃! a, a ∉ s.keys ∧ (s.generateKeys d n).keys.lookup a = some j) := by
  have hderived : ∀ i a, (derivedAddrs d s n)[i]? = some a →
      (s.generateKeys d n).keys.lookup a = some (s.keys.keys.card + i) := by
    intro i a hi
    have hlt : i < n := by
      have := (List.getElem?_eq_some.mp hi).1
      omega
    have := lookup_insertKeys_of_nodup d s.keys.keys.card _ 0 s.keys i a hnodup hi
    rw [Nat.zero_add, Nat.mod_eq_of_lt (by omega)] at this
    exact this
  have hnew : ∀ a j, a ∉ s.keys → (s.generateKeys d n).keys.lookup a = some j →
      ∃ i, (derivedAddrs d s n)[i]? = some a ∧ j = s.keys.keys.card + i ∧ i < n := by
    intro a j ha hj
    rcases lookup_insertKeys_some d s.keys.keys.card a j _ 0 s.keys hj with h1 | ⟨i, hi, hv⟩
    · exact absurd (Finmap.mem_of_lookup_eq_some h1) ha
    · have hlt : i < n := by
        have := (List.getElem?_eq_some.mp hi).1
        have h2 : (derivedAddrs d s n).length = n := hlen
        unfold derivedAddrs at h2
        omega
      rw [Nat.zero_add, Nat.mod_eq_of_lt (by omega)] at hv
      exact ⟨i, hi, hv, hlt⟩
  refine ⟨?_, ?_, hderived, ?_, ?_⟩
  · show (insertKeys d _ 0 _ s.keys).keys.card = _
    have hc : (derivedAddrs d s n).toFinset.card = n := by
      rw [List.toFinset_card_of_nodup hnodup, hlen]
    rw [insertKeys_keys, Finset.card_union_of_disjoint]
    · show _ + (derivedAddrs d s n).toFinset.card = _
      rw [hc]
    · rw [Finset.disjoint_left]
      intro a ha hb
      exact hfresh a (List.mem_toFinset.mp hb) (Finmap.mem_keys.mp ha)
  · intro a i hi
    have hnm : a ∉ derivedAddrs d s n :=
      fun hm => hfresh a hm (Finmap.mem_of_lookup_eq_some hi)
    show (insertKeys d _ 0 _ s.keys).lookup a = _
    rw [lookup_insertKeys_of_not_mem d _ a _ 0 s.keys hnm, hi]
  · intro a j ha hj
    obtain ⟨i, _, hv, hlt⟩ := hnew a j ha hj
    omega
  · intro j hj1 hj2
    have hidx : j - s.keys.keys.card < (derivedAddrs d s n).length := by omega
    refine ⟨(derivedAddrs d s n)[j - s.keys.keys.card], ⟨?_, ?_⟩, ?_⟩
    · exact hfresh _ (List.getElem_mem _)
    · have := hderived (j - s.keys.keys.card) _ (List.getElem?_eq_getElem hidx)
      rw [this]
      congr 1
      omega
    · rintro b ⟨hb, hbj⟩
      obtain ⟨i, hi, hv, _⟩ := hnew b j hb hbj
      have hij : i = j - s.keys.keys.card := by omega
      subst hij
      rw [List.getElem?_eq_getElem hidx] at hi
      exact (Option.some.inj hi).symm

/-- C13 on `demoScanner` (keys of addresses 0..3): two more keys are the addresses 4 and
5 with indices 4 and 5. -/
theorem generateKeys_postcondition_witness :
    (demoScanner.generateKeys demoDeps 2).keys.keys.card = demoScanner.keys.keys.card + 2
    ∧ (demoScanner.generateKeys demoDeps 2).keys.lookup 5
        = some (demoScanner.keys.keys.card + 1) :=
  have h := generateKeys_postcondition demoDeps demoScanner 2 (by decide) (by decide)
    (by decide) (by decide)
  ⟨h.1, h.2.2.1 1 5 (by decide)⟩

theorem dense_lookup_mono (addr : Nat → types.UnlockHash) (k1 k2 : KeyMap)
    (h1 : Dense addr k1) (h2 : Dense addr k2) (hle : k1.keys.card ≤ k2.keys.card)
    (a : types.UnlockHash) (i : Nat) (h : k1.lookup a = some i) : k2.lookup a = some i := by
  obtain ⟨hlt, he⟩ := (h1 a i).mp h
  exact (h2 a i).mpr ⟨by omega, he⟩

theorem dense_eq_of_card_eq (addr : Nat → types.UnlockHash) (k1 k2 : KeyMap)
    (h1 : Dense addr k1) (h2 : Dense addr k2) (hc : k1.keys.card = k2.keys.card) :
    k1 = k2 := by
  apply Finmap.ext_lookup
  intro a
  apply Option.ext
  intro i
  show k1.lookup a = some i ↔ k2.lookup a = some i
  rw [h1 a i, h2 a i, hc]

/-- A run of calls from a dense scanner of `seed` keeps the keys dense and adds exactly
the requested number of keys. -/
theorem run_dense (d : Deps) (seed : modules.Seed) (addr : Nat → types.UnlockHash)
    (hder : InjectiveDerivation d seed addr) (calls : List ScannerCall) :
    ∀ s : seedScanner, s.seed = seed → Dense addr s.keys →
      s.keys.keys.card + requestedKeys calls ≤ 2 ^ 64 →
      (s.run d calls).seed = seed ∧ Dense addr (s.run d calls).keys
        ∧ (s.run d calls).keys.keys.card = s.keys.keys.card + requestedKeys calls := by
  induction calls with
  | nil => intro s hs hd _; exact ⟨hs, hd, rfl⟩
  | cons c rest ih =>
    intro s hs hd hb
    cases c with
    | generateKeys n =>
      simp only [requestedKeys] at hb ⊢
      have hg := generateKeys_dense d addr s n (hs ▸ hder) hd (by omega)
      have := ih (s.generateKeys d n) hs hg.1 (by rw [hg.2]; omega)
      refine ⟨this.1, this.2.1, ?_⟩
      have e : s.run d (ScannerCall.generateKeys n :: rest)
          = (s.generateKeys d n).run d rest := rfl
      rw [e, this.2.2, hg.2]
      omega
    | ProcessConsensusChange cc =>
      simp only [requestedKeys] at hb ⊢
      exact ih (s.ProcessConsensusChange d cc) hs hd hb

/-- C14. Dense, injective address index. With an injective derivation, in every state
reached from `newSeedScanner(seed)` by `generateKeys` and `ProcessConsensusChange` calls,
`s.keys` has as many entries as keys were requested, maps the address of index `i` to `i`
for every `i < len(s.keys)` and has no other entry; so every index below `len(s.keys)`
has exactly one address, no two addresses share an index, and the keys are those a single
`generateKeys` call for the total would produce. (The total stays within `uint64`.) -/
theorem dense_injective_address_index (d : Deps) (seed : modules.Seed)
    (addr : Nat → types.UnlockHash) (calls : List ScannerCall)
    (hder : InjectiveDerivation d seed addr) (hbound : requestedKeys calls ≤ 2 ^ 64) :
    ((newSeedScanner seed).run d calls).keys.keys.card = requestedKeys calls
    ∧ (∀ i, i < requestedKeys calls →
        ((newSeedScanner seed).run d calls).keys.lookup (addr i) = some i)
    ∧ (∀ a i, ((newSeedScanner seed).run d calls).keys.lookup a = some i →
        i < requestedKeys calls ∧ addr i = a)
    ∧ (∀ i, i < requestedKeys calls →
        ∃! a, ((newSeedScanner seed).run d calls).keys.lookup a = some i)
    ∧ (∀ a b i, ((newSeedScanner seed).run d calls).keys.lookup a = some i →
        ((newSeedScanner seed).run d calls).keys.lookup b = some i → a = b)
    ∧ ((newSeedScanner seed).run d calls).keys
        = ((newSeedScanner seed).generateKeys d (requestedKeys calls)).keys := by
  have h0 : (newSeedScanner seed).keys.keys.card = 0 := rfl
  obtain ⟨_, hd, hc⟩ := run_dense d seed addr hder calls (newSeedScanner seed) rfl
    (dense_empty addr) (by rw [h0]; omega)
  rw [h0, Nat.zero_add] at hc
  have hone := generateKeys_dense d addr (newSeedScanner seed) (requestedKeys calls) hder
    (dense_empty addr) (by rw [h0]; omega)
  rw [h0, Nat.zero_add] at hone
  refine ⟨hc, ?_, ?_, ?_, ?_, ?_⟩
  · intro i hi
    exact (hd (addr i) i).mpr ⟨by omega, rfl⟩
  · intro a i h
    have := (hd a i).mp h
    exact ⟨by omega, this.2⟩
  · intro i hi
    refine ⟨addr i, (hd (addr i) i).mpr ⟨by omega, rfl⟩, ?_⟩
    intro b hb
    exact ((hd b i).mp hb).2.symm
  · intro a b i ha hb
    rw [← ((hd a i).mp ha).2, ← ((hd b i).mp hb).2]
  · exact dense_eq_of_card_eq addr _ _ hd hone.1 (by rw [hc, hone.2])

/-- C14 with `demoDeps`: two keys, an event and three more keys give the five keys of a
single call. -/
theorem dense_injective_address_index_witness :
    ((newSeedScanner 0).run demoDeps
        [ScannerCall.generateKeys 2, ScannerCall.ProcessConsensusChange demoEvent1,
         ScannerCall.generateKeys 3]).keys
      = ((newSeedScanner 0).generateKeys demoDeps
          (requestedKeys [ScannerCall.generateKeys 2,
            ScannerCall.ProcessConsensusChange demoEvent1, ScannerCall.generateKeys 3])).keys :=
  have hder : InjectiveDerivation demoDeps 0 (fun i => i) :=
    ⟨fun _ _ h => h, fun start n => by
      simp [demoDeps, List.map_map, Function.comp_def, List.range'_eq_map_range]⟩
  (dense_injective_address_index demoDeps 0 (fun i => i) _ hder (by decide)).2.2.2.2.2

theorem foldl_ProcessConsensusChange_largest_ge (d : Deps) (ccs : List modules.ConsensusChange) :
    ∀ s : seedScanner,
      s.largestIndexSeen ≤ (ccs.foldl (seedScanner.ProcessConsensusChange d) s).largestIndexSeen
      ∧ ∀ cc ∈ ccs, ∀ a index, OccursIn d cc a → s.keys.lookup a = some index →
          index ≤ (ccs.foldl (seedScanner.ProcessConsensusChange d) s).largestIndexSeen := by
  induction ccs with
  | nil =>
    intro s
    exact ⟨le_refl _, fun cc hcc => absurd hcc (List.not_mem_nil _)⟩
  | cons c rest ih =>
    intro s
    have h := ih (s.ProcessConsensusChange d c)
    have hstep : s.largestIndexSeen ≤ (s.ProcessConsensusChange d c).largestIndexSeen :=
      le_foldl_bumpLargest s.keys _ _
    refine ⟨le_trans hstep h.1, ?_⟩
    intro cc hcc a index ha hk
    rcases List.mem_cons.mp hcc with e | hm
    · subst e
      exact le_trans (index_le_updateLargestIndexSeen d s.keys s.largestIndexSeen cc a index
        ha hk) h.1
    · exact h.2 cc hm a index ha hk

theorem foldl_ProcessConsensusChange_largest_attained (d : Deps)
    (ccs : List modules.ConsensusChange) :
    ∀ s : seedScanner,
      (ccs.foldl (seedScanner.ProcessConsensusChange d) s).largestIndexSeen = s.largestIndexSeen
      ∨ ∃ cc ∈ ccs, ∃ a, OccursIn d cc a ∧ s.keys.lookup a
          = some (ccs.foldl (seedScanner.ProcessConsensusChange d) s).largestIndexSeen := by
  induction ccs with
  | nil => intro s; exact Or.inl rfl
  | cons c rest ih =>
    intro s
    rcases ih (s.ProcessConsensusChange d c) with h | ⟨cc, hcc, a, ha, hk⟩
    · rcases updateLargestIndexSeen_attained d s.keys s.largestIndexSeen c with h1 | ⟨a, ha, hk⟩
      · left
        simp only [List.foldl_cons]
        rw [h]
        exact h1
      · right
        refine ⟨c, List.mem_cons_self _ _, a, ha, ?_⟩
        simp only [List.foldl_cons]
        rw [h]
        exact hk
    · exact Or.inr ⟨cc, List.mem_cons_of_mem _ hcc, a, ha, hk⟩

/-- Along a run of calls with an injective derivation, `largestIndexSeen` stays 0 or the
index of a key. -/
theorem run_largest_is_index (d : Deps) (seed : modules.Seed) (addr : Nat → types.UnlockHash)
    (hder : InjectiveDerivation d seed addr) (calls : List ScannerCall) :
    ∀ s : seedScanner, s.seed = seed → Dense addr s.keys →
      s.keys.keys.card + requestedKeys calls ≤ 2 ^ 64 →
      (s.largestIndexSeen = 0 ∨ ∃ a, s.keys.lookup a = some s.largestIndexSeen) →
      ((s.run d calls).largestIndexSeen = 0
        ∨ ∃ a, (s.run d calls).keys.lookup a = some (s.run d calls).largestIndexSeen) := by
  induction calls with
  | nil => intro s _ _ _ h; exact h
  | cons c rest ih =>
    intro s hs hd hb h
    cases c with
    | generateKeys n =>
      simp only [requestedKeys] at hb
      have hg := generateKeys_dense d addr s n (hs ▸ hder) hd (by omega)
      apply ih (s.generateKeys d n) hs hg.1 (by rw [hg.2]; omega)
      rcases h with h0 | ⟨a, ha⟩
      · exact Or.inl h0
      · exact Or.inr ⟨a, dense_lookup_mono addr _ _ hd hg.1 (by rw [hg.2]; omega) a _ ha⟩
    | ProcessConsensusChange cc =>
      simp only [requestedKeys] at hb
      apply ih (s.ProcessConsensusChange d cc) hs hd hb
      rcases updateLargestIndexSeen_attained d s.keys s.largestIndexSeen cc with h1 | ⟨a, _, hk⟩
      · rcases h with h0 | ⟨a, ha⟩
        · left
          show updateLargestIndexSeen d s.keys s.largestIndexSeen cc = 0
          rw [h1, h0]
        · right
          refine ⟨a, ?_⟩
          show s.keys.lookup a = some (updateLargestIndexSeen d s.keys s.largestIndexSeen cc)
          rw [h1]
          exact ha
      · exact Or.inr ⟨a, hk⟩

/-- C19. With an injective derivation, in every state reached from `newSeedScanner(seed)`
by `generateKeys` and `ProcessConsensusChange` calls, `largestIndexSeen` is 0 or is
`s.keys[a]` for an address `a` of `s.keys`; hence `largestIndexSeen < len(s.keys)` whenever
`len(s.keys) > 0`. And the gap test cannot tell "no seed address seen" from "only index 0
seen": from a scanner with `largestIndexSeen = 0`, a replay that touches no address of
`s.keys` and a replay that touches only addresses of index 0 leave the same
`largestIndexSeen` and the same outcome of the gap rule. -/
theorem largestIndexSeen_is_generated_index (d : Deps) (seed : modules.Seed)
    (addr : Nat → types.UnlockHash) (calls : List ScannerCall)
    (hder : InjectiveDerivation d seed addr) (hbound : requestedKeys calls ≤ 2 ^ 64) :
    (((newSeedScanner seed).run d calls).largestIndexSeen = 0
      ∨ ∃ a, ((newSeedScanner seed).run d calls).keys.lookup a
          = some ((newSeedScanner seed).run d calls).largestIndexSeen)
    ∧ (0 < ((newSeedScanner seed).run d calls).keys.keys.card →
        ((newSeedScanner seed).run d calls).largestIndexSeen
          < ((newSeedScanner seed).run d calls).keys.keys.card)
    ∧ (∀ (s : seedScanner) (H1 H2 : List modules.ConsensusChange), s.largestIndexSeen = 0 →
        (∀ cc ∈ H1, ∀ a, OccursIn d cc a → a ∉ s.keys) →
        (∀ cc ∈ H2, ∀ a index, OccursIn d cc a → s.keys.lookup a = some index → index = 0) →
        (H1.foldl (seedScanner.ProcessConsensusChange d) s).largestIndexSeen
          = (H2.foldl (seedScanner.ProcessConsensusChange d) s).largestIndexSeen
        ∧ (GapRule (H1.foldl (seedScanner.ProcessConsensusChange d) s)
            ↔ GapRule (H2.foldl (seedScanner.ProcessConsensusChange d) s))) := by
  have h0 : (newSeedScanner seed).keys.keys.card = 0 := rfl
  obtain ⟨_, hd, hc⟩ := run_dense d seed addr hder calls (newSeedScanner seed) rfl
    (dense_empty addr) (by rw [h0]; omega)
  have hidx := run_largest_is_index d seed addr hder calls (newSeedScanner seed) rfl
    (dense_empty addr) (by rw [h0]; omega) (Or.inl rfl)
  refine ⟨hidx, ?_, ?_⟩
  · intro hpos
    rcases hidx with hz | ⟨a, ha⟩
    · rw [hz]; exact hpos
    · exact ((hd a _).mp ha).1
  · intro s H1 H2 hs h1 h2
    have e1 : (H1.foldl (seedScanner.ProcessConsensusChange d) s).largestIndexSeen = 0 := by
      rcases foldl_ProcessConsensusChange_largest_attained d H1 s with h | ⟨cc, hcc, a, ha, hk⟩
      · rw [h, hs]
      · exact absurd (Finmap.mem_of_lookup_eq_some hk) (h1 cc hcc a ha)
    have e2 : (H2.foldl (seedScanner.ProcessConsensusChange d) s).largestIndexSeen = 0 := by
      rcases foldl_ProcessConsensusChange_largest_attained d H2 s with h | ⟨cc, hcc, a, ha, hk⟩
      · rw [h, hs]
      · exact h2 cc hcc a _ ha hk
    refine ⟨by rw [e1, e2], ?_⟩
    unfold GapRule
    rw [e1, e2, foldl_ProcessConsensusChange_keys, foldl_ProcessConsensusChange_keys]

/-- C19 with `demoDeps`: after four keys and `demoEvent1`, which touches index 3,
`largestIndexSeen` is below the number of keys. -/
theorem largestIndexSeen_is_generated_index_witness :
    ((newSeedScanner 0).run demoDeps
        [ScannerCall.generateKeys 4,
         ScannerCall.ProcessConsensusChange demoEvent1]).largestIndexSeen
      < ((newSeedScanner 0).run demoDeps
        [ScannerCall.generateKeys 4,
         ScannerCall.ProcessConsensusChange demoEvent1]).keys.keys.card :=
  have hder : InjectiveDerivation demoDeps 0 (fun i => i) :=
    ⟨fun _ _ h => h, fun start n => by
      simp [demoDeps, List.map_map, Function.comp_def, List.range'_eq_map_range]⟩
  (largestIndexSeen_is_generated_index demoDeps 0 (fun i => i) _ hder (by decide)).2.1
    (by decide)

/-- When a run holds an operation that affects `id`, the entry of `id` after the run does
not depend on the output set the run starts from. -/
theorem lookup_runOps_indep (keys : KeyMap) (id : types.SiacoinOutputID) (ops : List LedgerOp) :
    ∀ m1 m2 : OutputMap, (∃ op ∈ ops, LedgerOp.affects keys id op) →
      (runOps keys m1 ops).lookup id = (runOps keys m2 ops).lookup id := by
  induction ops with
  | nil => intro m1 m2 h; obtain ⟨op, hop, _⟩ := h; exact absurd hop (List.not_mem_nil _)
  | cons op rest ih =>
    intro m1 m2 h
    rw [runOps_cons, runOps_cons]
    by_cases hrest : ∃ o ∈ rest, LedgerOp.affects keys id o
    · exact ih _ _ hrest
    · have hnone : ∀ o ∈ rest, ¬ LedgerOp.affects keys id o :=
        fun o ho haff => hrest ⟨o, ho, haff⟩
      rw [lookup_runOps_of_not_affects keys id rest _ hnone,
        lookup_runOps_of_not_affects keys id rest _ hnone]
      obtain ⟨o, ho, haff⟩ := h
      rcases List.mem_cons.mp ho with e | hm
      · subst e
        cases o with
        | create id1 out =>
          obtain ⟨e1, hk⟩ := haff
          subst e1
          obtain ⟨index, hidx⟩ := Finmap.mem_iff.mp hk
          rw [lookup_applyOp_create keys m1 id1 out index hidx,
            lookup_applyOp_create keys m2 id1 out index hidx]
        | spend id1 =>
          have e1 : id1 = id := haff
          subst e1
          rw [lookup_applyOp_spend, lookup_applyOp_spend]
      · exact absurd haff (hnone o hm)

/-- Running the operations again with more keys, from the output set left by a first run
from the empty set, gives the output set of a single run with the larger key map from
the empty set. -/
theorem rescan_runOps_eq (k1 k2 : KeyMap) (ops : List LedgerOp)
    (hsub : ∀ a i, k1.lookup a = some i → k2.lookup a = some i) :
    runOps k2 (runOps k1 ∅ ops) ops = runOps k2 ∅ ops := by
  apply Finmap.ext_lookup
  intro id
  by_cases h : ∃ op ∈ ops, LedgerOp.affects k2 id op
  · exact lookup_runOps_indep k2 id ops _ _ h
  · have hnone : ∀ o ∈ ops, ¬ LedgerOp.affects k2 id o := fun o ho haff => h ⟨o, ho, haff⟩
    rw [lookup_runOps_of_not_affects k2 id ops _ hnone,
      lookup_runOps_of_not_affects k2 id ops _ hnone, Finmap.lookup_empty]
    cases h1 : (runOps k1 ∅ ops).lookup id with
    | none => rfl
    | some r =>
      rcases lookup_runOps_some k1 id r ops ∅ h1 with h2 | ⟨out, index, hm, hk, _⟩
      · rw [Finmap.lookup_empty] at h2; exact absurd h2 (by simp)
      · exact absurd ⟨rfl, Finmap.mem_of_lookup_eq_some (hsub _ _ hk)⟩
          (hnone (LedgerOp.create id out) hm)

/-- Replaying again with more keys, from the `largestIndexSeen` left by a first replay
from 0, gives the `largestIndexSeen` of a single replay with the larger key map
from 0. -/
theorem rescan_largest_eq (d : Deps) (H : List modules.ConsensusChange) (s1 s2 sf : seedScanner)
    (hsub : ∀ a i, s1.keys.lookup a = some i → sf.keys.lookup a = some i)
    (h1 : s1.largestIndexSeen = 0) (hf : sf.largestIndexSeen = 0)
    (hk : s2.keys = sf.keys) (hl : s2.largestIndexSeen = (replay d H s1).largestIndexSeen) :
    (replay d H s2).largestIndexSeen = (replay d H sf).largestIndexSeen := by
  unfold replay at *
  apply le_antisymm
  · rcases foldl_ProcessConsensusChange_largest_attained d H s2 with h | ⟨cc, hcc, a, ha, hka⟩
    · rw [h, hl]
      rcases foldl_ProcessConsensusChange_largest_attained d H s1 with h0 | ⟨cc, hcc, a, ha, hka⟩
      · rw [h0, h1]; exact Nat.zero_le _
      · exact (foldl_ProcessConsensusChange_largest_ge d H sf).2 cc hcc a _ ha (hsub _ _ hka)
    · rw [hk] at hka
      exact (foldl_ProcessConsensusChange_largest_ge d H sf).2 cc hcc a _ ha hka
  · rcases foldl_ProcessConsensusChange_largest_attained d H sf with h | ⟨cc, hcc, a, ha, hka⟩
    · rw [h, hf]; exact Nat.zero_le _
    · rw [← hk] at hka
      exact (foldl_ProcessConsensusChange_largest_ge d H s2).2 cc hcc a _ ha hka

/-- C18. Rescanning without resetting the state gives what a fresh scan gives. For every
history `H` and scanner `s` with an empty ledger and `largestIndexSeen = 0`: replay `H`,
generate `n` more keys (the entries of `s.keys` being kept by `generateKeys`) and replay
`H` again from the ledger and `largestIndexSeen` so reached; the resulting
`siacoinOutputs` and `largestIndexSeen` are those of a scanner holding the larger key map
that replays `H` once from the empty state. -/
theorem rescan_equals_fresh_scan (d : Deps) (H : List modules.ConsensusChange)
    (s : seedScanner) (n : Nat)
    (hempty : s.siacoinOutputs = ∅) (hzero : s.largestIndexSeen = 0)
    (hsub : ∀ a i, s.keys.lookup a = some i → (s.generateKeys d n).keys.lookup a = some i) :
    (replay d H ((replay d H s).generateKeys d n)).siacoinOutputs
        = (replay d H (freshScanner s.seed (s.generateKeys d n).keys)).siacoinOutputs
    ∧ (replay d H ((replay d H s).generateKeys d n)).largestIndexSeen
        = (replay d H (freshScanner s.seed (s.generateKeys d n).keys)).largestIndexSeen
    ∧ ((replay d H s).generateKeys d n).keys = (s.generateKeys d n).keys := by
  have hkeys : ((replay d H s).generateKeys d n).keys = (s.generateKeys d n).keys := by
    show insertKeys d _ 0 _ _ = insertKeys d _ 0 _ _
    rw [show (replay d H s).keys = s.keys from foldl_ProcessConsensusChange_keys d H s,
      show (replay d H s).seed = s.seed from foldl_ProcessConsensusChange_seed d H s]
  refine ⟨?_, ?_, hkeys⟩
  · unfold replay at hkeys ⊢
    rw [foldl_ProcessConsensusChange_outputs, foldl_ProcessConsensusChange_outputs, hkeys]
    show runOps _ (H.foldl (seedScanner.ProcessConsensusChange d) s).siacoinOutputs _ = _
    rw [foldl_ProcessConsensusChange_outputs, hempty]
    exact rescan_runOps_eq s.keys _ _ hsub
  · exact rescan_largest_eq d H s _ _ hsub hzero rfl hkeys rfl

/-- C18 with `demoDeps`: two keys, a replay of `demoEvent1` and `demoEvent2`, two more
keys and a second replay give the ledger of a fresh scan with the four keys. -/
theorem rescan_equals_fresh_scan_witness :
    (replay demoDeps [demoEvent1, demoEvent2]
        ((replay demoDeps [demoEvent1, demoEvent2]
          ((newSeedScanner 0).generateKeys demoDeps 2)).generateKeys demoDeps 2)).siacoinOutputs
      = (replay demoDeps [demoEvent1, demoEvent2]
          (freshScanner 0
            (((newSeedScanner 0).generateKeys demoDeps 2).generateKeys
              demoDeps 2).keys)).siacoinOutputs :=
  (rescan_equals_fresh_scan demoDeps [demoEvent1, demoEvent2]
    ((newSeedScanner 0).generateKeys demoDeps 2) 2 rfl rfl
    (fun a i h => by
      have hder : InjectiveDerivation demoDeps 0 (fun i => i) :=
        ⟨fun _ _ h => h, fun start n => by
          simp [demoDeps, List.map_map, Function.comp_def, List.range'_eq_map_range]⟩
      have h1 := generateKeys_dense demoDeps (fun i => i) (newSeedScanner 0) 2 hder
        (dense_empty _) (by decide)
      have h2 := generateKeys_dense demoDeps (fun i => i)
        ((newSeedScanner 0).generateKeys demoDeps 2) 2 hder h1.1 (by rw [h1.2]; decide)
      exact dense_lookup_mono _ _ _ h1.1 h2.1 (by rw [h2.2]; omega) a i h)).1

/-- Entries of the output set after a run from the empty set, for a run in which every
identifier is created at most once and spent only after its creation. -/
theorem lookup_runOps_fresh (keys : KeyMap) (ops : List LedgerOp)
    (hOnce : CreatedOnce ops) (hOrder : SpentAfterCreation ops)
    (id : types.SiacoinOutputID) (r : scannedSiacoinOutput) :
    (runOps keys ∅ ops).lookup id = some r ↔
      ∃ out index, LedgerOp.create id out ∈ ops ∧ keys.lookup out.UnlockHash = some index
        ∧ LedgerOp.spend id ∉ ops ∧ r = { id := id, value := out.Value, seedIndex := index } := by
  constructor
  · intro hr
    rcases lookup_runOps_some keys id r ops ∅ hr with h1 | ⟨out, index, hm, hk, hrec⟩
    · rw [Finmap.lookup_empty] at h1; exact absurd h1 (by simp)
    · refine ⟨out, index, hm, hk, ?_, hrec⟩
      intro hs
      obtain ⟨pre, post, hsplit⟩ := List.append_of_mem hs
      have hpw := hOrder
      rw [SpentAfterCreation, hsplit, List.pairwise_append, List.pairwise_cons] at hpw
      have hnone : (runOps keys ∅ ops).lookup id = none := by
        rw [hsplit]
        apply lookup_runOps_spend_then
        intro out1 hm1 _
        rcases hpw.2.1.1 _ hm1 with hcase | hcase
        · simp [LedgerOp.spent] at hcase
        · simp [LedgerOp.spent, LedgerOp.created] at hcase
      rw [hnone] at hr
      exact absurd hr (by simp)
  · rintro ⟨out, index, hm, hk, hns, hrec⟩
    obtain ⟨pre, post, hsplit⟩ := List.append_of_mem hm
    have hnd := hOnce
    rw [CreatedOnce, hsplit, List.filterMap_append, List.filterMap_cons] at hnd
    simp only [LedgerOp.created] at hnd
    have hidpost : id ∉ post.filterMap LedgerOp.created :=
      (List.nodup_cons.mp (List.nodup_append.mp hnd).2.1).1
    rw [hrec, hsplit]
    apply lookup_runOps_create_then keys id out index pre post ∅ hk
    intro op hop haff
    cases op with
    | create id1 out1 =>
      apply hidpost
      exact List.mem_filterMap.mpr ⟨_, hop, by simp only [LedgerOp.created, haff.1]⟩
    | spend id1 =>
      apply hns
      rw [hsplit]
      have e : id1 = id := haff
      exact List.mem_append_right _ (List.mem_cons_of_mem _ (e ▸ hop))

/-- The address of an output created by an event occurs in the event. -/
theorem occursIn_of_createdIn (d : Deps) (cc : modules.ConsensusChange)
    (id : types.SiacoinOutputID) (out : types.SiacoinOutput) (h : CreatedIn d cc id out) :
    OccursIn d cc out.UnlockHash := by
  obtain ⟨block, hb, hcase⟩ := h
  refine Or.inr (Or.inr ⟨block, hb, ?_⟩)
  rcases hcase with ⟨i, hi, _⟩ | ⟨txn, ht, i, hi, _⟩
  · exact Or.inl ⟨out, List.getElem?_mem hi, rfl⟩
  · exact Or.inr ⟨txn, ht, Or.inr (Or.inl ⟨out, List.getElem?_mem hi, rfl⟩)⟩

theorem occursIn_of_mem_historyOps (d : Deps) (H : List modules.ConsensusChange)
    (id : types.SiacoinOutputID) (out : types.SiacoinOutput)
    (h : LedgerOp.create id out ∈ historyOps d H) :
    ∃ cc ∈ H, OccursIn d cc out.UnlockHash := by
  obtain ⟨ops, hops, hm⟩ := List.mem_flatten.mp h
  obtain ⟨cc, hcc, rfl⟩ := List.mem_map.mp hops
  exact ⟨cc, hcc, occursIn_of_createdIn d cc id out ((mem_eventOps_create d cc id out).mp hm)⟩

/-- In the scenario, a run from the empty set with dense keys covering index 900000
leaves the scenario's ledger. -/
theorem scenario_ledger (d : Deps) (addr : Nat → types.UnlockHash)
    (H : List modules.ConsensusChange) (id0 id3 id9 : types.SiacoinOutputID)
    (out0 out3 out9 : types.SiacoinOutput)
    (hsc : Scenario d addr H id0 id3 id9 out0 out3 out9)
    (hinj : Function.Injective addr) (keys : KeyMap) (hd : Dense addr keys)
    (hlo : 900000 < keys.keys.card) (hhi : keys.keys.card ≤ 3000000) :
    ScenarioLedger (runOps keys ∅ (historyOps d H)) id0 id9 out0 out9 := by
  intro id r
  rw [lookup_runOps_fresh keys _ hsc.createdOnce hsc.spentAfter]
  constructor
  · rintro ⟨out, index, hm, hk, hns, hrec⟩
    obtain ⟨hlt, he⟩ := (hd _ _).mp hk
    rcases hsc.onlyThese id out hm index (by omega) he.symm with ⟨e1, e2⟩ | ⟨e1, e2⟩ | ⟨e1, e2⟩
    · subst e1 e2
      have : index = 0 := hinj (he.trans hsc.addr0)
      subst this
      exact Or.inl ⟨rfl, hrec⟩
    · subst e1
      exact absurd hsc.spend3 hns
    · subst e1 e2
      have : index = 900000 := hinj (he.trans hsc.addr9)
      subst this
      exact Or.inr ⟨rfl, hrec⟩
  · rintro (⟨e, hrec⟩ | ⟨e, hrec⟩)
    · subst e
      exact ⟨out0, 0, hsc.pay0, (hd _ _).mpr ⟨by omega, hsc.addr0.symm⟩, hsc.unspent0, hrec⟩
    · subst e
      exact ⟨out9, 900000, hsc.pay9, (hd _ _).mpr ⟨by omega, hsc.addr9.symm⟩, hsc.unspent9,
        hrec⟩

/-- In the scenario, a replay with dense keys covering index 900000, from a
`largestIndexSeen` of 0 or 900000, ends with `largestIndexSeen = 900000`. -/
theorem scenario_largest (d : Deps) (addr : Nat → types.UnlockHash)
    (H : List modules.ConsensusChange) (id0 id3 id9 : types.SiacoinOutputID)
    (out0 out3 out9 : types.SiacoinOutput)
    (hsc : Scenario d addr H id0 id3 id9 out0 out3 out9)
    (s : seedScanner) (hd : Dense addr s.keys)
    (hlo : 900000 < s.keys.keys.card) (hhi : s.keys.keys.card ≤ 3000000)
    (hstart : s.largestIndexSeen = 0 ∨ s.largestIndexSeen = 900000) :
    (replay d H s).largestIndexSeen = 900000 := by
  unfold replay
  obtain ⟨cc9, hcc9, hocc9⟩ := occursIn_of_mem_historyOps d H id9 out9 hsc.pay9
  have hge : 900000 ≤ (H.foldl (seedScanner.ProcessConsensusChange d) s).largestIndexSeen :=
    (foldl_ProcessConsensusChange_largest_ge d H s).2 cc9 hcc9 _ 900000 hocc9
      ((hd _ _).mpr ⟨hlo, hsc.addr9.symm⟩)
  rcases foldl_ProcessConsensusChange_largest_attained d H s with h | ⟨cc, hcc, a, ha, hk⟩
  · rw [h] at hge ⊢
    rcases hstart with h0 | h9
    · omega
    · exact h9
  · obtain ⟨hlt, he⟩ := (hd _ _).mp hk
    rcases hsc.noOther cc hcc a ha _ (by omega) he with h0 | h3 | h9
    · omega
    · omega
    · exact h9

/-- C11. End-to-end scenario with the shipped constants, an injective derivation and a
consensus set whose history pays the addresses of the indices 0, 3 and 900000 and later
spends the output of index 3, touching no other seed address. After the first replay the
ledger holds exactly the outputs of the indices 0 and 900000 with their values,
`largestIndexSeen = 900000` and there are 1000000 keys; `scan` then generates 2000000 more
keys, replays a second time and returns `nil` with 3000000 keys, the same ledger and
`largestIndexSeen = 900000`. -/
theorem end_to_end_scenario (d : Deps) (cs : ConsensusSet) (seed : modules.Seed)
    (addr : Nat → types.UnlockHash) (H : List modules.ConsensusChange)
    (id0 id3 id9 : types.SiacoinOutputID) (out0 out3 out9 : types.SiacoinOutput)
    (hder : InjectiveDerivation d seed addr)
    (hcs0 : cs 0 = { events := H, err := none })
    (hcs1 : cs 1 = { events := H, err := none })
    (hsc : Scenario d addr H id0 id3 id9 out0 out3 out9) :
    ScenarioLedger (replayed d cs (scanInit numInitialKeys (newSeedScanner seed))).siacoinOutputs
        id0 id9 out0 out9
    ∧ (replayed d cs (scanInit numInitialKeys (newSeedScanner seed))).largestIndexSeen = 900000
    ∧ (replayed d cs (scanInit numInitialKeys (newSeedScanner seed))).keys.keys.card = 1000000
    ∧ ∃ cf, (∀ fuel, 2 ≤ fuel →
              seedScanner.scan d cs fuel (newSeedScanner seed) = some (cf, none))
        ∧ cf.trace = [Call.generateKeys 1000000, Call.ConsensusSetSubscribe,
                      Call.generateKeys 2000000, Call.ConsensusSetSubscribe,
                      Call.Unsubscribe]
        ∧ cf.s.keys.keys.card = 3000000
        ∧ ScenarioLedger cf.s.siacoinOutputs id0 id9 out0 out9
        ∧ cf.s.largestIndexSeen = 900000 := by
  -- the first pass
  have hg1 := generateKeys_dense d addr (newSeedScanner seed) 1000000 hder (dense_empty addr)
    (by show 0 + 1000000 ≤ 2 ^ 64; norm_num)
  have hcard0 : (newSeedScanner seed).keys.keys.card = 0 := rfl
  rw [hcard0, Nat.zero_add] at hg1
  have hs1 : replayed d cs (scanInit numInitialKeys (newSeedScanner seed))
      = replay d H ((newSeedScanner seed).generateKeys d 1000000) := by
    show (cs 0).events.foldl _ _ = _
    rw [hcs0]
    rfl
  have hk1 : (replay d H ((newSeedScanner seed).generateKeys d 1000000)).keys
      = ((newSeedScanner seed).generateKeys d 1000000).keys :=
    foldl_ProcessConsensusChange_keys d H _
  have hseed1 : (replay d H ((newSeedScanner seed).generateKeys d 1000000)).seed = seed :=
    foldl_ProcessConsensusChange_seed d H _
  have hout1 : (replay d H ((newSeedScanner seed).generateKeys d 1000000)).siacoinOutputs
      = runOps ((newSeedScanner seed).generateKeys d 1000000).keys ∅ (historyOps d H) :=
    foldl_ProcessConsensusChange_outputs d H _
  have hled1 : ScenarioLedger
      (replay d H ((newSeedScanner seed).generateKeys d 1000000)).siacoinOutputs
      id0 id9 out0 out9 := by
    rw [hout1]
    exact scenario_ledger d addr H id0 id3 id9 out0 out3 out9 hsc hder.1 _ hg1.1
      (by rw [hg1.2]; norm_num) (by rw [hg1.2]; norm_num)
  have hlar1 : (replay d H ((newSeedScanner seed).generateKeys d 1000000)).largestIndexSeen
      = 900000 :=
    scenario_largest d addr H id0 id3 id9 out0 out3 out9 hsc _ hg1.1
      (by rw [hg1.2]; norm_num) (by rw [hg1.2]; norm_num) (Or.inl rfl)
  have hcard1 : (replay d H ((newSeedScanner seed).generateKeys d 1000000)).keys.keys.card
      = 1000000 := by rw [hk1, hg1.2]
  refine ⟨hs1 ▸ hled1, hs1 ▸ hlar1, hs1 ▸ hcard1, ?_⟩
  -- the first pass loops
  have hstep0 : scanStep d cs maxScanKeys (scanInit numInitialKeys (newSeedScanner seed))
      = Step.again { s := replay d H ((newSeedScanner seed).generateKeys d 1000000),
                     numKeys := 2000000, subscribes := 1,
                     trace := [Call.generateKeys 1000000, Call.ConsensusSetSubscribe] } := by
    have h := scanStep_of_no_gap d cs maxScanKeys
      (scanInit numInitialKeys (newSeedScanner seed))
      (by show 0 < maxScanKeys; decide) (by show (cs 0).err = none; rw [hcs0])
      (by rw [hs1]; unfold GapRule; rw [hlar1, hcard1]; norm_num)
    rw [h, hs1, hcard1]
    have hn : nextNumKeys maxScanKeys numInitialKeys 1000000 = 2000000 := by decide
    show Step.again { s := _, numKeys := nextNumKeys maxScanKeys numInitialKeys 1000000,
                      subscribes := 1, trace := _ } = _
    rw [hn]
    rfl
  -- the second pass
  have hg2 := generateKeys_dense d addr
    (replay d H ((newSeedScanner seed).generateKeys d 1000000)) 2000000
    (by rw [hseed1]; exact hder) (by rw [hk1]; exact hg1.1) (by rw [hcard1]; norm_num)
  rw [hcard1] at hg2
  have hs2 : replayed d cs
      { s := replay d H ((newSeedScanner seed).generateKeys d 1000000),
        numKeys := 2000000, subscribes := 1,
        trace := [Call.generateKeys 1000000, Call.ConsensusSetSubscribe] }
      = replay d H ((replay d H ((newSeedScanner seed).generateKeys d 1000000)).generateKeys
          d 2000000) := by
    show (cs 1).events.foldl _ _ = _
    rw [hcs1]
    rfl
  have hk2 : (replay d H ((replay d H ((newSeedScanner seed).generateKeys d 1000000)).generateKeys
      d 2000000)).keys
      = ((replay d H ((newSeedScanner seed).generateKeys d 1000000)).generateKeys
          d 2000000).keys :=
    foldl_ProcessConsensusChange_keys d H _
  have hcard2 : (replay d H ((replay d H
      ((newSeedScanner seed).generateKeys d 1000000)).generateKeys d 2000000)).keys.keys.card
      = 3000000 := by rw [hk2, hg2.2]
  have hled2 : ScenarioLedger (replay d H ((replay d H
      ((newSeedScanner seed).generateKeys d 1000000)).generateKeys d 2000000)).siacoinOutputs
      id0 id9 out0 out9 := by
    have e : (replay d H ((replay d H
        ((newSeedScanner seed).generateKeys d 1000000)).generateKeys d 2000000)).siacoinOutputs
        = runOps ((replay d H ((newSeedScanner seed).generateKeys d 1000000)).generateKeys
            d 2000000).keys
            (replay d H ((newSeedScanner seed).generateKeys d 1000000)).siacoinOutputs
            (historyOps d H) :=
      foldl_ProcessConsensusChange_outputs d H _
    rw [e, hout1, rescan_runOps_eq _ _ _ (fun a i h =>
      dense_lookup_mono addr _ _ hg1.1 hg2.1 (by rw [hg1.2, hg2.2]; norm_num) a i h)]
    exact scenario_ledger d addr H id0 id3 id9 out0 out3 out9 hsc hder.1 _ hg2.1
      (by rw [hg2.2]; norm_num) (by rw [hg2.2])
  have hlar2 : (replay d H ((replay d H
      ((newSeedScanner seed).generateKeys d 1000000)).generateKeys d 2000000)).largestIndexSeen
      = 900000 :=
    scenario_largest d addr H id0 id3 id9 out0 out3 out9 hsc _ hg2.1
      (by rw [hg2.2]; norm_num) (by rw [hg2.2]) (Or.inr hlar1)
  have hstep1 := scanStep_of_gap d cs maxScanKeys
      { s := replay d H ((newSeedScanner seed).generateKeys d 1000000),
        numKeys := 2000000, subscribes := 1,
        trace := [Call.generateKeys 1000000, Call.ConsensusSetSubscribe] }
      (by show (replay d H _).keys.keys.card < maxScanKeys; rw [hcard1]; decide)
      (by show (cs 1).err = none; rw [hcs1])
      (by rw [hs2, hlar2, hcard2]; norm_num)
  rw [hs2] at hstep1
  refine ⟨{ s := replay d H ((replay d H
              ((newSeedScanner seed).generateKeys d 1000000)).generateKeys d 2000000),
            numKeys := 2000000, subscribes := 2,
            trace := [Call.generateKeys 1000000, Call.ConsensusSetSubscribe,
                      Call.generateKeys 2000000, Call.ConsensusSetSubscribe,
                      Call.Unsubscribe] }, ?_, rfl, hcard2, hled2, hlar2⟩
  intro fuel hfuel
  exact (scanLoop_eq_some_iff d cs maxScanKeys fuel _ _ _).mpr
    ⟨1, by omega, _, (loopHead_succ d cs maxScanKeys 0 _ _).mpr ⟨_, rfl, hstep0⟩, hstep1⟩

/-- C11 on `demoFeedHistory` with `demoDeps`: `scan` returns `nil` after two replays with
3000000 keys and `largestIndexSeen = 900000`. -/
theorem end_to_end_scenario_witness :
    ∃ cf, (∀ fuel, 2 ≤ fuel →
              seedScanner.scan demoDeps demoFeedHistory fuel (newSeedScanner 0) = some (cf, none))
        ∧ cf.trace = [Call.generateKeys 1000000, Call.ConsensusSetSubscribe,
                      Call.generateKeys 2000000, Call.ConsensusSetSubscribe,
                      Call.Unsubscribe]
        ∧ cf.s.keys.keys.card = 3000000
        ∧ ScenarioLedger cf.s.siacoinOutputs 201 205 { Value := 5, UnlockHash := 0 }
            { Value := 7, UnlockHash := 900000 }
        ∧ cf.s.largestIndexSeen = 900000 :=
  have hder : InjectiveDerivation demoDeps 0 (fun i => i) :=
    ⟨fun _ _ h => h, fun start n => by
      simp [demoDeps, List.map_map, Function.comp_def, List.range'_eq_map_range]⟩
  have hsc : Scenario demoDeps (fun i => i) demoHistory 201 203 205
      { Value := 5, UnlockHash := 0 } { Value := 6, UnlockHash := 3 }
      { Value := 7, UnlockHash := 900000 } :=
    { createdOnce := by decide
      spentAfter := by decide
      pay0 := by decide
      addr0 := rfl
      pay3 := by decide
      addr3 := rfl
      pay9 := by decide
      addr9 := rfl
      spend3 := by decide
      unspent0 := by decide
      unspent9 := by decide
      onlyThese := by
        intro id out hm i hi he
        have hops : historyOps demoDeps demoHistory
            = [LedgerOp.create 200 { Value := 50, UnlockHash := 5000002 },
               LedgerOp.create 201 { Value := 5, UnlockHash := 0 },
               LedgerOp.create 203 { Value := 6, UnlockHash := 3 },
               LedgerOp.create 205 { Value := 7, UnlockHash := 900000 },
               LedgerOp.spend 801,
               LedgerOp.create 220 { Value := 50, UnlockHash := 5000002 },
               LedgerOp.create 221 { Value := 6, UnlockHash := 5000001 },
               LedgerOp.spend 203] := by decide
        rw [hops] at hm
        simp only [List.mem_cons, LedgerOp.create.injEq, List.mem_singleton, List.not_mem_nil,
          or_false, false_or, reduceCtorEq] at hm
        rcases hm with ⟨h1, h2⟩ | ⟨h1, h2⟩ | ⟨h1, h2⟩ | ⟨h1, h2⟩ | ⟨h1, h2⟩ | ⟨h1, h2⟩
        · subst h2
          have he1 : (5000002 : Nat) = i := he
          omega
        · exact Or.inl ⟨h1, h2⟩
        · exact Or.inr (Or.inl ⟨h1, h2⟩)
        · exact Or.inr (Or.inr ⟨h1, h2⟩)
        · subst h2
          have he1 : (5000002 : Nat) = i := he
          omega
        · subst h2
          have he1 : (5000001 : Nat) = i := he
          omega
      noOther := by
        intro cc hcc a ha i hi he
        subst he
        simp only [demoHistory, List.mem_cons, List.mem_singleton, List.not_mem_nil,
          or_false] at hcc
        rcases hcc with rfl | rfl
        · simp [OccursIn, demoBlockFund, demoTxnFund, demoDeps, demoConditions] at ha
          rcases ha with rfl | rfl | rfl | rfl | rfl <;>
            first | exact absurd hi (by decide) | decide
        · simp [OccursIn, demoBlockDrain, demoTxnDrain, demoDeps, demoConditions] at ha
          rcases ha with rfl | rfl | rfl <;>
            first | exact absurd hi (by decide) | decide }
  (end_to_end_scenario demoDeps demoFeedHistory 0 (fun i => i) demoHistory 201 203 205
    { Value := 5, UnlockHash := 0 } { Value := 6, UnlockHash := 3 }
    { Value := 7, UnlockHash := 900000 } hder rfl rfl hsc).2.2.2

theorem loopHead_or_done (d : Deps) (cs : ConsensusSet) (C : Nat) (c0 : ScanState) (k : Nat) :
    (∃ c, loopHead d cs C k c0 = some c)
      ∨ ∃ j, j < k ∧ ∃ c cf err, loopHead d cs C j c0 = some c
          ∧ scanStep d cs C c = Step.done cf err := by
  induction k with
  | zero => exact Or.inl ⟨c0, rfl⟩
  | succ k ih =>
    rcases ih with ⟨c, hc⟩ | ⟨j, hj, c, cf, err, hc, hd⟩
    · cases hs : scanStep d cs C c with
      | again c1 => exact Or.inl ⟨c1, (loopHead_succ d cs C k c0 c1).mpr ⟨c, hc, hs⟩⟩
      | done cf err => exact Or.inr ⟨k, by omega, c, cf, err, hc, hs⟩
    · exact Or.inr ⟨j, by omega, c, cf, err, hc, hd⟩

theorem loopHead_trace_count (d : Deps) (cs : ConsensusSet) (C : Nat) (c0 : ScanState)
    (h0 : c0.trace.count Call.ConsensusSetSubscribe = c0.subscribes) (k : Nat) :
    ∀ ck, loopHead d cs C k c0 = some ck →
      ck.trace.count Call.ConsensusSetSubscribe = ck.subscribes := by
  induction k with
  | zero => intro ck h; injection h with h; rw [← h]; exact h0
  | succ k ih =>
    intro ck h
    obtain ⟨c1, h1, hs⟩ := (loopHead_succ d cs C k c0 ck).mp h
    obtain ⟨_, _, _, he⟩ := scanStep_again d cs C c1 ck hs
    rw [he]
    simp [List.count_append, ih c1 h1]

theorem scanStep_done_counts (d : Deps) (cs : ConsensusSet) (C : Nat) (c cf : ScanState)
    (err : Option Error) (h : scanStep d cs C c = Step.done cf err)
    (hc : c.trace.count Call.ConsensusSetSubscribe = c.subscribes) :
    cf.trace.count Call.ConsensusSetSubscribe = cf.subscribes
      ∧ cf.subscribes ≤ c.subscribes + 1
      ∧ (¬ c.s.keys.keys.card < C → cf.subscribes = c.subscribes) := by
  rcases scanStep_done d cs C c cf err h with ⟨hge, _, hcf⟩ | ⟨hlt, e, _, _, hcf⟩
      | ⟨hlt, _, _, _, hcf⟩
  · rw [hcf]
    exact ⟨by simp [List.count_append, hc], by simp, fun _ => rfl⟩
  · rw [hcf]
    exact ⟨by simp [List.count_append, hc], by simp, fun h => absurd hlt h⟩
  · rw [hcf]
    exact ⟨by simp [List.count_append, hc], by simp, fun h => absurd hlt h⟩

/-- With a fresh scanner and an injective derivation, `scan` with constants `B0 ≤ C`
returns within `K + 1` passes, after at most `K` replays, as soon as
`C ≤ (2 ^ K - 1) * B0`. -/
theorem scanWith_terminates (d : Deps) (cs : ConsensusSet) (seed : modules.Seed)
    (addr : Nat → types.UnlockHash) (hder : InjectiveDerivation d seed addr)
    (B0 C K : Nat) (hB0 : B0 ≤ C) (hC : C < 2 ^ 63) (hK : C ≤ (2 ^ K - 1) * B0) :
    ∃ cf err, (∀ fuel, K + 1 ≤ fuel →
          scanWith d cs B0 C fuel (newSeedScanner seed) = some (cf, err))
      ∧ cf.subscribes ≤ K
      ∧ cf.trace.count Call.ConsensusSetSubscribe = cf.subscribes := by
  have hcount0 : (scanInit B0 (newSeedScanner seed)).trace.count Call.ConsensusSetSubscribe
      = (scanInit B0 (newSeedScanner seed)).subscribes := rfl
  have hfin : ∃ j, j ≤ K ∧ ∃ c cf err,
      loopHead d cs C j (scanInit B0 (newSeedScanner seed)) = some c
        ∧ scanStep d cs C c = Step.done cf err ∧ (j = K → ¬ c.s.keys.keys.card < C) := by
    rcases loopHead_or_done d cs C (scanInit B0 (newSeedScanner seed)) K with
      ⟨c, hc⟩ | ⟨j, hj, c, cf, err, hc, hd⟩
    · have hinv := loopHead_headInv d cs addr seed B0 C hder hB0 hC K c hc
      have hcard : c.s.keys.keys.card = C := by
        rw [hinv.2.2.1]
        omega
      have hnlt : ¬ c.s.keys.keys.card < C := by omega
      refine ⟨K, le_refl _, c, { c with trace := c.trace ++ [Call.Unsubscribe] },
        some Error.errMaxKeys, hc, ?_, fun _ => hnlt⟩
      unfold scanStep
      rw [if_neg hnlt]
    · exact ⟨j, by omega, c, cf, err, hc, hd, fun e => by omega⟩
  obtain ⟨j, hj, c, cf, err, hc, hd, hlast⟩ := hfin
  have hsub : c.subscribes = j := by
    rw [loopHead_subscribes d cs C _ j c hc]
    simp [scanInit]
  have hcnt := scanStep_done_counts d cs C c cf err hd
    (loopHead_trace_count d cs C _ hcount0 j c hc)
  refine ⟨cf, err, ?_, ?_, hcnt.1⟩
  · intro fuel hfuel
    exact (scanLoop_eq_some_iff d cs C fuel _ _ _).mpr ⟨j, by omega, c, hc, hd⟩
  · rcases Nat.lt_or_ge j K with hlt | hge
    · have := hcnt.2.1
      omega
    · have e : j = K := by omega
      have := hcnt.2.2 (hlast e)
      omega

/-- C16. Bounded rescans, for a fresh scanner and an injective derivation. With the
shipped constants `scan` returns within 8 passes of its loop, after at most 7 replays
(subscribe calls), whatever the consensus set delivers. In general, with
`0 < numInitialKeys ≤ maxScanKeys`, every pass that runs strictly increases `len(s.keys)`,
and `scan` returns after at most `K` replays for every `K` with
`maxScanKeys ≤ (2 ^ K - 1) * numInitialKeys`; for the shipped constants the least such
`K` is 7. -/
theorem bounded_rescans (d : Deps) (cs : ConsensusSet) (seed : modules.Seed)
    (addr : Nat → types.UnlockHash) (hder : InjectiveDerivation d seed addr) :
    (∃ cf err, (∀ fuel, 8 ≤ fuel →
          seedScanner.scan d cs fuel (newSeedScanner seed) = some (cf, err))
      ∧ cf.subscribes ≤ 7
      ∧ cf.trace.count Call.ConsensusSetSubscribe = cf.subscribes)
    ∧ (∀ B0 C K, B0 ≤ C → C < 2 ^ 63 → C ≤ (2 ^ K - 1) * B0 →
        ∃ cf err, (∀ fuel, K + 1 ≤ fuel →
              scanWith d cs B0 C fuel (newSeedScanner seed) = some (cf, err))
          ∧ cf.subscribes ≤ K
          ∧ cf.trace.count Call.ConsensusSetSubscribe = cf.subscribes)
    ∧ (∀ B0 C k c, 0 < B0 → B0 ≤ C → C < 2 ^ 63 →
        loopHead d cs C k (scanInit B0 (newSeedScanner seed)) = some c →
        c.s.keys.keys.card < C →
        c.s.keys.keys.card < (replayed d cs c).keys.keys.card)
    ∧ (maxScanKeys ≤ (2 ^ 7 - 1) * numInitialKeys
        ∧ ∀ K, K < 7 → (2 ^ K - 1) * numInitialKeys < maxScanKeys) := by
  refine ⟨?_, ?_, ?_, ?_⟩
  · exact scanWith_terminates d cs seed addr hder numInitialKeys maxScanKeys 7 (by decide)
      (by decide) (by decide)
  · intro B0 C K hB0 hC hK
    exact scanWith_terminates d cs seed addr hder B0 C K hB0 hC hK
  · intro B0 C k c hpos hB0 hC hc hlt
    have hinv := loopHead_headInv d cs addr seed B0 C hder hB0 hC k c hc
    obtain ⟨_, _, _, hcard1⟩ := headInv_replayed d cs addr seed B0 C k c hder hC hinv
    have hnum := hinv.2.2.2
    have hle := (two_pow_mul_facts k B0).1
    rw [hcard1]
    omega
  · decide

/-- C16 on `demoFeedBusy` with `demoDeps`: `scan` with the shipped constants returns
after at most 7 replays. -/
theorem bounded_rescans_witness :
    ∃ cf err, (∀ fuel, 8 ≤ fuel →
          seedScanner.scan demoDeps demoFeedBusy fuel (newSeedScanner 0) = some (cf, err))
      ∧ cf.subscribes ≤ 7
      ∧ cf.trace.count Call.ConsensusSetSubscribe = cf.subscribes :=
  have hder : InjectiveDerivation demoDeps 0 (fun i => i) :=
    ⟨fun _ _ h => h, fun start n => by
      simp [demoDeps, List.map_map, Function.comp_def, List.range'_eq_map_range]⟩
  (bounded_rescans demoDeps demoFeedBusy 0 (fun i => i) hder).1

end wallet

/-! ## The erasure coder -/

namespace renter

theorem notSorted_of_pairwise (needed : List Nat) (h : needed.Pairwise (· < ·)) :
    notSorted needed = false := by
  induction needed with
  | nil => rfl
  | cons a rest ih =>
    cases rest with
    | nil => rfl
    | cons b rest2 =>
      have hab : a < b := (List.pairwise_cons.mp h).1 b (List.mem_cons_self _ _)
      have hrest := ih (List.pairwise_cons.mp h).2
      simp only [notSorted, hrest, Bool.or_false, decide_eq_false_iff_not]
      omega

/-- The unneeded pieces computed by the loop of `Encode` from a strictly increasing
`needed` are the indices of the range that are not in `needed`. -/
theorem mem_unneededFrom (k : Nat) :
    ∀ (i : Nat) (needed : List Nat), needed.Pairwise (· < ·) → (∀ n ∈ needed, i ≤ n) →
      ∀ u, u ∈ unneededFrom i k needed ↔ i ≤ u ∧ u < i + k ∧ u ∉ needed := by
  induction k with
  | zero =>
    intro i needed _ _ u
    simp only [unneededFrom, List.not_mem_nil, false_iff]
    omega
  | succ k ih =>
    intro i needed hs hlo u
    cases needed with
    | nil =>
      simp only [unneededFrom, List.mem_cons, List.not_mem_nil, not_false_eq_true, and_true]
      rw [ih (i + 1) [] List.Pairwise.nil (fun n hn => absurd hn (List.not_mem_nil _)) u]
      simp only [List.not_mem_nil, not_false_eq_true, and_true]
      omega
    | cons n rest =>
      have hrest := (List.pairwise_cons.mp hs).2
      have hgt : ∀ m ∈ rest, n < m := (List.pairwise_cons.mp hs).1
      simp only [unneededFrom]
      by_cases e : n = i
      · subst e
        rw [if_pos rfl, ih (n + 1) rest hrest (fun m hm => hgt m hm) u]
        simp only [List.mem_cons, not_or]
        constructor
        · rintro ⟨h1, h2, h3⟩
          exact ⟨by omega, by omega, by omega, h3⟩
        · rintro ⟨h1, h2, h3, h4⟩
          exact ⟨by omega, by omega, h4⟩
      · have hni : i < n := by
          have := hlo n (List.mem_cons_self _ _)
          omega
        rw [if_neg e]
        simp only [List.mem_cons]
        rw [ih (i + 1) (n :: rest) hs (fun m hm => by
          rcases List.mem_cons.mp hm with h | h
          · omega
          · have := hgt m h
            omega) u]
        simp only [List.mem_cons, not_or]
        constructor
        · rintro (h | ⟨h1, h2, h3, h4⟩)
          · subst h
            refine ⟨le_refl _, by omega, by omega, ?_⟩
            intro hm
            have := hgt u hm
            omega
          · exact ⟨by omega, by omega, h3, h4⟩
        · rintro ⟨h1, h2, h3, h4⟩
          by_cases hu : u = i
          · exact Or.inl hu
          · exact Or.inr ⟨by omega, by omega, h3, h4⟩

/-- A successful run of the loop that drops the unneeded pieces: every index was in
range, the length is kept, the pieces of the list are nil and the others are kept. -/
theorem dropPieces_eq_ok (us : List Nat) :
    ∀ (pieces r : List Piece), dropPieces pieces us = Result.ok r →
      (∀ u ∈ us, u < pieces.length) ∧ r.length = pieces.length
        ∧ ∀ i, i < pieces.length →
            (i ∈ us → r[i]? = some none) ∧ (i ∉ us → r[i]? = pieces[i]?) := by
  induction us with
  | nil =>
    intro pieces r h
    simp only [dropPieces, Result.ok.injEq] at h
    subst h
    exact ⟨fun u hu => absurd hu (List.not_mem_nil _), rfl,
      fun i _ => ⟨fun hi => absurd hi (List.not_mem_nil _), fun _ => rfl⟩⟩
  | cons u rest ih =>
    intro pieces r h
    simp only [dropPieces] at h
    split at h
    · next hlt =>
      obtain ⟨h1, h2, h3⟩ := ih _ r h
      rw [List.length_set] at h1 h2 h3
      refine ⟨?_, h2, ?_⟩
      · intro v hv
        rcases List.mem_cons.mp hv with e | hm
        · rw [e]; exact hlt
        · exact h1 v hm
      · intro i hi
        constructor
        · intro hmem
          by_cases hir : i ∈ rest
          · exact (h3 i hi).1 hir
          · have e : i = u := by
              rcases List.mem_cons.mp hmem with e | hm
              · exact e
              · exact absurd hm hir
            rw [(h3 i hi).2 hir, e, List.getElem?_set_self hlt]
        · intro hnot
          simp only [List.mem_cons, not_or] at hnot
          rw [(h3 i hi).2 hnot.2, List.getElem?_set_ne (fun e => hnot.1 e.symm)]
    · exact absurd h (by simp)

theorem dropPieces_of_lt (us : List Nat) :
    ∀ pieces : List Piece, (∀ u ∈ us, u < pieces.length) →
      ∃ r, dropPieces pieces us = Result.ok r := by
  induction us with
  | nil => intro pieces _; exact ⟨pieces, rfl⟩
  | cons u rest ih =>
    intro pieces h
    have hlt := h u (List.mem_cons_self _ _)
    simp only [dropPieces, if_pos hlt]
    apply ih
    intro v hv
    rw [List.length_set]
    exact h v (List.mem_cons_of_mem _ hv)

/-- What `Encode` returns when it succeeds on a strictly increasing `needed`: the pieces
of the library's split and encode, with the pieces outside `needed` set to nil. -/
theorem encode_eq_ok (DEBUG : Bool) (rs : rsCode) (data : List Nat) (needed : List Nat)
    (pieces : List Piece) (hsorted : needed.Pairwise (· < ·))
    (hok : rs.Encode DEBUG data needed = Result.ok pieces) :
    ∃ shards coded, rs.enc.Split data = Except.ok shards
      ∧ rs.enc.Encode shards = Except.ok coded
      ∧ dropPieces coded (unneededFrom 0 rs.NumPieces.toNat needed) = Result.ok pieces := by
  unfold rsCode.Encode at hok
  rw [notSorted_of_pairwise needed hsorted, Bool.and_false] at hok
  simp only [Bool.false_eq_true, if_false] at hok
  cases hsplit : rs.enc.Split data with
  | error e => rw [hsplit] at hok; exact absurd hok (by simp)
  | ok shards =>
    rw [hsplit] at hok
    simp only at hok
    cases henc : rs.enc.Encode shards with
    | error e => rw [henc] at hok; exact absurd hok (by simp)
    | ok coded =>
      rw [henc] at hok
      exact ⟨shards, coded, rfl, henc, hok⟩

theorem encode_of_split (DEBUG : Bool) (rs : rsCode) (data : List Nat) (needed : List Nat)
    (shards coded : List Piece) (hsorted : needed.Pairwise (· < ·))
    (hsplit : rs.enc.Split data = Except.ok shards)
    (henc : rs.enc.Encode shards = Except.ok coded) :
    rs.Encode DEBUG data needed
      = dropPieces coded (unneededFrom 0 rs.NumPieces.toNat needed) := by
  unfold rsCode.Encode
  rw [notSorted_of_pairwise needed hsorted, Bool.and_false]
  simp only [Bool.false_eq_true, if_false, hsplit, henc]

/-- C20. `Encode` keeps exactly the needed pieces. For a strictly increasing `needed`
(in particular one below `NumPieces()`) and a coder whose library split and encode give
`NumPieces()` pieces, whenever `Encode(data, needed)` succeeds its result has `NumPieces()` entries, entry `i`
is the `i`-th piece of the split and encode when `i` is in `needed` and is nil otherwise;
an empty `needed` gives only nil pieces and the list of all indices drops nothing. -/
theorem encode_keeps_needed (DEBUG : Bool) (rs : rsCode) (data : List Nat) (needed : List Nat)
    (pieces : List Piece)
    (hsorted : needed.Pairwise (· < ·))
    (hlib : ∀ shards coded, rs.enc.Split data = Except.ok shards →
      rs.enc.Encode shards = Except.ok coded → (coded.length : Int) = rs.NumPieces)
    (hok : rs.Encode DEBUG data needed = Result.ok pieces) :
    ∃ shards coded, rs.enc.Split data = Except.ok shards
      ∧ rs.enc.Encode shards = Except.ok coded
      ∧ (pieces.length : Int) = rs.NumPieces
      ∧ (∀ i : Nat, (i : Int) < rs.NumPieces →
          (i ∈ needed → pieces[i]? = coded[i]?) ∧ (i ∉ needed → pieces[i]? = some none))
      ∧ (needed = [] → ∀ i : Nat, (i : Int) < rs.NumPieces → pieces[i]? = some none)
      ∧ (needed = List.range rs.NumPieces.toNat → pieces = coded) := by
  obtain ⟨shards, coded, hsplit, henc, hdrop⟩ := encode_eq_ok DEBUG rs data needed pieces
    hsorted hok
  obtain ⟨_, hlen, hget⟩ := dropPieces_eq_ok _ coded pieces hdrop
  have hN := hlib shards coded hsplit henc
  have hmem := mem_unneededFrom rs.NumPieces.toNat 0 needed hsorted
    (fun n _ => Nat.zero_le n)
  have hlt : ∀ i : Nat, (i : Int) < rs.NumPieces → i < coded.length := by
    intro i hi
    omega
  have hentry : ∀ i : Nat, (i : Int) < rs.NumPieces →
      (i ∈ needed → pieces[i]? = coded[i]?) ∧ (i ∉ needed → pieces[i]? = some none) := by
    intro i hi
    constructor
    · intro hin
      exact (hget i (hlt i hi)).2 (fun hu => ((hmem i).mp hu).2.2 hin)
    · intro hnot
      exact (hget i (hlt i hi)).1 ((hmem i).mpr ⟨Nat.zero_le _, by omega, hnot⟩)
  refine ⟨shards, coded, hsplit, henc, by omega, hentry, ?_, ?_⟩
  · intro he i hi
    exact (hentry i hi).2 (by rw [he]; exact List.not_mem_nil _)
  · intro he
    apply List.ext_getElem?
    intro i
    by_cases hi : (i : Int) < rs.NumPieces
    · exact (hentry i hi).1 (by rw [he]; exact List.mem_range.mpr (by omega))
    · rw [List.getElem?_eq_none (by omega), List.getElem?_eq_none (by omega)]

/-- C20 on the replication coder: with `needed = [1]` piece 0 is nil and piece 1 is
kept. -/
theorem encode_keeps_needed_witness :
    ∃ shards coded, demoCoder.enc.Split [7, 8, 9] = Except.ok shards
      ∧ demoCoder.enc.Encode shards = Except.ok coded
      ∧ (([none, some [7, 8, 9]] : List Piece).length : Int) = demoCoder.NumPieces
      ∧ (∀ i : Nat, (i : Int) < demoCoder.NumPieces →
          (i ∈ [1] → ([none, some [7, 8, 9]] : List Piece)[i]? = coded[i]?)
            ∧ (i ∉ [1] → ([none, some [7, 8, 9]] : List Piece)[i]? = some none))
      ∧ (([1] : List Nat) = [] → ∀ i : Nat, (i : Int) < demoCoder.NumPieces →
          ([none, some [7, 8, 9]] : List Piece)[i]? = some none)
      ∧ ([1] = List.range demoCoder.NumPieces.toNat →
          ([none, some [7, 8, 9]] : List Piece) = coded) :=
  encode_keeps_needed true demoCoder [7, 8, 9] [1] [none, some [7, 8, 9]] (by decide)
    (fun shards coded hs he => by
      have h1 : shards = [some [7, 8, 9], some [0, 0, 0]] := by
        have : demoCoder.enc.Split [7, 8, 9]
            = Except.ok [some [7, 8, 9], some [0, 0, 0]] := rfl
        rw [this] at hs
        injection hs with hs
        exact hs.symm
      subst h1
      have : demoCoder.enc.Encode [some [7, 8, 9], some [0, 0, 0]]
          = Except.ok [some [7, 8, 9], some [7, 8, 9]] := rfl
      rw [this] at he
      injection he with he
      rw [← he]
      rfl)
    (by decide)

theorem addInt_eq (a b : Int) (ha : 0 < a) (hb : 0 < b) (h : a + b < 2 ^ 63) :
    addInt a b = a + b := by
  unfold addInt
  omega

theorem toInt_eq (n : Nat) (h : n < 2 ^ 63) : toInt n = (n : Int) := by
  unfold toInt
  have h1 : n % 2 ^ 64 = n := Nat.mod_eq_of_lt (by omega)
  have h2 : (n : Int) % 2 ^ 64 = (n : Int) := by omega
  rw [h2]
  split
  · rfl
  · next hlt => exact absurd (by omega) hlt

/-- Round trip of a coder whose library encoder satisfies the contract for `nData` data
shards out of `N` pieces. -/
theorem recover_encode (DEBUG : Bool) (rs : rsCode) (nData nParity : Nat)
    (hrs : ReedSolomon rs.enc nData nParity)
    (hnum : rs.NumPieces = ((nData + nParity : Nat) : Int))
    (data : List Nat) (needed : List Nat)
    (hdata : data ≠ []) (hsize : data.length < 2 ^ 63)
    (hsorted : needed.Pairwise (· < ·))
    (hbelow : ∀ n ∈ needed, n < nData + nParity)
    (hmin : nData ≤ needed.length) :
    ∃ pieces, rs.Encode DEBUG data needed = Result.ok pieces
      ∧ rs.Recover pieces data.length = (data, none) := by
  obtain ⟨shards, hsplit, hslen⟩ := hrs.split data hdata
  obtain ⟨coded, henc, hclen⟩ := hrs.encode data shards hsplit
  have hN : rs.NumPieces.toNat = nData + nParity := by rw [hnum]; rfl
  have hmem := mem_unneededFrom (nData + nParity) 0 needed hsorted (fun n _ => Nat.zero_le n)
  have hE := encode_of_split DEBUG rs data needed shards coded hsorted hsplit henc
  rw [hN] at hE
  obtain ⟨pieces, hdrop⟩ := dropPieces_of_lt (unneededFrom 0 (nData + nParity) needed) coded
    (fun u hu => by
      have := ((hmem u).mp hu).2.1
      omega)
  obtain ⟨_, hlen, hget⟩ := dropPieces_eq_ok _ coded pieces hdrop
  refine ⟨pieces, by rw [hE, hdrop], ?_⟩
  have hrec : rs.enc.Reconstruct pieces = Except.ok coded := by
    apply hrs.reconstruct data shards coded pieces needed hsplit henc hlen
    · intro i hi
      by_cases hu : i ∈ unneededFrom 0 (nData + nParity) needed
      · exact Or.inr ((hget i hi).1 hu)
      · exact Or.inl ((hget i hi).2 hu)
    · exact (hsorted.imp (fun h => Nat.ne_of_lt h))
    · exact hmin
    · intro i hi
      have hlt : i < coded.length := by
        have := hbelow i hi
        omega
      exact ⟨hlt, (hget i hlt).2 (fun hu => ((hmem i).mp hu).2.2 hi)⟩
  unfold rsCode.Recover
  rw [hrec, toInt_eq _ hsize]
  exact hrs.join data shards coded hsplit henc hsize

/-- C17. Erasure-code round trip, relative to the contract of the `reedsolomon` library
(`LibraryContract`). For every coder returned without error by
`NewRSCode(nData, nParity)`, every non-empty `data` and every strictly increasing list
`needed` of indices below `NumPieces()` with at least `MinPieces()` elements,
`Encode(data, needed)` succeeds and `Recover` on its result with `n = len(data)` succeeds
and writes exactly `data`; in particular for the list of all indices. -/
theorem erasure_round_trip (New : Int → Int → Except Nat Encoder) (DEBUG : Bool)
    (nData nParity : Int) (rs : rsCode) (data : List Nat)
    (hlib : LibraryContract New)
    (hnew : NewRSCode New nData nParity = Except.ok rs)
    (hdata : data ≠ []) (hsize : data.length < 2 ^ 63) :
    (∀ needed : List Nat, needed.Pairwise (· < ·) →
        (∀ n ∈ needed, (n : Int) < rs.NumPieces) →
        rs.MinPieces ≤ (needed.length : Int) →
        ∃ pieces, rs.Encode DEBUG data needed = Result.ok pieces
          ∧ rs.Recover pieces data.length = (data, none))
    ∧ ∃ pieces, rs.Encode DEBUG data (List.range rs.NumPieces.toNat) = Result.ok pieces
        ∧ rs.Recover pieces data.length = (data, none) := by
  unfold NewRSCode at hnew
  cases hN : New nData nParity with
  | error e => rw [hN] at hnew; exact absurd hnew (by simp)
  | ok enc =>
    rw [hN] at hnew
    injection hnew with hnew
    obtain ⟨hd, hp, hsum, hrs⟩ := hlib nData nParity enc hN
    have hnum : rs.NumPieces = ((nData.toNat + nParity.toNat : Nat) : Int) := by
      rw [← hnew]
      show addInt nData nParity = _
      rw [addInt_eq nData nParity hd hp hsum]
      omega
    have henc : rs.enc = enc := by rw [← hnew]
    have hmin : rs.MinPieces = nData := by rw [← hnew]; rfl
    have hgen : ∀ needed : List Nat, needed.Pairwise (· < ·) →
        (∀ n ∈ needed, (n : Int) < rs.NumPieces) →
        rs.MinPieces ≤ (needed.length : Int) →
        ∃ pieces, rs.Encode DEBUG data needed = Result.ok pieces
          ∧ rs.Recover pieces data.length = (data, none) := by
      intro needed hsorted hbelow hm
      exact recover_encode DEBUG rs nData.toNat nParity.toNat (henc ▸ hrs) hnum data needed
        hdata hsize hsorted
        (fun n hn => by
          have := hbelow n hn
          omega)
        (by omega)
    refine ⟨hgen, hgen _ (List.pairwise_lt_range _) ?_ ?_⟩
    · intro n hn
      have := List.mem_range.mp hn
      omega
    · rw [List.length_range]
      omega

theorem demoEncoder_contract : ReedSolomon demoEncoder 1 1 where
  split := by
    intro data hdata
    exact ⟨[some data, some (List.replicate data.length 0)], by simp [demoEncoder, hdata], rfl⟩
  encode := by
    intro data shards hs
    by_cases hdata : data = []
    · simp [demoEncoder, hdata] at hs
    · simp only [demoEncoder, hdata, if_false, Except.ok.injEq] at hs
      subst hs
      exact ⟨[some data, some data], rfl, rfl⟩
  reconstruct := by
    intro data shards coded pieces present hs he hlen hagree hnd hone hpres
    by_cases hdata : data = []
    · simp [demoEncoder, hdata] at hs
    · simp only [demoEncoder, hdata, if_false, Except.ok.injEq] at hs
      subst hs
      simp only [demoEncoder, Except.ok.injEq] at he
      subst he
      match pieces, hlen with
      | [p0, p1], _ =>
        have h0 := hagree 0 (by simp)
        have h1 := hagree 1 (by simp)
        simp only [List.getElem?_cons_zero, List.getElem?_cons_succ, Option.some.injEq] at h0 h1
        cases present with
        | nil => simp at hone
        | cons i rest =>
          obtain ⟨hi, hpi⟩ := hpres i (List.mem_cons_self _ _)
          have hi2 : i = 0 ∨ i = 1 := by
            simp only [List.length_cons, List.length_nil] at hi
            omega
          rcases hi2 with e | e
          · subst e
            simp only [List.getElem?_cons_zero, Option.some.injEq] at hpi
            subst hpi
            rfl
          · subst e
            simp only [List.getElem?_cons_succ, List.getElem?_cons_zero,
              Option.some.injEq] at hpi
            subst hpi
            rcases h0 with h0 | h0
            · subst h0; rfl
            · subst h0; rfl
  join := by
    intro data shards coded hs he hsize
    by_cases hdata : data = []
    · simp [demoEncoder, hdata] at hs
    · simp only [demoEncoder, hdata, if_false, Except.ok.injEq] at hs
      subst hs
      simp only [demoEncoder, Except.ok.injEq] at he
      subst he
      simp [demoEncoder]

theorem demoNew_contract : LibraryContract demoNew := by
  intro nData nParity enc h
  unfold demoNew at h
  split at h
  · next hc =>
    injection h with h
    subst h
    obtain ⟨h1, h2⟩ := hc
    subst h1 h2
    exact ⟨by decide, by decide, by decide, demoEncoder_contract⟩
  · exact absurd h (by simp)

/-- C17 on the replication coder: the data is recovered from piece 1 alone. -/
theorem erasure_round_trip_witness :
    ∃ pieces, demoCoder.Encode true [7, 8, 9] [1] = Result.ok pieces
      ∧ demoCoder.Recover pieces ([7, 8, 9] : List Nat).length = ([7, 8, 9], none) :=
  (erasure_round_trip demoNew true 1 1 demoCoder [7, 8, 9] demoNew_contract rfl (by decide)
    (by decide)).1 [1] (by decide) (by decide) (by decide)

end renter

end Sia
